import Mathlib

/-!
# Verification of `kademlia-dht-rs`

A shallow embedding, in Lean 4, of the core data structures and algorithms of
the `kademlia-dht-rs` crate (`src/key.rs`, `src/storage.rs`, `src/routing.rs`,
`src/node/mod.rs`, `src/protocol.rs`), together with theorems settling the
specification claims about the code.

Modelling conventions:
* A 256-bit `Key` (`[u8; 32]` in the source) is a list of bytes, each byte a
  `Nat` strictly below 256; wellformedness is the predicate `wfKey`.
* Monotonic instants (`time::SteadyTime`) are modelled as `Int` and every
  operation that reads the clock takes the current instant `now` explicitly.
* `HashMap` / `HashSet` / `BTreeMap` are modelled as association lists and
  duplicate-free lists; hash-order nondeterminism does not affect any of the
  modelled observables.
* Randomness (`rand::random`) is passed in explicitly: a function that draws
  random values receives the drawn values as an argument.
* Code that can block forever (channel receives, the token-generation loop)
  is modelled with an explicit oracle list of arriving events and returns
  `Option`, `none` marking a run that would still be blocked.
-/

namespace Kademlia

/-! ## Constants (src/lib.rs) -/

/-- The number of bytes in a key (`KEY_LENGTH`). -/
def KEY_LENGTH : Nat := 32

/-- The maximum number of k-buckets in the routing table (`ROUTING_TABLE_SIZE`). -/
def ROUTING_TABLE_SIZE : Nat := KEY_LENGTH * 8

/-- The maximum number of entries in a k-bucket (`REPLICATION_PARAM`). -/
def REPLICATION_PARAM : Nat := 20

/-- The maximum number of active RPCs during `lookup_nodes` (`CONCURRENCY_PARAM`). -/
def CONCURRENCY_PARAM : Nat := 3

/-- Key-value pair expiration time in seconds (`KEY_EXPIRATION`). -/
def KEY_EXPIRATION : Int := 3600

/-! ## Keys (src/key.rs) -/

/-- `Key(pub [u8; KEY_LENGTH])`: a key is a list of bytes (most significant first). -/
abbrev Key := List Nat

/-- A wellformed key has exactly `KEY_LENGTH` bytes, each below 256. -/
def wfKey (k : Key) : Prop := k.length = KEY_LENGTH ∧ ∀ b ∈ k, b < 256

instance (k : Key) : Decidable (wfKey k) := by
  unfold wfKey; infer_instance

/-- `Key::xor`: byte-wise XOR of two keys. -/
def xorKey (a b : Key) : Key := List.zipWith (fun x y => x ^^^ y) a b

/-- Leading zeros of a single byte (`u8::leading_zeros`), for bytes below 256. -/
def byteLZ (b : Nat) : Nat :=
  if b = 0 then 8 else if b < 2 then 7 else if b < 4 then 6 else if b < 8 then 5
  else if b < 16 then 4 else if b < 32 then 3 else if b < 64 then 2
  else if b < 128 then 1 else 0

/-- `Key::leading_zeros`: 8 per leading zero byte, then the leading zeros of the
first nonzero byte. -/
def leading_zeros : Key → Nat
  | [] => 0
  | b :: rest => if b = 0 then 8 + leading_zeros rest else byteLZ b

/-- The value of a key as a big-endian unsigned integer. -/
def keyVal : Key → Nat
  | [] => 0
  | b :: rest => b * 256 ^ rest.length + keyVal rest

/-- The derived `Ord` on `Key` (lexicographic on the byte array), as a boolean
`≤` test. -/
def keyLeB : Key → Key → Bool
  | [], _ => true
  | _ :: _, [] => false
  | a :: as, b :: bs => if a < b then true else if b < a then false else keyLeB as bs

/-- The derived `Ord` on `Key` (lexicographic on the byte array), as a boolean
`<` test. -/
def keyLtB : Key → Key → Bool
  | [], [] => false
  | [], _ :: _ => true
  | _ :: _, [] => false
  | a :: as, b :: bs => if a < b then true else if b < a then false else keyLtB as bs

/-- `std::cmp::min` on keys: returns the second argument when it is strictly
smaller. -/
def keyMin (a b : Key) : Key := if keyLtB b a then b else a

/-- `Key::rand_in_range` zeroes the first `bytes` bytes and applies the two bit
masks to the byte at position `bytes`; the remaining bytes keep their random
draw. -/
def zeroPrefixModify : Nat → (Nat → Nat) → List Nat → List Nat
  | _, _, [] => []
  | 0, f, b :: rest => f b :: rest
  | n + 1, f, b :: rest => 0 :: zeroPrefixModify n f rest

/-- `Key::rand_in_range(index)` (src/key.rs): the random draw of `Key::rand` is
passed in explicitly as `draw`. -/
def Key.rand_in_range (index : Nat) (draw : Key) : Key :=
  let bytes := index / 8
  let bit := index % 8
  zeroPrefixModify bytes (fun b => (b &&& (255 >>> bit)) ||| (1 <<< (8 - bit - 1))) draw

/-! ## Node data (src/node/node_data.rs) -/

/-- `NodeData`: pair of network address and id. -/
structure NodeData where
  addr : String
  id : Key
deriving DecidableEq, Repr

/-! ## Protocol messages (src/protocol.rs) -/

inductive RequestPayload
  | Ping
  | Store (key : Key) (value : String)
  | FindNode (key : Key)
  | FindValue (key : Key)
deriving DecidableEq

structure Request where
  id : Key
  sender : NodeData
  payload : RequestPayload
deriving DecidableEq

inductive ResponsePayload
  | Nodes (nodes : List NodeData)
  | Value (value : String)
  | Pong
deriving DecidableEq

structure Response where
  request : Request
  receiver : NodeData
  payload : ResponsePayload
deriving DecidableEq

/-! ## Routing table (src/routing.rs)

`time::SteadyTime` is modelled as `Int`; every operation that reads the clock
takes `now` explicitly. -/

structure RoutingBucket where
  nodes : List NodeData
  last_update_time : Int
deriving DecidableEq

/-- `RoutingBucket::update_node`: move an existing entry to the tail (the Rust
code removes the first position equal to `node_data`, which is `List.erase`),
push at the tail, and drop the head if over capacity. -/
def RoutingBucket.update_node (now : Int) (b : RoutingBucket) (node_data : NodeData) :
    RoutingBucket :=
  let pushed := (b.nodes.erase node_data) ++ [node_data]
  { nodes := if REPLICATION_PARAM < pushed.length then pushed.tail else pushed,
    last_update_time := now }

/-- `RoutingBucket::contains`. -/
def RoutingBucket.contains (b : RoutingBucket) (node_data : NodeData) : Bool :=
  b.nodes.contains node_data

/-- `RoutingBucket::split`: partition by `leading_zeros == index`; the first
component is the updated `self` (the closer bucket), the second the new bucket.
`last_update_time` is preserved on both. -/
def RoutingBucket.split (b : RoutingBucket) (key : Key) (index : Nat) :
    RoutingBucket × RoutingBucket :=
  let part := b.nodes.partition (fun node => leading_zeros (xorKey node.id key) == index)
  (⟨part.1, b.last_update_time⟩, ⟨part.2, b.last_update_time⟩)

/-- `RoutingBucket::remove_lrs`: pop the head. -/
def RoutingBucket.remove_lrs (b : RoutingBucket) : Option NodeData × RoutingBucket :=
  match b.nodes with
  | [] => (none, b)
  | x :: xs => (some x, ⟨xs, b.last_update_time⟩)

/-- `RoutingBucket::remove_node`. -/
def RoutingBucket.remove_node (b : RoutingBucket) (node_data : NodeData) :
    Option NodeData × RoutingBucket :=
  if node_data ∈ b.nodes then (some node_data, ⟨b.nodes.erase node_data, b.last_update_time⟩)
  else (none, b)

/-- `RoutingBucket::size`. -/
def RoutingBucket.size (b : RoutingBucket) : Nat := b.nodes.length

structure RoutingTable where
  buckets : List RoutingBucket
  node_data : NodeData
deriving DecidableEq

/-- Rust indexes `self.buckets[i]` with `i < len` always in range; the model
uses `getD` with a default empty bucket. -/
def getBucket (buckets : List RoutingBucket) (i : Nat) : RoutingBucket :=
  buckets.getD i ⟨[], 0⟩

/-- `RoutingTable::new`: one empty bucket. -/
def RoutingTable.new (node_data : NodeData) (now : Int) : RoutingTable :=
  { buckets := [⟨[], now⟩], node_data := node_data }

/-- The `loop` inside `RoutingTable::update_node`. Each iteration either
returns or splits the last bucket, growing the vector, so
`ROUTING_TABLE_SIZE + 1` iterations always suffice for tables of at most
`ROUTING_TABLE_SIZE` buckets; the fuel-0 case is unreachable for such tables
(in Rust the loop would not terminate on an over-sized table). -/
def update_node_loop (now : Int) (local_id : Key) (node_data : NodeData) (distance : Nat) :
    Nat → List RoutingBucket → Bool × List RoutingBucket
  | 0, buckets => (false, buckets)
  | fuel + 1, buckets =>
    let target_bucket := min distance (buckets.length - 1)
    -- bucket is not full
    if (getBucket buckets target_bucket).size < REPLICATION_PARAM then
      (true, buckets.set target_bucket
        ((getBucket buckets target_bucket).update_node now node_data))
    else
      let is_last_bucket := target_bucket == buckets.length - 1
      let is_full := buckets.length == ROUTING_TABLE_SIZE
      -- bucket cannot be split
      if !is_last_bucket || is_full then (false, buckets)
      else
        -- split bucket
        let pr := (getBucket buckets target_bucket).split local_id target_bucket
        update_node_loop now local_id node_data distance fuel
          (buckets.set target_bucket pr.1 ++ [pr.2])

/-- `RoutingTable::update_node` (src/routing.rs lines 117-147). -/
def RoutingTable.update_node (now : Int) (t : RoutingTable) (node_data : NodeData) :
    Bool × RoutingTable :=
  let distance := leading_zeros (xorKey t.node_data.id node_data.id)
  let target_bucket := min distance (t.buckets.length - 1)
  if (getBucket t.buckets target_bucket).contains node_data then
    (true, { t with buckets := (t.buckets.set target_bucket
      ((getBucket t.buckets target_bucket).update_node now node_data)) })
  else
    let r := update_node_loop now t.node_data.id node_data distance
      (ROUTING_TABLE_SIZE + 1) t.buckets
    (r.1, { t with buckets := r.2 })

/-- The descending walk `for i in (0..index).rev()` in `get_closest_nodes`:
extend with bucket `i`, breaking as soon as at least `count` nodes are
collected. -/
def collect_down (buckets : List RoutingBucket) (count : Nat) :
    Nat → List NodeData → List NodeData
  | 0, acc => acc
  | i + 1, acc =>
    let acc2 := acc ++ (getBucket buckets i).nodes
    if count ≤ acc2.length then acc2 else collect_down buckets count i acc2

/-- The sort key of `ret.sort_by_key(|node| node.id.xor(key))`, as a boolean
comparison (the derived `Ord` on `Key` is lexicographic on the byte arrays). -/
def distLe (key : Key) (a b : NodeData) : Bool :=
  keyLeB (xorKey a.id key) (xorKey b.id key)

/-- `RoutingTable::get_closest_nodes` (src/routing.rs lines 150-182). -/
def RoutingTable.get_closest_nodes (t : RoutingTable) (key : Key) (count : Nat) :
    List NodeData :=
  let index := min (leading_zeros (xorKey t.node_data.id key)) (t.buckets.length - 1)
  -- the closest keys are guaranteed to be in the bucket in which the key would reside
  let ret0 := (getBucket t.buckets index).nodes
  let ret1 := if ret0.length < count then
      ret0 ++ ((t.buckets.drop (index + 1)).map RoutingBucket.nodes).flatten
    else ret0
  let ret2 := if ret1.length < count then collect_down t.buckets count index ret1 else ret1
  (ret2.mergeSort (distLe key)).take count

/-- `RoutingTable::remove_lrs`. -/
def RoutingTable.remove_lrs (t : RoutingTable) (key : Key) :
    Option NodeData × RoutingTable :=
  let index := min (leading_zeros (xorKey t.node_data.id key)) (t.buckets.length - 1)
  let r := (getBucket t.buckets index).remove_lrs
  (r.1, { t with buckets := t.buckets.set index r.2 })

/-- `RoutingTable::remove_node`. -/
def RoutingTable.remove_node (t : RoutingTable) (node_data : NodeData) : RoutingTable :=
  let index := min (leading_zeros (xorKey t.node_data.id node_data.id))
    (t.buckets.length - 1)
  { t with buckets := (t.buckets.set index
      ((getBucket t.buckets index).remove_node node_data).2) }

/-- `RoutingTable::size`. -/
def RoutingTable.size (t : RoutingTable) : Nat := t.buckets.length

/-- The bucket that owns an id: `min(leading_zeros(local ⊕ id), num_buckets - 1)`. -/
def bucket_index (local_id : Key) (num_buckets : Nat) (id : Key) : Nat :=
  min (leading_zeros (xorKey local_id id)) (num_buckets - 1)

/-- All peers stored in the table, bucket by bucket. -/
def allNodes (t : RoutingTable) : List NodeData :=
  (t.buckets.map RoutingBucket.nodes).flatten

/-- The routing-table invariants: at least one bucket, at most
`ROUTING_TABLE_SIZE` buckets, no bucket over `REPLICATION_PARAM` entries, no
`NodeData` stored twice, and every stored peer resides in the bucket that owns
its id. -/
def Inv (t : RoutingTable) : Prop :=
  1 ≤ t.buckets.length ∧ t.buckets.length ≤ ROUTING_TABLE_SIZE ∧
  (∀ b ∈ t.buckets, b.nodes.length ≤ REPLICATION_PARAM) ∧
  (allNodes t).Nodup ∧
  (∀ i, i < t.buckets.length → ∀ nd ∈ (getBucket t.buckets i).nodes,
    bucket_index t.node_data.id t.buckets.length nd.id = i)

instance (t : RoutingTable) : Decidable (Inv t) := by
  unfold Inv allNodes bucket_index; infer_instance

/-- Routing tables reachable from the initial single-empty-bucket state by the
public mutating operations (`split` happens inside `update_node`). -/
inductive Reachable : RoutingTable → Prop
  | new (node_data : NodeData) (now : Int) : Reachable (RoutingTable.new node_data now)
  | update_node (t : RoutingTable) (now : Int) (nd : NodeData) :
      Reachable t → Reachable (RoutingTable.update_node now t nd).2
  | remove_lrs (t : RoutingTable) (key : Key) :
      Reachable t → Reachable (t.remove_lrs key).2
  | remove_node (t : RoutingTable) (nd : NodeData) :
      Reachable t → Reachable (t.remove_node nd)

/-! ## Storage (src/storage.rs)

`HashMap<Key, (String, SteadyTime)>` is modelled as an association list with
no duplicate keys, `BTreeMap<SteadyTime, HashSet<Key>>` as an association list
from instants to duplicate-free key lists. `split_off` at the cutoff keeps
exactly the entries with time `≥ cutoff`, which is the `filter` below. -/

structure Storage where
  items : List (Key × String × Int)
  publish_times : List (Int × List Key)
deriving DecidableEq

def Storage.mk_new : Storage := ⟨[], []⟩

/-- `HashSet::insert`. -/
def insertKeySet (l : List Key) (k : Key) : List Key := if k ∈ l then l else l ++ [k]

/-- `if let Some(keys) = publish_times.get_mut(&t) { keys.remove(&k) }`. -/
def ptRemove (pt : List (Int × List Key)) (t : Int) (k : Key) : List (Int × List Key) :=
  pt.map (fun e => if e.1 = t then (e.1, e.2.erase k) else e)

/-- `publish_times.entry(t).or_insert_with(HashSet::new).insert(k)`. -/
def ptInsert (pt : List (Int × List Key)) (t : Int) (k : Key) : List (Int × List Key) :=
  if pt.any (fun e => e.1 == t) then
    pt.map (fun e => if e.1 = t then (e.1, insertKeySet e.2 k) else e)
  else pt ++ [(t, [k])]

/-- `HashMap::get` on the forward map. -/
def itemsLookup (items : List (Key × String × Int)) (k : Key) : Option (String × Int) :=
  match items.find? (fun e => e.1 == k) with
  | some e => some e.2
  | none => none

/-- `Storage::remove_expired` (src/storage.rs lines 27-39): everything with
publish time strictly below `now - KEY_EXPIRATION` is dropped from both
indices; entries exactly at the cutoff are retained. -/
def Storage.remove_expired (now : Int) (s : Storage) : Storage :=
  let expiration_cutoff := now - KEY_EXPIRATION
  let kept := s.publish_times.filter (fun e => decide (expiration_cutoff ≤ e.1))
  let expired := s.publish_times.filter (fun e => decide (e.1 < expiration_cutoff))
  let expired_keys := (expired.map (fun e => e.2)).flatten
  { items := s.items.filter (fun e => decide (e.1 ∉ expired_keys)),
    publish_times := kept }

/-- `Storage::insert` (src/storage.rs lines 42-56). -/
def Storage.insert (now : Int) (s : Storage) (key : Key) (value : String) : Storage :=
  let s1 := Storage.remove_expired now s
  let curr_time := now
  let old_entry := itemsLookup s1.items key
  let items1 := (key, value, curr_time) :: s1.items.filter (fun e => decide (e.1 ≠ key))
  let pt1 := match old_entry with
    | some (_, old_time) => ptRemove s1.publish_times old_time key
    | none => s1.publish_times
  { items := items1, publish_times := ptInsert pt1 curr_time key }

/-- `Storage::get` (src/storage.rs lines 60-63): it mutates the storage through
`remove_expired`, so it returns the new state as well. -/
def Storage.get (now : Int) (s : Storage) (key : Key) : Option String × Storage :=
  let s1 := Storage.remove_expired now s
  ((itemsLookup s1.items key).map (fun e => e.1), s1)

/-- Wellformedness of a storage: both association lists are keyed uniquely,
the per-instant key sets are duplicate-free, and the two indices mirror each
other: every forward item is listed in the reverse index under its publish
time, and every reverse-index listing has a forward item at that time. -/
def Storage.WF (s : Storage) : Prop :=
  (s.items.map (fun e => e.1)).Nodup ∧
  (s.publish_times.map (fun e => e.1)).Nodup ∧
  (∀ e ∈ s.publish_times, e.2.Nodup) ∧
  (∀ it ∈ s.items, ∃ e ∈ s.publish_times, e.1 = it.2.2 ∧ it.1 ∈ e.2) ∧
  (∀ e ∈ s.publish_times, ∀ k ∈ e.2, ∃ it ∈ s.items, it.1 = k ∧ it.2.2 = e.1)

instance (s : Storage) : Decidable s.WF := by
  unfold Storage.WF; infer_instance

/-! ## The iterative lookup (src/node/mod.rs lines 311-455)

The concurrent RPC workers feed one aggregator channel; the run of
`lookup_nodes` is a deterministic function of the sequence of `Option
<Response>` values arriving on that channel, which is the `oracle` argument.
`HashSet`s are modelled as insertion-ordered duplicate-free lists. The result
carries the unconsumed suffix of the oracle; `none` models a run that blocks
forever on an empty channel. -/

/-- `HashSet::insert` for node sets. -/
def insertSet (l : List NodeData) (nd : NodeData) : List NodeData :=
  if nd ∈ l then l else l ++ [nd]

/-- `BinaryHeap::pop`: `NodeDataDistancePair` is ordered by reversed XOR
distance, so `pop` yields an element with minimal distance to `key` (which
tied element the heap yields is unspecified in Rust; the model takes the
first minimal one). -/
def popMin (key : Key) : List NodeData → Option (NodeData × List NodeData)
  | [] => none
  | x :: xs =>
    match popMin key xs with
    | none => some (x, [])
    | some (y, ys) =>
      if keyLeB (xorKey x.id key) (xorKey y.id key) then some (x, xs)
      else some (y, x :: ys)

/-- The mutable state of `lookup_nodes`. -/
structure LookupState where
  closest_distance : Key
  found_nodes : List NodeData
  queried_nodes : List NodeData
  queue : List NodeData
deriving DecidableEq

/-- `while concurrent_thread_count < CONCURRENCY_PARAM && !queue.is_empty()
{ spawn_find_rpc(queue.pop()); count += 1 }` (spawning itself is recorded by
the oracle). -/
def refillAux (key : Key) : Nat → LookupState → Nat → LookupState × Nat
  | 0, st, count => (st, count)
  | fuel + 1, st, count =>
    if count < CONCURRENCY_PARAM then
      match popMin key st.queue with
      | none => (st, count)
      | some (_, rest) => refillAux key fuel { st with queue := rest } (count + 1)
    else (st, count)

/-- The spawn loop, entered with `count < CONCURRENCY_PARAM` slack as fuel:
when the fuel is exhausted `count ≥ CONCURRENCY_PARAM`, which is exactly the
loop's exit condition, so the fuel never cuts a run short. -/
def refill (key : Key) (st : LookupState) (count : Nat) : LookupState × Nat :=
  refillAux key (CONCURRENCY_PARAM - count) st count

/-- The `for node_data in nodes` body of the progress loop: track whether a
strictly closer node was found. -/
def processNodesPhase1 (key : Key) (st0 : LookupState) (nodes : List NodeData) :
    LookupState × Bool :=
  nodes.foldl (fun (p : LookupState × Bool) node_data =>
    if node_data ∈ p.1.found_nodes then p
    else
      let curr_distance := xorKey node_data.id key
      let closer := keyLtB curr_distance p.1.closest_distance
      ({ closest_distance := if closer then curr_distance else p.1.closest_distance,
         found_nodes := p.1.found_nodes ++ [node_data],
         queried_nodes := p.1.queried_nodes,
         queue := p.1.queue ++ [node_data] }, p.2 || closer))
    (st0, false)

/-- The `for node_data in nodes` body of the fill-to-k loop. -/
def processNodesPhase2 (key : Key) (st0 : LookupState) (nodes : List NodeData) :
    LookupState :=
  nodes.foldl (fun st node_data =>
    if node_data ∈ st.found_nodes then st
    else { st with found_nodes := st.found_nodes ++ [node_data],
                   queue := st.queue ++ [node_data] })
    st0

/-- The final `ret`: `queried_nodes` sorted ascending by XOR distance to the
target, truncated to `REPLICATION_PARAM`. -/
def lookupFinalize (key : Key) (st : LookupState) : ResponsePayload :=
  ResponsePayload.Nodes ((st.queried_nodes.mergeSort (distLe key)).take REPLICATION_PARAM)

/-- The second loop of `lookup_nodes`: fill `queried_nodes` to
`REPLICATION_PARAM` responders, then sort and truncate. -/
def phase2 (key : Key) : List (Option Response) → LookupState → Nat →
    Option (ResponsePayload × List (Option Response))
  | oracle, st, count =>
    if REPLICATION_PARAM ≤ st.queried_nodes.length then some (lookupFinalize key st, oracle)
    else
      let rc := refill key st count
      if rc.2 = 0 then some (lookupFinalize key rc.1, oracle)
      else
        match oracle with
        | [] => none
        | response_opt :: rest =>
          match response_opt with
          | some resp =>
            match resp.payload with
            | ResponsePayload.Nodes nodes =>
              let st2 := processNodesPhase2 key
                { rc.1 with queried_nodes := insertSet rc.1.queried_nodes resp.receiver }
                nodes
              phase2 key rest st2 (rc.2 - 1)
            | ResponsePayload.Value v => some (ResponsePayload.Value v, rest)
            | ResponsePayload.Pong => phase2 key rest rc.1 (rc.2 - 1)
          | none => phase2 key rest rc.1 (rc.2 - 1)

/-- The first loop of `lookup_nodes`: keep spawning while a round finds a
strictly closer node; fall through to `phase2` when a round makes no progress
or no workers remain. -/
def phase1 (key : Key) : List (Option Response) → LookupState → Nat →
    Option (ResponsePayload × List (Option Response))
  | oracle, st, count =>
    if count = 0 then phase2 key oracle st count
    else
      let rc := refill key st count
      match oracle with
      | [] => none
      | response_opt :: rest =>
        match response_opt with
        | some resp =>
          match resp.payload with
          | ResponsePayload.Nodes nodes =>
            let pr := processNodesPhase1 key
              { rc.1 with queried_nodes := insertSet rc.1.queried_nodes resp.receiver }
              nodes
            if pr.2 then phase1 key rest pr.1 (rc.2 - 1)
            else phase2 key rest pr.1 (rc.2 - 1)
          | ResponsePayload.Value v => some (ResponsePayload.Value v, rest)
          | ResponsePayload.Pong => phase1 key rest rc.1 (rc.2 - 1)
        | none => phase1 key rest rc.1 (rc.2 - 1)

/-- `Node::lookup_nodes` (src/node/mod.rs lines 311-455). -/
def Node.lookup_nodes (t : RoutingTable) (local_node : NodeData) (key : Key)
    (oracle : List (Option Response)) :
    Option (ResponsePayload × List (Option Response)) :=
  let closest_nodes := t.get_closest_nodes key CONCURRENCY_PARAM
  let closest_distance := closest_nodes.foldl
    (fun acc node_data => keyMin acc (xorKey key node_data.id))
    (List.replicate KEY_LENGTH 255)
  let found_nodes := insertSet (closest_nodes.foldl insertSet []) local_node
  let queried_nodes := insertSet [] local_node
  let st0 : LookupState :=
    ⟨closest_distance, found_nodes, queried_nodes, closest_nodes⟩
  let rc := refill key st0 0
  phase1 key oracle rc.1 rc.2

/-- `Node::insert` (src/node/mod.rs lines 458-469): the list of destinations
that receive a `Store` RPC. -/
def Node.insert_dests (t : RoutingTable) (local_node : NodeData) (key : Key)
    (oracle : List (Option Response)) : Option (List NodeData) :=
  match Node.lookup_nodes t local_node key oracle with
  | some (ResponsePayload.Nodes nodes, _) => some nodes
  | some _ => some []
  | none => none

/-- `Node::get` (src/node/mod.rs lines 473-479). -/
def Node.get_result (t : RoutingTable) (local_node : NodeData) (key : Key)
    (oracle : List (Option Response)) : Option (Option String) :=
  match Node.lookup_nodes t local_node key oracle with
  | some (ResponsePayload.Value v, _) => some (some v)
  | some _ => some none
  | none => none

/-! ## `Node::send_request` (src/node/mod.rs lines 217-259)

`PendingRequests` is modelled by its key set (the response channels are not
observable); the fresh random draws of `Key::rand` are the explicit `draws`
list, and `outcome` is what `recv_timeout` yields: `some` a response delivered
before `REQUEST_TIMEOUT`, or `none` on timeout. -/

/-- The token-generation loop `while pending_requests.contains_key(&token)`:
the first draw not already pending, `none` if every supplied draw collides. -/
def gen_token : List Key → List Key → Option Key
  | [], _ => none
  | draw :: rest, pending => if draw ∈ pending then gen_token rest pending else some draw

/-- `Node::send_request`: returns the token used, the value returned to the
caller, the pending-request set at return, and the routing table at return. -/
def Node.send_request (draws : List Key) (pending_requests : List Key)
    (t : RoutingTable) (dest : NodeData) (outcome : Option Response) :
    Option (Key × Option Response × List Key × RoutingTable) :=
  match gen_token draws pending_requests with
  | none => none
  | some token =>
    let pending1 := pending_requests ++ [token]
    match outcome with
    | some response => some (token, some response, pending1.erase token, t)
    | none => some (token, none, pending1.erase token, t.remove_node dest)

/-- The running `queried_nodes` fold over a consumed oracle prefix: the
receiver of every delivered `Nodes` response is inserted (`Value` responses
return immediately and timeouts deliver nothing, so neither adds a peer). -/
def queriedFold (acc : List NodeData) : List (Option Response) → List NodeData
  | [] => acc
  | some r :: rest =>
    match r.payload with
    | ResponsePayload.Nodes _ => queriedFold (insertSet acc r.receiver) rest
    | _ => queriedFold acc rest
  | none :: rest => queriedFold acc rest

/-- Whether an oracle entry delivers a `Value` response. -/
def isValueResp : Option Response → Bool
  | some r =>
    match r.payload with
    | ResponsePayload.Value _ => true
    | _ => false
  | none => false

/-! ### Basic facts about `keyVal`, `byteLZ`, `leading_zeros` -/

theorem keyVal_lt (k : Key) (h : ∀ b ∈ k, b < 256) : keyVal k < 256 ^ k.length := by
  induction k with
  | nil => simp [keyVal]
  | cons b rest ih =>
    have hb : b < 256 := h b (List.mem_cons_self _ _)
    have hr : keyVal rest < 256 ^ rest.length := ih fun x hx => h x (List.mem_cons_of_mem _ hx)
    simp only [keyVal, List.length_cons, pow_succ]
    calc b * 256 ^ rest.length + keyVal rest
        < b * 256 ^ rest.length + 256 ^ rest.length := by omega
      _ = (b + 1) * 256 ^ rest.length := by ring
      _ ≤ 256 * 256 ^ rest.length := by
          exact Nat.mul_le_mul_right _ (by omega)
      _ = 256 ^ rest.length * 256 := by ring

theorem byteLZ_le (b : Nat) (hb : b ≠ 0) : byteLZ b ≤ 7 := by
  unfold byteLZ
  split_ifs <;> omega

theorem byteLZ_bounds (b : Nat) (hb : b ≠ 0) (hb2 : b < 256) :
    2 ^ (7 - byteLZ b) ≤ b ∧ b < 2 ^ (8 - byteLZ b) := by
  unfold byteLZ
  split_ifs <;> norm_num <;> omega

theorem leading_zeros_le (k : Key) : leading_zeros k ≤ 8 * k.length := by
  induction k with
  | nil => simp [leading_zeros]
  | cons b rest ih =>
    by_cases hb : b = 0
    · simp only [leading_zeros, if_pos hb, List.length_cons]; omega
    · have := byteLZ_le b hb
      simp only [leading_zeros, if_neg hb, List.length_cons]; omega

theorem keyVal_lt_of_lz (k : Key) (h : ∀ b ∈ k, b < 256) :
    keyVal k < 2 ^ (8 * k.length - leading_zeros k) := by
  induction k with
  | nil => simp [keyVal, leading_zeros]
  | cons b rest ih =>
    have hr := ih fun x hx => h x (List.mem_cons_of_mem _ hx)
    have hlzr := leading_zeros_le rest
    by_cases hb : b = 0
    · simp only [leading_zeros, if_pos hb, keyVal, List.length_cons, hb]
      have : 8 * (rest.length + 1) - (8 + leading_zeros rest)
          = 8 * rest.length - leading_zeros rest := by omega
      simpa [this] using hr
    · have hb2 : b < 256 := h b (List.mem_cons_self _ _)
      obtain ⟨_, hub⟩ := byteLZ_bounds b hb hb2
      have hle7 := byteLZ_le b hb
      simp only [leading_zeros, if_neg hb, keyVal, List.length_cons]
      have hrr : keyVal rest < 256 ^ rest.length :=
        keyVal_lt rest fun x hx => h x (List.mem_cons_of_mem _ hx)
      have h256 : (256 : Nat) ^ rest.length = 2 ^ (8 * rest.length) := by
        rw [show (256 : Nat) = 2 ^ 8 by norm_num, ← pow_mul]
      calc b * 256 ^ rest.length + keyVal rest
          < (b + 1) * 256 ^ rest.length := by nlinarith
        _ ≤ 2 ^ (8 - byteLZ b) * 256 ^ rest.length := by
            exact Nat.mul_le_mul_right _ (by omega)
        _ = 2 ^ (8 - byteLZ b) * 2 ^ (8 * rest.length) := by rw [h256]
        _ = 2 ^ (8 - byteLZ b + 8 * rest.length) := by rw [← pow_add]
        _ = 2 ^ (8 * (rest.length + 1) - byteLZ b) := by congr 1; omega

theorem le_keyVal_of_lz (k : Key) (h : ∀ b ∈ k, b < 256)
    (hlt : leading_zeros k < 8 * k.length) :
    2 ^ (8 * k.length - leading_zeros k - 1) ≤ keyVal k := by
  induction k with
  | nil => simp at hlt
  | cons b rest ih =>
    by_cases hb : b = 0
    · simp only [leading_zeros, if_pos hb, List.length_cons] at hlt ⊢
      have hlt2 : leading_zeros rest < 8 * rest.length := by omega
      have hr := ih (fun x hx => h x (List.mem_cons_of_mem _ hx)) hlt2
      simp only [keyVal, hb, Nat.zero_mul, Nat.zero_add]
      have : 8 * (rest.length + 1) - (8 + leading_zeros rest) - 1
          = 8 * rest.length - leading_zeros rest - 1 := by omega
      simpa [this] using hr
    · have hb2 : b < 256 := h b (List.mem_cons_self _ _)
      obtain ⟨hlb, _⟩ := byteLZ_bounds b hb hb2
      have hle7 := byteLZ_le b hb
      simp only [leading_zeros, if_neg hb, List.length_cons, keyVal]
      have h256 : (256 : Nat) ^ rest.length = 2 ^ (8 * rest.length) := by
        rw [show (256 : Nat) = 2 ^ 8 by norm_num, ← pow_mul]
      calc 2 ^ (8 * (rest.length + 1) - byteLZ b - 1)
          = 2 ^ (7 - byteLZ b + 8 * rest.length) := by congr 1; omega
        _ = 2 ^ (7 - byteLZ b) * 2 ^ (8 * rest.length) := by rw [pow_add]
        _ = 2 ^ (7 - byteLZ b) * 256 ^ rest.length := by rw [h256]
        _ ≤ b * 256 ^ rest.length := Nat.mul_le_mul_right _ hlb
        _ ≤ b * 256 ^ rest.length + keyVal rest := Nat.le_add_right _ _

/-- More leading zeros means a strictly smaller value (for wellformed keys of
equal length). -/
theorem keyVal_lt_keyVal_of_lz_lt (x y : Key) (hx : ∀ b ∈ x, b < 256)
    (hy : ∀ b ∈ y, b < 256) (hlen : x.length = y.length)
    (hlt : leading_zeros x < leading_zeros y) :
    keyVal y < keyVal x := by
  have hy_le := leading_zeros_le y
  have hxlt : leading_zeros x < 8 * x.length := by omega
  have h1 := le_keyVal_of_lz x hx hxlt
  have h2 := keyVal_lt_of_lz y hy
  have hexp : 8 * y.length - leading_zeros y ≤ 8 * x.length - leading_zeros x - 1 := by
    omega
  calc keyVal y < 2 ^ (8 * y.length - leading_zeros y) := h2
    _ ≤ 2 ^ (8 * x.length - leading_zeros x - 1) := Nat.pow_le_pow_right (by norm_num) hexp
    _ ≤ keyVal x := h1

/-! ### Facts about `xorKey` -/

theorem xorKey_length (a b : Key) : (xorKey a b).length = min a.length b.length := by
  simp [xorKey]

theorem xorKey_comm (a b : Key) : xorKey a b = xorKey b a := by
  unfold xorKey
  rw [List.zipWith_comm]
  simp [Nat.xor_comm]

theorem xorKey_bytes_lt (a b : Key) (ha : ∀ x ∈ a, x < 256) (hb : ∀ x ∈ b, x < 256) :
    ∀ x ∈ xorKey a b, x < 256 := by
  induction a generalizing b with
  | nil => simp [xorKey]
  | cons x xs ih =>
    cases b with
    | nil => simp [xorKey]
    | cons y ys =>
      intro z hz
      simp only [xorKey, List.zipWith_cons_cons, List.mem_cons] at hz
      rcases hz with hz | hz
      · subst hz
        have hx : x < 2 ^ 8 := ha x (List.mem_cons_self _ _)
        have hy : y < 2 ^ 8 := hb y (List.mem_cons_self _ _)
        exact Nat.xor_lt_two_pow hx hy
      · exact ih ys (fun u hu => ha u (List.mem_cons_of_mem _ hu))
          (fun u hu => hb u (List.mem_cons_of_mem _ hu)) z hz

theorem xorKey_wf (a b : Key) (ha : wfKey a) (hb : wfKey b) : wfKey (xorKey a b) := by
  refine ⟨?_, xorKey_bytes_lt a b ha.2 hb.2⟩
  rw [xorKey_length, ha.1, hb.1]
  simp

/-- `(a ⊕ b) ⊕ (a ⊕ c) = b ⊕ c` for equal-length keys. -/
theorem xorKey_xorKey (a b c : Key) (hab : a.length = b.length) (hac : a.length = c.length) :
    xorKey (xorKey a b) (xorKey a c) = xorKey b c := by
  induction a generalizing b c with
  | nil =>
    cases b <;> cases c <;> simp_all [xorKey]
  | cons x xs ih =>
    cases b with
    | nil => simp at hab
    | cons y ys =>
      cases c with
      | nil => simp at hac
      | cons z zs =>
        simp only [List.length_cons, Nat.succ_inj] at hab hac
        simp only [xorKey, List.zipWith_cons_cons]
        rw [show (x ^^^ y) ^^^ (x ^^^ z) = y ^^^ z by
          rw [Nat.xor_comm x y, Nat.xor_assoc, ← Nat.xor_assoc x x z, Nat.xor_self,
            Nat.zero_xor]]
        exact congrArg _ (ih ys zs hab hac)

/-! ### Byte-level bit facts -/

theorem testBit_true_of_bounds {a k : Nat} (h1 : 2 ^ k ≤ a) (h2 : a < 2 ^ (k + 1)) :
    a.testBit k = true := by
  have hdiv : a / 2 ^ k = 1 := by
    apply Nat.div_eq_of_lt_le
    · simpa using h1
    · have : 2 ^ (k + 1) = 2 * 2 ^ k := by ring
      omega
  rw [Nat.testBit_to_div_mod, hdiv]
  simp

theorem lt_two_pow_of_testBit_false {c k : Nat} (h2 : c < 2 ^ (k + 1))
    (h : c.testBit k = false) : c < 2 ^ k := by
  by_contra hge
  rw [testBit_true_of_bounds (by omega) h2] at h
  simp at h

theorem byteLZ_eq_of_bounds {c d : Nat} (hd : d ≤ 7) (h1 : 2 ^ (7 - d) ≤ c)
    (h2 : c < 2 ^ (8 - d)) : byteLZ c = d := by
  interval_cases d <;>
    (norm_num at h1 h2; unfold byteLZ; split_ifs <;> omega)

theorem lt_byteLZ_of_lt {c d : Nat} (hd : d ≤ 7) (h : c < 2 ^ (7 - d)) :
    d < byteLZ c := by
  interval_cases d <;> (norm_num at h; unfold byteLZ; split_ifs <;> omega)

/-! ### `leading_zeros` and XOR -/

theorem leading_zeros_cons_zero (rest : Key) :
    leading_zeros (0 :: rest) = 8 + leading_zeros rest := by
  simp [leading_zeros]

theorem leading_zeros_cons_ne {b : Nat} (rest : Key) (hb : b ≠ 0) :
    leading_zeros (b :: rest) = byteLZ b := by
  simp [leading_zeros, hb]

theorem xorKey_cons (a b : Nat) (xs ys : Key) :
    xorKey (a :: xs) (b :: ys) = (a ^^^ b) :: xorKey xs ys := rfl

theorem leading_zeros_ge_eight {b : Nat} {rest : Key}
    (h : 8 ≤ leading_zeros (b :: rest)) : b = 0 := by
  by_contra hb
  have := byteLZ_le b hb
  simp only [leading_zeros, if_neg hb] at h
  omega

/-- If `x` has strictly fewer leading zeros than `y`, their XOR has exactly
`x`'s leading zeros. -/
theorem leading_zeros_xor_of_lt (x : Key) : ∀ (y : Key), x.length = y.length →
    (∀ b ∈ x, b < 256) → (∀ b ∈ y, b < 256) →
    leading_zeros x < leading_zeros y →
    leading_zeros (xorKey x y) = leading_zeros x := by
  induction x with
  | nil =>
    intro y hlen _ _ hlt
    cases y with
    | nil => simp [leading_zeros] at hlt
    | cons _ _ => simp at hlen
  | cons a xs ih =>
    intro y hlen hx hy hlt
    cases y with
    | nil => simp at hlen
    | cons b ys =>
      simp only [List.length_cons, Nat.succ_inj] at hlen
      by_cases ha : a = 0
      · -- x starts with a zero byte, so y must too
        subst ha
        rw [leading_zeros_cons_zero] at hlt
        have hx8 : 8 ≤ leading_zeros (b :: ys) := by omega
        have hb0 : b = 0 := leading_zeros_ge_eight hx8
        subst hb0
        rw [leading_zeros_cons_zero] at hlt
        have hlt2 : leading_zeros xs < leading_zeros ys := by omega
        have hih := ih ys hlen (fun u hu => hx u (List.mem_cons_of_mem _ hu))
          (fun u hu => hy u (List.mem_cons_of_mem _ hu)) hlt2
        rw [xorKey_cons, Nat.xor_self, leading_zeros_cons_zero, leading_zeros_cons_zero,
          hih]
      · -- x's head byte is nonzero: the XOR head byte has the same leading zeros
        set d := byteLZ a with hd_def
        have hlzx : leading_zeros (a :: xs) = d := by simp [leading_zeros, ha]
        have hd7 : d ≤ 7 := byteLZ_le a ha
        have ha256 : a < 256 := hx a (List.mem_cons_self _ _)
        obtain ⟨hla, hua⟩ := byteLZ_bounds a ha ha256
        have hb_lt : b < 2 ^ (7 - d) := by
          by_cases hb : b = 0
          · subst hb; exact Nat.pos_pow_of_pos _ (by norm_num)
          · have hlzy : leading_zeros (b :: ys) = byteLZ b := by simp [leading_zeros, hb]
            have : d < byteLZ b := by omega
            have hb256 : b < 256 := hy b (List.mem_cons_self _ _)
            obtain ⟨_, hub⟩ := byteLZ_bounds b hb hb256
            calc b < 2 ^ (8 - byteLZ b) := hub
              _ ≤ 2 ^ (7 - d) := Nat.pow_le_pow_right (by norm_num) (by omega)
        -- the head of the XOR
        have h87 : 8 - d = (7 - d) + 1 := by omega
        have hta : a.testBit (7 - d) = true :=
          testBit_true_of_bounds hla (by rw [← h87]; exact hua)
        have htb : b.testBit (7 - d) = false := Nat.testBit_lt_two_pow hb_lt
        have htc : (a ^^^ b).testBit (7 - d) = true := by
          rw [Nat.testBit_xor, hta, htb]; rfl
        have hclow : 2 ^ (7 - d) ≤ a ^^^ b := Nat.testBit_implies_ge htc
        have hchigh : a ^^^ b < 2 ^ (8 - d) :=
          Nat.xor_lt_two_pow hua (lt_of_le_of_lt (Nat.le_of_lt hb_lt)
            (Nat.pow_lt_pow_right (by norm_num) (by omega)))
        have : byteLZ (a ^^^ b) = d := byteLZ_eq_of_bounds hd7 hclow hchigh
        have hcne : a ^^^ b ≠ 0 := by
          have : (0 : Nat) < 2 ^ (7 - d) := Nat.pos_pow_of_pos _ (by norm_num)
          omega
        rw [xorKey_cons, leading_zeros_cons_ne _ hcne, leading_zeros_cons_ne _ ha]
        exact this

/-- If `x` and `y` have the same number of leading zeros, short of the full
width, their XOR has strictly more. -/
theorem leading_zeros_xor_of_eq (x : Key) : ∀ (y : Key), x.length = y.length →
    (∀ b ∈ x, b < 256) → (∀ b ∈ y, b < 256) →
    leading_zeros x = leading_zeros y → leading_zeros x < 8 * x.length →
    leading_zeros x < leading_zeros (xorKey x y) := by
  induction x with
  | nil =>
    intro y _ _ _ _ hlt
    simp [leading_zeros] at hlt
  | cons a xs ih =>
    intro y hlen hx hy heq hlt
    cases y with
    | nil => simp at hlen
    | cons b ys =>
      simp only [List.length_cons, Nat.succ_inj] at hlen
      by_cases ha : a = 0
      · subst ha
        have hb0 : b = 0 := by
          apply @leading_zeros_ge_eight b ys
          rw [← heq, leading_zeros_cons_zero]
          omega
        subst hb0
        rw [leading_zeros_cons_zero] at heq hlt ⊢
        rw [leading_zeros_cons_zero] at heq
        rw [xorKey_cons, Nat.xor_self, leading_zeros_cons_zero]
        simp only [List.length_cons] at hlt
        have h1 : leading_zeros xs = leading_zeros ys := by omega
        have h2 : leading_zeros xs < 8 * xs.length := by omega
        have := ih ys hlen (fun u hu => hx u (List.mem_cons_of_mem _ hu))
          (fun u hu => hy u (List.mem_cons_of_mem _ hu)) h1 h2
        omega
      · set d := byteLZ a with hd_def
        have hd7 : d ≤ 7 := byteLZ_le a ha
        have hb : b ≠ 0 := by
          intro hb0
          subst hb0
          rw [leading_zeros_cons_ne _ ha, leading_zeros_cons_zero] at heq
          omega
        have hdb : byteLZ b = d := by
          rw [leading_zeros_cons_ne _ ha, leading_zeros_cons_ne _ hb] at heq
          omega
        have ha256 : a < 256 := hx a (List.mem_cons_self _ _)
        have hb256 : b < 256 := hy b (List.mem_cons_self _ _)
        obtain ⟨hla, hua⟩ := byteLZ_bounds a ha ha256
        obtain ⟨hlb, hub⟩ := byteLZ_bounds b hb hb256
        rw [hdb] at hlb hub
        have h87 : 8 - d = (7 - d) + 1 := by omega
        have hta : a.testBit (7 - d) = true :=
          testBit_true_of_bounds hla (by rw [← h87]; exact hua)
        have htb : b.testBit (7 - d) = true :=
          testBit_true_of_bounds hlb (by rw [← h87]; exact hub)
        have htc : (a ^^^ b).testBit (7 - d) = false := by
          rw [Nat.testBit_xor, hta, htb]; rfl
        have hchigh : a ^^^ b < 2 ^ (8 - d) := Nat.xor_lt_two_pow hua hub
        have hclow : a ^^^ b < 2 ^ (7 - d) :=
          lt_two_pow_of_testBit_false (by rw [← h87]; exact hchigh) htc
        rw [xorKey_cons, leading_zeros_cons_ne _ ha]
        by_cases hc : a ^^^ b = 0
        · rw [hc, leading_zeros_cons_zero]
          omega
        · rw [leading_zeros_cons_ne _ hc]
          exact lt_byteLZ_of_lt hd7 hclow

/-- A key has the full `8 * length` leading zeros exactly when all its bytes
are zero. -/
theorem leading_zeros_eq_full_iff (k : Key) :
    leading_zeros k = 8 * k.length ↔ ∀ b ∈ k, b = 0 := by
  induction k with
  | nil => simp [leading_zeros]
  | cons a xs ih =>
    constructor
    · intro h
      have ha : a = 0 := by
        apply @leading_zeros_ge_eight a xs
        simp only [List.length_cons] at h
        omega
      subst ha
      rw [leading_zeros_cons_zero, List.length_cons] at h
      have := ih.mp (by omega)
      intro b hb
      rcases List.mem_cons.mp hb with h0 | h0
      · exact h0
      · exact this b h0
    · intro h
      have ha : a = 0 := h a (List.mem_cons_self _ _)
      subst ha
      rw [leading_zeros_cons_zero, List.length_cons,
        ih.mpr (fun b hb => h b (List.mem_cons_of_mem _ hb))]
      ring

theorem xorKey_zero_of_zero (x : Key) : ∀ (y : Key), (∀ b ∈ x, b = 0) →
    (∀ b ∈ y, b = 0) → ∀ b ∈ xorKey x y, b = 0 := by
  induction x with
  | nil => simp [xorKey]
  | cons a xs ih =>
    intro y hx hy
    cases y with
    | nil => simp [xorKey]
    | cons c ys =>
      intro b hb
      rw [xorKey_cons] at hb
      rcases List.mem_cons.mp hb with h0 | h0
      · rw [hx a (List.mem_cons_self _ _), hy c (List.mem_cons_self _ _)] at h0
        simpa using h0
      · exact ih ys (fun u hu => hx u (List.mem_cons_of_mem _ hu))
          (fun u hu => hy u (List.mem_cons_of_mem _ hu)) b h0

/-- XOR of two all-zero keys is all-zero. -/
theorem leading_zeros_xor_of_full (x y : Key) (hx : leading_zeros x = 8 * x.length)
    (hy : leading_zeros y = 8 * y.length) :
    leading_zeros (xorKey x y) = 8 * (xorKey x y).length := by
  rw [leading_zeros_eq_full_iff]
  exact xorKey_zero_of_zero x y ((leading_zeros_eq_full_iff x).mp hx)
    ((leading_zeros_eq_full_iff y).mp hy)

/-! ### The lexicographic order on keys agrees with the numeric order -/

theorem keyVal_cons_lt_cons {a b : Nat} {as bs : Key} (h : a < b)
    (hlen : as.length = bs.length) (ha : ∀ u ∈ as, u < 256) :
    keyVal (a :: as) < keyVal (b :: bs) := by
  have hva : keyVal as < 256 ^ as.length := keyVal_lt as ha
  simp only [keyVal]
  rw [show (256 : Nat) ^ bs.length = 256 ^ as.length by rw [hlen]]
  have h1 : (a + 1) * 256 ^ as.length = a * 256 ^ as.length + 256 ^ as.length := by ring
  have h2 : (a + 1) * 256 ^ as.length ≤ b * 256 ^ as.length :=
    Nat.mul_le_mul_right _ (by omega)
  have h3 : 0 ≤ keyVal bs := Nat.zero_le _
  omega

theorem keyLeB_iff (x : Key) : ∀ (y : Key), x.length = y.length →
    (∀ b ∈ x, b < 256) → (∀ b ∈ y, b < 256) →
    (keyLeB x y = true ↔ keyVal x ≤ keyVal y) := by
  induction x with
  | nil =>
    intro y hlen _ _
    cases y with
    | nil => simp [keyLeB]
    | cons _ _ => simp at hlen
  | cons a as ih =>
    intro y hlen hx hy
    cases y with
    | nil => simp at hlen
    | cons b bs =>
      simp only [List.length_cons, Nat.succ_inj] at hlen
      have hxs : ∀ u ∈ as, u < 256 := fun u hu => hx u (List.mem_cons_of_mem _ hu)
      have hys : ∀ u ∈ bs, u < 256 := fun u hu => hy u (List.mem_cons_of_mem _ hu)
      simp only [keyLeB]
      rcases Nat.lt_trichotomy a b with h | h | h
      · rw [if_pos h]
        simp only [true_iff]
        exact le_of_lt (keyVal_cons_lt_cons h hlen hxs)
      · subst h
        rw [if_neg (lt_irrefl a), if_neg (lt_irrefl a)]
        rw [ih bs hlen hxs hys]
        simp only [keyVal]
        rw [show (256 : Nat) ^ bs.length = 256 ^ as.length by rw [hlen]]
        omega
      · rw [if_neg (by omega : ¬ a < b), if_pos h]
        simp only [Bool.false_eq_true, false_iff, not_le]
        exact keyVal_cons_lt_cons h hlen.symm hys

theorem keyLtB_iff (x : Key) : ∀ (y : Key), x.length = y.length →
    (∀ b ∈ x, b < 256) → (∀ b ∈ y, b < 256) →
    (keyLtB x y = true ↔ keyVal x < keyVal y) := by
  induction x with
  | nil =>
    intro y hlen _ _
    cases y with
    | nil => simp [keyLtB]
    | cons _ _ => simp at hlen
  | cons a as ih =>
    intro y hlen hx hy
    cases y with
    | nil => simp at hlen
    | cons b bs =>
      simp only [List.length_cons, Nat.succ_inj] at hlen
      have hxs : ∀ u ∈ as, u < 256 := fun u hu => hx u (List.mem_cons_of_mem _ hu)
      have hys : ∀ u ∈ bs, u < 256 := fun u hu => hy u (List.mem_cons_of_mem _ hu)
      simp only [keyLtB]
      rcases Nat.lt_trichotomy a b with h | h | h
      · rw [if_pos h]
        simp only [true_iff]
        exact keyVal_cons_lt_cons h hlen hxs
      · subst h
        rw [if_neg (lt_irrefl a), if_neg (lt_irrefl a)]
        rw [ih bs hlen hxs hys]
        simp only [keyVal]
        rw [show (256 : Nat) ^ bs.length = 256 ^ as.length by rw [hlen]]
        omega
      · rw [if_neg (by omega : ¬ a < b), if_pos h]
        simp only [Bool.false_eq_true, false_iff, not_lt]
        exact le_of_lt (keyVal_cons_lt_cons h hlen.symm hys)

theorem keyLeB_total (x : Key) : ∀ (y : Key), (keyLeB x y || keyLeB y x) = true := by
  induction x with
  | nil => intro y; simp [keyLeB]
  | cons a as ih =>
    intro y
    cases y with
    | nil => simp [keyLeB]
    | cons b bs =>
      simp only [keyLeB]
      rcases Nat.lt_trichotomy a b with h | h | h
      · rw [if_pos h]; simp
      · subst h
        rw [if_neg (lt_irrefl a), if_neg (lt_irrefl a), if_neg (lt_irrefl a),
          if_neg (lt_irrefl a)]
        exact ih bs
      · have h2 : ¬ a < b := by omega
        simp [h, h2]

theorem keyLeB_trans (x : Key) : ∀ (y z : Key), keyLeB x y = true →
    keyLeB y z = true → keyLeB x z = true := by
  induction x with
  | nil => intro y z _ _; rfl
  | cons a as ih =>
    intro y z hxy hyz
    cases y with
    | nil => exact absurd hxy (by rw [show keyLeB (a :: as) [] = false from rfl]; simp)
    | cons b bs =>
      cases z with
      | nil => exact absurd hyz (by rw [show keyLeB (b :: bs) [] = false from rfl]; simp)
      | cons c cs =>
        simp only [keyLeB] at hxy hyz ⊢
        by_cases h1 : a < b
        · by_cases h2 : b < c
          · rw [if_pos (lt_trans h1 h2)]
          · by_cases h3 : c < b
            · rw [if_neg h2, if_pos h3] at hyz
              exact absurd hyz (by simp)
            · have hbc : b = c := by omega
              subst hbc
              rw [if_pos h1]
        · by_cases h4 : b < a
          · rw [if_neg h1, if_pos h4] at hxy
            exact absurd hxy (by simp)
          · have hab : a = b := by omega
            subst hab
            by_cases h2 : a < c
            · rw [if_pos h2]
            · by_cases h3 : c < a
              · rw [if_neg h2, if_pos h3] at hyz
                exact absurd hyz (by simp)
              · have hac : a = c := by omega
                subst hac
                rw [if_neg h2, if_neg h3] at hyz ⊢
                rw [if_neg h1, if_neg h4] at hxy
                exact ih bs cs hxy hyz

/-! ### `Key::rand_in_range` (claim C9) -/

theorem mask_byte_bounds (bit : Nat) (hbit : bit < 8) (b : Nat) :
    2 ^ (7 - bit) ≤ ((b &&& (255 >>> bit)) ||| (1 <<< (8 - bit - 1))) ∧
    ((b &&& (255 >>> bit)) ||| (1 <<< (8 - bit - 1))) < 2 ^ (8 - bit) := by
  have hshift : (255 : Nat) >>> bit = 2 ^ (8 - bit) - 1 := by
    interval_cases bit <;> decide
  have hone : (1 : Nat) <<< (8 - bit - 1) = 2 ^ (7 - bit) := by
    rw [Nat.shiftLeft_eq, Nat.one_mul]
    congr 1
    omega
  rw [hshift, hone]
  constructor
  · apply Nat.testBit_implies_ge
    rw [Nat.testBit_or, Nat.testBit_two_pow_self]
    simp
  · apply Nat.or_lt_two_pow
    · have h1 : b &&& (2 ^ (8 - bit) - 1) ≤ 2 ^ (8 - bit) - 1 := Nat.and_le_right
      have h2 : (0 : Nat) < 2 ^ (8 - bit) := Nat.pos_pow_of_pos _ (by norm_num)
      omega
    · exact Nat.pow_lt_pow_right (by norm_num) (by omega)

theorem length_zeroPrefixModify (f : Nat → Nat) :
    ∀ (m : Nat) (r : List Nat), (zeroPrefixModify m f r).length = r.length := by
  intro m
  induction m with
  | zero => intro r; cases r <;> simp [zeroPrefixModify]
  | succ n ih =>
    intro r
    cases r with
    | nil => simp [zeroPrefixModify]
    | cons b rest => simp [zeroPrefixModify, ih rest]

theorem bytes_zeroPrefixModify (f : Nat → Nat) (hf : ∀ b, f b < 256) :
    ∀ (m : Nat) (r : List Nat), (∀ b ∈ r, b < 256) →
    ∀ b ∈ zeroPrefixModify m f r, b < 256 := by
  intro m
  induction m with
  | zero =>
    intro r hr b hb
    cases r with
    | nil => simp [zeroPrefixModify] at hb
    | cons x rest =>
      simp only [zeroPrefixModify, List.mem_cons] at hb
      rcases hb with h | h
      · subst h; exact hf x
      · exact hr b (List.mem_cons_of_mem _ h)
  | succ n ih =>
    intro r hr b hb
    cases r with
    | nil => simp [zeroPrefixModify] at hb
    | cons x rest =>
      simp only [zeroPrefixModify, List.mem_cons] at hb
      rcases hb with h | h
      · subst h; norm_num
      · exact ih rest (fun u hu => hr u (List.mem_cons_of_mem _ hu)) b h

theorem lz_zeroPrefixModify (f : Nat → Nat) (d : Nat) (hd : d ≤ 7)
    (hf : ∀ b, 2 ^ (7 - d) ≤ f b ∧ f b < 2 ^ (8 - d)) :
    ∀ (m : Nat) (r : List Nat), m < r.length →
    leading_zeros (zeroPrefixModify m f r) = 8 * m + d := by
  intro m
  induction m with
  | zero =>
    intro r hm
    cases r with
    | nil => simp at hm
    | cons b rest =>
      show leading_zeros (f b :: rest) = 8 * 0 + d
      have hfb := hf b
      have hne : f b ≠ 0 := by
        have : (0 : Nat) < 2 ^ (7 - d) := Nat.pos_pow_of_pos _ (by norm_num)
        omega
      rw [leading_zeros_cons_ne _ hne, byteLZ_eq_of_bounds hd hfb.1 hfb.2]
      omega
  | succ n ih =>
    intro r hm
    cases r with
    | nil => simp at hm
    | cons b rest =>
      show leading_zeros (0 :: zeroPrefixModify n f rest) = 8 * (n + 1) + d
      rw [leading_zeros_cons_zero, ih rest (by simpa using Nat.lt_of_succ_lt_succ hm)]
      ring

/-- C9: for every index `i < 256` and every random draw, `rand_in_range(i)` has
exactly `i` leading zeros; equivalently its big-endian value lies in
`[2^(255-i), 2^(256-i))`. -/
theorem rand_in_range_spec (index : Nat) (draw : Key)
    (hindex : index < 256) (hdraw : wfKey draw) :
    leading_zeros (Key.rand_in_range index draw) = index ∧
    2 ^ (255 - index) ≤ keyVal (Key.rand_in_range index draw) ∧
    keyVal (Key.rand_in_range index draw) < 2 ^ (256 - index) := by
  obtain ⟨hlen, hbytes⟩ := hdraw
  have hbit : index % 8 < 8 := Nat.mod_lt _ (by norm_num)
  have hbytes_lt : index / 8 < 32 := by omega
  have hmask := mask_byte_bounds (index % 8) hbit
  set f := fun b => (b &&& (255 >>> (index % 8))) ||| (1 <<< (8 - index % 8 - 1)) with hf_def
  have hf : ∀ b, 2 ^ (7 - index % 8) ≤ f b ∧ f b < 2 ^ (8 - index % 8) := fun b => hmask b
  have hkey : Key.rand_in_range index draw = zeroPrefixModify (index / 8) f draw := rfl
  have hlz : leading_zeros (Key.rand_in_range index draw) = 8 * (index / 8) + index % 8 := by
    rw [hkey]
    exact lz_zeroPrefixModify f (index % 8) (by omega) hf (index / 8)
      draw (by rw [hlen]; exact hbytes_lt)
  have hlz2 : leading_zeros (Key.rand_in_range index draw) = index := by
    rw [hlz]
    omega
  have hwfb : ∀ b ∈ Key.rand_in_range index draw, b < 256 := by
    rw [hkey]
    apply bytes_zeroPrefixModify f _ _ draw hbytes
    intro b
    calc f b < 2 ^ (8 - index % 8) := (hf b).2
      _ ≤ 2 ^ 8 := Nat.pow_le_pow_right (by norm_num) (by omega)
  have hwlen : (Key.rand_in_range index draw).length = 32 := by
    rw [hkey, length_zeroPrefixModify, hlen]
    rfl
  refine ⟨hlz2, ?_, ?_⟩
  · have := le_keyVal_of_lz (Key.rand_in_range index draw) hwfb
      (by rw [hlz2, hwlen]; omega)
    rw [hlz2, hwlen] at this
    have he : 8 * 32 - index - 1 = 255 - index := by omega
    rwa [he] at this
  · have := keyVal_lt_of_lz (Key.rand_in_range index draw) hwfb
    rw [hlz2, hwlen] at this
    have he : 8 * 32 - index = 256 - index := by omega
    rwa [he] at this

/-- Witness for C9 at the concrete index 13 and an all-171 draw. -/
theorem rand_in_range_spec_witness :
    (13 : Nat) < 256 ∧ wfKey (List.replicate 32 171) ∧
    (leading_zeros (Key.rand_in_range 13 (List.replicate 32 171)) = 13 ∧
     2 ^ (255 - 13) ≤ keyVal (Key.rand_in_range 13 (List.replicate 32 171)) ∧
     keyVal (Key.rand_in_range 13 (List.replicate 32 171)) < 2 ^ (256 - 13)) :=
  ⟨by norm_num, by decide, rand_in_range_spec 13 (List.replicate 32 171)
    (by norm_num) (by decide)⟩

/-! ### Storage lemmas (claims C6, C7) -/

theorem itemsLookup_mem {items : List (Key × String × Int)} {k : Key} {v : String} {t : Int}
    (h : itemsLookup items k = some (v, t)) : (k, v, t) ∈ items := by
  unfold itemsLookup at h
  rcases hf : items.find? (fun e => e.1 == k) with _ | e
  · rw [hf] at h; simp at h
  · rw [hf] at h
    have hm := List.mem_of_find?_eq_some hf
    have hp := List.find?_some hf
    simp only [beq_iff_eq] at hp
    simp only [Option.some_inj] at h
    obtain ⟨k0, v0, t0⟩ := e
    simp only at hp h
    subst hp
    rw [show (v0, t0) = (v, t) from h] at hm
    exact hm

theorem itemsLookup_none {items : List (Key × String × Int)} {k : Key}
    (h : itemsLookup items k = none) : ∀ it ∈ items, it.1 ≠ k := by
  unfold itemsLookup at h
  rcases hf : items.find? (fun e => e.1 == k) with _ | e
  · intro it hit
    have := List.find?_eq_none.mp hf it hit
    simpa using this
  · rw [hf] at h; simp at h

/-- Wellformed items lists bind each key at most once. -/
theorem items_key_unique {items : List (Key × String × Int)}
    (h : (items.map (fun e => e.1)).Nodup) {it1 it2 : Key × String × Int}
    (h1 : it1 ∈ items) (h2 : it2 ∈ items) (hk : it1.1 = it2.1) : it1 = it2 :=
  List.inj_on_of_nodup_map h h1 h2 hk

theorem wf_remove_expired (now : Int) (s : Storage) (h : s.WF) :
    (Storage.remove_expired now s).WF := by
  obtain ⟨h1, h2, h3, h4, h5⟩ := h
  unfold Storage.remove_expired
  refine ⟨?_, ?_, ?_, ?_, ?_⟩
  · exact List.Nodup.sublist (List.Sublist.map _ (List.filter_sublist _)) h1
  · exact List.Nodup.sublist (List.Sublist.map _ (List.filter_sublist _)) h2
  · intro e he
    exact h3 e (List.mem_filter.mp he).1
  · intro it hit
    obtain ⟨hmem, hkeep⟩ := List.mem_filter.mp hit
    obtain ⟨e, he, het, hke⟩ := h4 it hmem
    refine ⟨e, List.mem_filter.mpr ⟨he, ?_⟩, het, hke⟩
    simp only [decide_eq_true_eq]
    by_contra hlt
    push_neg at hlt
    simp only [decide_eq_true_eq] at hkeep
    apply hkeep
    rw [List.mem_flatten]
    refine ⟨e.2, List.mem_map.mpr ⟨e, List.mem_filter.mpr ⟨he, by
      simp only [decide_eq_true_eq]; omega⟩, rfl⟩, hke⟩
  · intro e he k hk
    obtain ⟨hmem, hkeep⟩ := List.mem_filter.mp he
    simp only [decide_eq_true_eq] at hkeep
    obtain ⟨it, hit, hitk, hitt⟩ := h5 e hmem k hk
    refine ⟨it, List.mem_filter.mpr ⟨hit, ?_⟩, hitk, hitt⟩
    simp only [decide_eq_true_eq]
    intro hbad
    rw [List.mem_flatten] at hbad
    obtain ⟨b, hb, hkb⟩ := hbad
    obtain ⟨e2, he2, hbe2⟩ := List.mem_map.mp hb
    obtain ⟨he2mem, he2exp⟩ := List.mem_filter.mp he2
    simp only [decide_eq_true_eq] at he2exp
    subst hbe2
    rw [hitk] at hkb
    obtain ⟨it2, hit2, hit2k, hit2t⟩ := h5 e2 he2mem k hkb
    have heq : it = it2 := items_key_unique h1 hit hit2 (by rw [hitk, hit2k])
    subst heq
    omega

theorem insertKeySet_nodup {l : List Key} (k : Key) (h : l.Nodup) :
    (insertKeySet l k).Nodup := by
  unfold insertKeySet
  by_cases hk : k ∈ l
  · rwa [if_pos hk]
  · rw [if_neg hk]
    simpa [List.nodup_append] using ⟨h, hk⟩

theorem insertKeySet_mem_self (l : List Key) (k : Key) : k ∈ insertKeySet l k := by
  unfold insertKeySet
  by_cases hk : k ∈ l
  · rwa [if_pos hk]
  · rw [if_neg hk]; simp

theorem insertKeySet_mem_mono {l : List Key} {k2 : Key} (k : Key) (h : k2 ∈ l) :
    k2 ∈ insertKeySet l k := by
  unfold insertKeySet
  by_cases hk : k ∈ l
  · rwa [if_pos hk]
  · rw [if_neg hk]; simp [h]

theorem insertKeySet_mem_src {l : List Key} {k2 k : Key} (h : k2 ∈ insertKeySet l k) :
    k2 ∈ l ∨ k2 = k := by
  unfold insertKeySet at h
  by_cases hk : k ∈ l
  · rw [if_pos hk] at h; exact Or.inl h
  · rw [if_neg hk] at h
    simpa using h

theorem pt_modify_times (pt : List (Int × List Key)) (t : Int)
    (f : Int × List Key → List Key) :
    (pt.map (fun e => if e.1 = t then (e.1, f e) else e)).map (fun e => e.1) =
    pt.map (fun e => e.1) := by
  induction pt with
  | nil => rfl
  | cons e rest ih =>
    simp only [List.map_cons, ih]
    by_cases h : e.1 = t <;> simp [h]

theorem ptRemove_times (pt : List (Int × List Key)) (t : Int) (k : Key) :
    (ptRemove pt t k).map (fun e => e.1) = pt.map (fun e => e.1) := by
  unfold ptRemove
  exact pt_modify_times pt t _

theorem ptRemove_buckets_nodup {pt : List (Int × List Key)} (t : Int) (k : Key)
    (h : ∀ e ∈ pt, e.2.Nodup) : ∀ e ∈ ptRemove pt t k, e.2.Nodup := by
  intro e he
  obtain ⟨e0, he0, heq⟩ := List.mem_map.mp he
  by_cases ht : e0.1 = t
  · rw [if_pos ht] at heq
    subst heq
    exact List.Nodup.erase _ (h e0 he0)
  · rw [if_neg ht] at heq
    subst heq
    exact h e0 he0

theorem ptRemove_mention_ne (pt : List (Int × List Key)) (t0 : Int) (k : Key)
    {e : Int × List Key} (he : e ∈ pt) {k2 : Key} (hne : k2 ≠ k) (hk2 : k2 ∈ e.2) :
    ∃ e2 ∈ ptRemove pt t0 k, e2.1 = e.1 ∧ k2 ∈ e2.2 := by
  unfold ptRemove
  by_cases ht : e.1 = t0
  · refine ⟨(e.1, e.2.erase k), List.mem_map.mpr ⟨e, he, by rw [if_pos ht]⟩, rfl,
      (List.mem_erase_of_ne hne).mpr hk2⟩
  · exact ⟨e, List.mem_map.mpr ⟨e, he, by rw [if_neg ht]⟩, rfl, hk2⟩

theorem ptRemove_mention_src (pt : List (Int × List Key)) (t0 : Int) (k : Key)
    {e : Int × List Key} (he : e ∈ ptRemove pt t0 k) {k2 : Key} (hk2 : k2 ∈ e.2) :
    ∃ e0 ∈ pt, e0.1 = e.1 ∧ k2 ∈ e0.2 := by
  obtain ⟨e0, he0, heq⟩ := List.mem_map.mp he
  by_cases ht : e0.1 = t0
  · rw [if_pos ht] at heq
    subst heq
    exact ⟨e0, he0, rfl, (List.erase_sublist _ _).mem hk2⟩
  · rw [if_neg ht] at heq
    subst heq
    exact ⟨e0, he0, rfl, hk2⟩

theorem ptInsert_times_nodup {pt : List (Int × List Key)} (t : Int) (k : Key)
    (h : (pt.map (fun e => e.1)).Nodup) :
    ((ptInsert pt t k).map (fun e => e.1)).Nodup := by
  unfold ptInsert
  by_cases hany : pt.any (fun e => e.1 == t) = true
  · rw [if_pos hany, pt_modify_times]
    exact h
  · rw [if_neg hany]
    have hnot : ∀ e ∈ pt, e.1 ≠ t := by
      intro e he
      simp only [List.any_eq_true, beq_iff_eq, not_exists] at hany
      push_neg at hany
      exact hany e he
    rw [List.map_append]
    simp only [List.map_cons, List.map_nil]
    rw [List.nodup_append]
    refine ⟨h, List.nodup_singleton _, ?_⟩
    intro x hx hx2
    simp only [List.mem_singleton] at hx2
    obtain ⟨e, he, hex⟩ := List.mem_map.mp hx
    exact hnot e he (by rw [hex, hx2])

theorem ptInsert_buckets_nodup {pt : List (Int × List Key)} (t : Int) (k : Key)
    (h : ∀ e ∈ pt, e.2.Nodup) : ∀ e ∈ ptInsert pt t k, e.2.Nodup := by
  unfold ptInsert
  by_cases hany : pt.any (fun e => e.1 == t) = true
  · rw [if_pos hany]
    intro e he
    obtain ⟨e0, he0, heq⟩ := List.mem_map.mp he
    by_cases ht : e0.1 = t
    · rw [if_pos ht] at heq
      subst heq
      exact insertKeySet_nodup k (h e0 he0)
    · rw [if_neg ht] at heq
      subst heq
      exact h e0 he0
  · rw [if_neg hany]
    intro e he
    rcases List.mem_append.mp he with h0 | h0
    · exact h e h0
    · simp only [List.mem_singleton] at h0
      subst h0
      exact List.nodup_singleton _

theorem ptInsert_mention (pt : List (Int × List Key)) (t : Int) (k : Key) :
    ∃ e ∈ ptInsert pt t k, e.1 = t ∧ k ∈ e.2 := by
  unfold ptInsert
  by_cases hany : pt.any (fun e => e.1 == t) = true
  · rw [if_pos hany]
    simp only [List.any_eq_true, beq_iff_eq] at hany
    obtain ⟨e0, he0, het⟩ := hany
    exact ⟨(e0.1, insertKeySet e0.2 k),
      List.mem_map.mpr ⟨e0, he0, by rw [if_pos het]⟩, het, insertKeySet_mem_self _ _⟩
  · rw [if_neg hany]
    exact ⟨(t, [k]), by simp, rfl, by simp⟩

theorem ptInsert_mention_preserved (pt : List (Int × List Key)) (t : Int) (k : Key)
    {e : Int × List Key} (he : e ∈ pt) {k2 : Key} (hk2 : k2 ∈ e.2) :
    ∃ e2 ∈ ptInsert pt t k, e2.1 = e.1 ∧ k2 ∈ e2.2 := by
  unfold ptInsert
  by_cases hany : pt.any (fun e => e.1 == t) = true
  · rw [if_pos hany]
    by_cases ht : e.1 = t
    · exact ⟨(e.1, insertKeySet e.2 k), List.mem_map.mpr ⟨e, he, by rw [if_pos ht]⟩,
        rfl, insertKeySet_mem_mono k hk2⟩
    · exact ⟨e, List.mem_map.mpr ⟨e, he, by rw [if_neg ht]⟩, rfl, hk2⟩
  · rw [if_neg hany]
    exact ⟨e, List.mem_append.mpr (Or.inl he), rfl, hk2⟩

theorem ptInsert_mention_src (pt : List (Int × List Key)) (t : Int) (k : Key)
    {e : Int × List Key} (he : e ∈ ptInsert pt t k) {k2 : Key} (hk2 : k2 ∈ e.2) :
    (∃ e0 ∈ pt, e0.1 = e.1 ∧ k2 ∈ e0.2) ∨ (k2 = k ∧ e.1 = t) := by
  unfold ptInsert at he
  by_cases hany : pt.any (fun e => e.1 == t) = true
  · rw [if_pos hany] at he
    obtain ⟨e0, he0, heq⟩ := List.mem_map.mp he
    by_cases ht : e0.1 = t
    · rw [if_pos ht] at heq
      subst heq
      rcases insertKeySet_mem_src hk2 with h0 | h0
      · exact Or.inl ⟨e0, he0, rfl, h0⟩
      · exact Or.inr ⟨h0, ht⟩
    · rw [if_neg ht] at heq
      subst heq
      exact Or.inl ⟨e0, he0, rfl, hk2⟩
  · rw [if_neg hany] at he
    rcases List.mem_append.mp he with h0 | h0
    · exact Or.inl ⟨e, h0, rfl, hk2⟩
    · simp only [List.mem_singleton] at h0
      subst h0
      simp only [List.mem_singleton] at hk2
      exact Or.inr ⟨hk2, rfl⟩

/-- After a lookup miss, `k` is mentioned nowhere in the reverse index. -/
theorem no_mention_of_lookup_none (s1 : Storage) (w : s1.WF) (k : Key)
    (h : itemsLookup s1.items k = none) : ∀ e ∈ s1.publish_times, k ∉ e.2 := by
  obtain ⟨w1, w2, w3, w4, w5⟩ := w
  intro e he hk
  obtain ⟨it, hit, hk1, _⟩ := w5 e he k hk
  exact itemsLookup_none h it hit hk1

/-- After removing `k` from its (unique) publish-time bucket, `k` is mentioned
nowhere in the reverse index. -/
theorem no_mention_ptRemove (s1 : Storage) (w : s1.WF) (k : Key) (v0 : String) (t0 : Int)
    (h : itemsLookup s1.items k = some (v0, t0)) :
    ∀ e ∈ ptRemove s1.publish_times t0 k, k ∉ e.2 := by
  obtain ⟨w1, w2, w3, w4, w5⟩ := w
  intro e he hk
  obtain ⟨e0, he0, heq⟩ := List.mem_map.mp he
  by_cases ht : e0.1 = t0
  · rw [if_pos ht] at heq
    subst heq
    have hnd := w3 e0 he0
    exact ((List.Nodup.mem_erase_iff hnd).mp hk).1 rfl
  · rw [if_neg ht] at heq
    subst heq
    obtain ⟨it, hit, hk1, ht1⟩ := w5 e0 he0 k hk
    have hitem : (k, v0, t0) ∈ s1.items := itemsLookup_mem h
    have heq2 : it = (k, v0, t0) := items_key_unique w1 hit hitem hk1
    rw [heq2] at ht1
    exact ht (ht1.symm)

/-- The common core of `wf_insert`: inserting the fresh forward entry and the
fresh reverse mention preserves wellformedness, given a reverse index `pt1`
from which every mention of `k` has been removed. -/
theorem wf_insert_core (s1 : Storage) (w : s1.WF) (now : Int) (k : Key) (v : String)
    (pt1 : List (Int × List Key))
    (hA : ∀ e ∈ pt1, k ∉ e.2)
    (hC : pt1.map (fun e => e.1) = s1.publish_times.map (fun e => e.1))
    (hD : ∀ e ∈ pt1, e.2.Nodup)
    (hB1 : ∀ e ∈ s1.publish_times, ∀ k2 ∈ e.2, k2 ≠ k →
      ∃ e2 ∈ pt1, e2.1 = e.1 ∧ k2 ∈ e2.2)
    (hB2 : ∀ e ∈ pt1, ∀ k2 ∈ e.2, ∃ e0 ∈ s1.publish_times, e0.1 = e.1 ∧ k2 ∈ e0.2) :
    Storage.WF ⟨(k, v, now) :: s1.items.filter (fun e => decide (e.1 ≠ k)),
      ptInsert pt1 now k⟩ := by
  obtain ⟨w1, w2, w3, w4, w5⟩ := w
  refine ⟨?_, ?_, ?_, ?_, ?_⟩
  · simp only [List.map_cons]
    rw [List.nodup_cons]
    constructor
    · intro hkmem
      obtain ⟨it, hit, hk1⟩ := List.mem_map.mp hkmem
      have := (List.mem_filter.mp hit).2
      rw [hk1] at this
      simp at this
    · exact List.Nodup.sublist (List.Sublist.map _ (List.filter_sublist _)) w1
  · apply ptInsert_times_nodup
    rw [hC]
    exact w2
  · exact ptInsert_buckets_nodup now k hD
  · intro it hit
    rcases List.mem_cons.mp hit with h0 | h0
    · subst h0
      obtain ⟨e, he, het, hke⟩ := ptInsert_mention pt1 now k
      exact ⟨e, he, het.symm ▸ rfl, hke⟩
    · obtain ⟨hmem, hne⟩ := List.mem_filter.mp h0
      simp only [decide_eq_true_eq] at hne
      obtain ⟨e, he, het, hke⟩ := w4 it hmem
      obtain ⟨e2, he2, het2, hke2⟩ := hB1 e he it.1 hke hne
      obtain ⟨e3, he3, het3, hke3⟩ := ptInsert_mention_preserved pt1 now k he2 hke2
      exact ⟨e3, he3, by rw [het3, het2, het], hke3⟩
  · intro e he k2 hk2
    rcases ptInsert_mention_src pt1 now k he hk2 with ⟨e0, he0, het0, hke0⟩ | ⟨hkk, het⟩
    · have hne : k2 ≠ k := by
        intro hkk
        subst hkk
        exact hA e0 he0 hke0
      obtain ⟨e1, he1, het1, hke1⟩ := hB2 e0 he0 k2 hke0
      obtain ⟨it, hit, hitk, hitt⟩ := w5 e1 he1 k2 hke1
      refine ⟨it, List.mem_cons_of_mem _ (List.mem_filter.mpr ⟨hit, ?_⟩), hitk, ?_⟩
      · simp only [decide_eq_true_eq]
        rw [hitk]
        exact hne
      · rw [hitt, het1, het0]
    · exact ⟨(k, v, now), List.mem_cons_self _ _, hkk.symm, het.symm⟩

/-- `Storage::insert` preserves wellformedness. -/
theorem wf_insert (now : Int) (s : Storage) (k : Key) (v : String) (h : s.WF) :
    (Storage.insert now s k v).WF := by
  have w := wf_remove_expired now s h
  show Storage.WF _
  unfold Storage.insert
  simp only
  rcases hold : itemsLookup (Storage.remove_expired now s).items k with _ | ⟨v0, t0⟩
  · apply wf_insert_core (Storage.remove_expired now s) w now k v
    · exact fun e he hk => no_mention_of_lookup_none _ w k hold e he hk
    · rfl
    · exact w.2.2.1
    · intro e he k2 hk2 _
      exact ⟨e, he, rfl, hk2⟩
    · intro e he k2 hk2
      exact ⟨e, he, rfl, hk2⟩
  · apply wf_insert_core (Storage.remove_expired now s) w now k v
    · exact fun e he hk => no_mention_ptRemove _ w k v0 t0 hold e he hk
    · exact ptRemove_times _ _ _
    · exact ptRemove_buckets_nodup _ _ w.2.2.1
    · intro e he k2 hk2 hne
      exact ptRemove_mention_ne _ t0 k he hne hk2
    · intro e he k2 hk2
      exact ptRemove_mention_src _ t0 k he hk2

theorem insert_items_eq (now : Int) (s : Storage) (k : Key) (v : String) :
    (Storage.insert now s k v).items = (k, v, now) ::
      (Storage.remove_expired now s).items.filter (fun e => decide (e.1 ≠ k)) := by
  unfold Storage.insert
  rcases itemsLookup (Storage.remove_expired now s).items k with _ | ⟨v0, t0⟩ <;> rfl

/-- After an insert of `k`, the reverse index mentions `k` only at the insert
time. -/
theorem insert_mention_time (now : Int) (s : Storage) (k : Key) (v : String) (h : s.WF) :
    ∀ e ∈ (Storage.insert now s k v).publish_times, k ∈ e.2 → e.1 = now := by
  obtain ⟨w1, _, _, _, w5⟩ := wf_insert now s k v h
  intro e he hk
  obtain ⟨it, hit, hitk, hitt⟩ := w5 e he k hk
  have hhead : (k, v, now) ∈ (Storage.insert now s k v).items := by
    rw [insert_items_eq]
    exact List.mem_cons_self _ _
  have heq : it = (k, v, now) := items_key_unique w1 hit hhead hitk
  rw [heq] at hitt
  exact hitt.symm

/-- After an insert of `k`, the reverse index does mention `k` at the insert
time. -/
theorem insert_mention_exists (now : Int) (s : Storage) (k : Key) (v : String) (h : s.WF) :
    ∃ e ∈ (Storage.insert now s k v).publish_times, e.1 = now ∧ k ∈ e.2 := by
  obtain ⟨w1, _, _, w4, _⟩ := wf_insert now s k v h
  have hhead : (k, v, now) ∈ (Storage.insert now s k v).items := by
    rw [insert_items_eq]
    exact List.mem_cons_self _ _
  obtain ⟨e, he, het, hke⟩ := w4 (k, v, now) hhead
  exact ⟨e, he, het, hke⟩

theorem get_items_lookup (now : Int) (s : Storage) (k : Key) :
    (Storage.get now s k).1 = (itemsLookup ((Storage.remove_expired now s).items) k).map
      (fun e => e.1) := rfl

theorem remove_expired_items_eq (now : Int) (s : Storage) :
    (Storage.remove_expired now s).items = s.items.filter (fun e => decide (e.1 ∉
      ((s.publish_times.filter (fun e2 => decide (e2.1 < now - KEY_EXPIRATION))).map
        (fun e2 => e2.2)).flatten)) := rfl

/-- A `get` within `KEY_EXPIRATION` of an insert of `k` returns the inserted
value (an entry exactly at the expiration cutoff is retained). -/
theorem get_insert_fresh (s : Storage) (k : Key) (v : String) (t_ins t_get : Int)
    (hwf : s.WF) (hle : t_ins ≤ t_get) (hexp : t_get - t_ins ≤ KEY_EXPIRATION) :
    (Storage.get t_get (Storage.insert t_ins s k v) k).1 = some v := by
  have hmention := insert_mention_time t_ins s k v hwf
  rw [get_items_lookup, remove_expired_items_eq]
  set expired_keys := (((Storage.insert t_ins s k v).publish_times.filter
    (fun e2 => decide (e2.1 < t_get - KEY_EXPIRATION))).map (fun e2 => e2.2)).flatten
    with hek
  have hknot : k ∉ expired_keys := by
    intro hbad
    rw [hek, List.mem_flatten] at hbad
    obtain ⟨b, hb, hkb⟩ := hbad
    obtain ⟨e, he, hbe⟩ := List.mem_map.mp hb
    obtain ⟨hemem, heexp⟩ := List.mem_filter.mp he
    simp only [decide_eq_true_eq] at heexp
    subst hbe
    have := hmention e hemem hkb
    omega
  rw [insert_items_eq, List.filter_cons, if_pos (by simpa using hknot)]
  unfold itemsLookup
  rw [List.find?_cons_of_pos _ (by simp)]
  rfl

/-- A `get` more than `KEY_EXPIRATION` after the last insert of `k` is absent. -/
theorem get_insert_expired (s : Storage) (k : Key) (v : String) (t_ins t_get : Int)
    (hwf : s.WF) (hexp : KEY_EXPIRATION < t_get - t_ins) :
    (Storage.get t_get (Storage.insert t_ins s k v) k).1 = none := by
  rw [get_items_lookup, remove_expired_items_eq]
  set expired_keys := (((Storage.insert t_ins s k v).publish_times.filter
    (fun e2 => decide (e2.1 < t_get - KEY_EXPIRATION))).map (fun e2 => e2.2)).flatten
    with hek
  have hkmem : k ∈ expired_keys := by
    obtain ⟨e, he, het, hke⟩ := insert_mention_exists t_ins s k v hwf
    rw [hek, List.mem_flatten]
    refine ⟨e.2, List.mem_map.mpr ⟨e, List.mem_filter.mpr ⟨he, ?_⟩, rfl⟩, hke⟩
    simp only [decide_eq_true_eq]
    omega
  have : itemsLookup ((Storage.insert t_ins s k v).items.filter
      (fun e => decide (e.1 ∉ expired_keys))) k = none := by
    unfold itemsLookup
    rw [List.find?_eq_none.mpr]
    intro it hit
    obtain ⟨_, hp⟩ := List.mem_filter.mp hit
    simp only [decide_eq_true_eq] at hp
    simp only [beq_iff_eq]
    intro hk
    rw [hk] at hp
    exact hp hkmem
  rw [this]
  rfl

/-- C7: the `Storage` operations preserve the cross-index invariant: the empty
storage satisfies it, and both `insert` and `get` (which mutates through
`remove_expired`) preserve it: every forward item appears in the reverse index
under its publish time, and every reverse-index listing has a forward item
with that publish time. -/
theorem storage_wf_preserved :
    Storage.WF Storage.mk_new ∧
    (∀ (s : Storage) (now : Int) (k : Key) (v : String), s.WF →
      (Storage.insert now s k v).WF) ∧
    (∀ (s : Storage) (now : Int) (k : Key), s.WF → (Storage.get now s k).2.WF) :=
  ⟨by decide,
   fun s now k v h => wf_insert now s k v h,
   fun s now k h => wf_remove_expired now s h⟩

/-- Witness for C7 at concrete inputs. -/
theorem storage_wf_preserved_witness :
    (Storage.insert 5 Storage.mk_new [2] "x").WF ∧
    (Storage.get 7 Storage.mk_new [2]).2.WF :=
  ⟨storage_wf_preserved.2.1 Storage.mk_new 5 [2] "x" (by decide),
   storage_wf_preserved.2.2 Storage.mk_new 7 [2] (by decide)⟩

/-- C6: within `KEY_EXPIRATION` seconds (boundary included: `remove_expired`
drops only strictly older entries, so an entry exactly at the cutoff is
retained) a `get` after `insert(k, v)` returns `v`; an overwritten key yields
the newest value; once strictly more than `KEY_EXPIRATION` seconds have
elapsed since the last insert of `k`, `get(k)` is absent. -/
theorem storage_expiration_semantics :
    (∀ (s : Storage) (k : Key) (v : String) (t_ins t_get : Int), s.WF →
      t_ins ≤ t_get → t_get - t_ins ≤ KEY_EXPIRATION →
      (Storage.get t_get (Storage.insert t_ins s k v) k).1 = some v) ∧
    (∀ (s : Storage) (k : Key) (v1 v2 : String) (t1 t2 t3 : Int), s.WF →
      t1 ≤ t2 → t2 ≤ t3 → t3 - t2 ≤ KEY_EXPIRATION →
      (Storage.get t3 (Storage.insert t2 (Storage.insert t1 s k v1) k v2) k).1 = some v2) ∧
    (∀ (s : Storage) (k : Key) (v : String) (t_ins t_get : Int), s.WF →
      KEY_EXPIRATION < t_get - t_ins →
      (Storage.get t_get (Storage.insert t_ins s k v) k).1 = none) :=
  ⟨fun s k v t1 t2 hwf hle hexp => get_insert_fresh s k v t1 t2 hwf hle hexp,
   fun s k v1 v2 t1 t2 t3 hwf _ h23 hexp =>
     get_insert_fresh (Storage.insert t1 s k v1) k v2 t2 t3
       (wf_insert t1 s k v1 hwf) h23 hexp,
   fun s k v t1 t2 hwf hexp => get_insert_expired s k v t1 t2 hwf hexp⟩

/-- Witness for C6 at concrete inputs: fresh get at the exact cutoff, get after
overwrite, and get after expiration. -/
theorem storage_expiration_semantics_witness :
    (Storage.get 3700 (Storage.insert 100 Storage.mk_new [1] "a") [1]).1 = some "a" ∧
    (Storage.get 300 (Storage.insert 200 (Storage.insert 100 Storage.mk_new [1] "a")
      [1] "b") [1]).1 = some "b" ∧
    (Storage.get 3701 (Storage.insert 100 Storage.mk_new [1] "a") [1]).1 = none :=
  ⟨storage_expiration_semantics.1 Storage.mk_new [1] "a" 100 3700 (by decide)
      (by norm_num) (by norm_num [KEY_EXPIRATION]),
   storage_expiration_semantics.2.1 Storage.mk_new [1] "a" "b" 100 200 300 (by decide)
      (by norm_num) (by norm_num) (by norm_num [KEY_EXPIRATION]),
   storage_expiration_semantics.2.2 Storage.mk_new [1] "a" 100 3701 (by decide)
      (by norm_num [KEY_EXPIRATION])⟩

/-! ### Routing-table infrastructure (claims C4, C5, C10, C1) -/

theorem getBucket_eq (l : List RoutingBucket) (i : Nat) (hi : i < l.length) :
    getBucket l i = l[i] := by
  unfold getBucket
  rw [List.getD_eq_getElem?_getD, List.getElem?_eq_getElem hi]
  rfl

theorem getBucket_set_self (l : List RoutingBucket) (i : Nat) (b : RoutingBucket)
    (hi : i < l.length) : getBucket (l.set i b) i = b := by
  unfold getBucket
  rw [List.getD_eq_getElem?_getD, List.getElem?_set_self hi]
  rfl

theorem getBucket_set_ne (l : List RoutingBucket) (i j : Nat) (b : RoutingBucket)
    (hne : i ≠ j) : getBucket (l.set i b) j = getBucket l j := by
  unfold getBucket
  rw [List.getD_eq_getElem?_getD, List.getElem?_set_ne hne, ← List.getD_eq_getElem?_getD]

theorem getBucket_append_left (l1 l2 : List RoutingBucket) (i : Nat) (hi : i < l1.length) :
    getBucket (l1 ++ l2) i = getBucket l1 i := by
  rw [getBucket_eq _ i (by rw [List.length_append]; omega), getBucket_eq _ i hi]
  exact List.getElem_append_left hi

theorem getBucket_append_last (l : List RoutingBucket) (b : RoutingBucket) :
    getBucket (l ++ [b]) l.length = b := by
  rw [getBucket_eq _ _ (by simp)]
  simp

theorem mem_getBucket_of_lt {l : List RoutingBucket} {i : Nat} (hi : i < l.length) :
    getBucket l i ∈ l := by
  rw [getBucket_eq l i hi]
  exact List.getElem_mem hi

theorem flatten_map_decompose (l : List RoutingBucket) (i : Nat) (hi : i < l.length) :
    (l.map RoutingBucket.nodes).flatten =
      ((l.take i).map RoutingBucket.nodes).flatten ++ ((getBucket l i).nodes ++
      ((l.drop (i + 1)).map RoutingBucket.nodes).flatten) := by
  conv_lhs => rw [← List.take_append_drop i l]
  rw [List.drop_eq_getElem_cons hi]
  simp only [List.map_append, List.map_cons, List.flatten_append, List.flatten_cons]
  rw [getBucket_eq l i hi]

theorem flatten_map_set (l : List RoutingBucket) (i : Nat) (b : RoutingBucket)
    (hi : i < l.length) :
    ((l.set i b).map RoutingBucket.nodes).flatten =
      ((l.take i).map RoutingBucket.nodes).flatten ++ (b.nodes ++
      ((l.drop (i + 1)).map RoutingBucket.nodes).flatten) := by
  rw [List.set_eq_take_cons_drop b hi]
  simp only [List.map_append, List.map_cons, List.flatten_append, List.flatten_cons]

theorem mem_flatten_iff_getBucket {l : List RoutingBucket} {nd : NodeData} :
    nd ∈ (l.map RoutingBucket.nodes).flatten ↔
      ∃ i, ∃ h : i < l.length, nd ∈ (getBucket l i).nodes := by
  rw [List.mem_flatten]
  constructor
  · rintro ⟨ns, hns, hnd⟩
    obtain ⟨b, hb, hbe⟩ := List.mem_map.mp hns
    obtain ⟨i, hi, hbi⟩ := List.mem_iff_getElem.mp hb
    refine ⟨i, hi, ?_⟩
    rw [getBucket_eq l i hi, hbi, hbe]
    exact hnd
  · rintro ⟨i, hi, hnd⟩
    refine ⟨(getBucket l i).nodes, List.mem_map.mpr ⟨getBucket l i, mem_getBucket_of_lt hi, rfl⟩, hnd⟩

theorem bucket_index_lt (local_id : Key) (len : Nat) (id : Key) (hlen : 1 ≤ len) :
    bucket_index local_id len id < len := by
  unfold bucket_index
  omega

/-- Inserting a new node into a non-full target bucket preserves the
invariants. -/
theorem inv_insert_step (now : Int) (nd0 node_data : NodeData)
    (buckets : List RoutingBucket) (hinv : Inv ⟨buckets, nd0⟩)
    (hnotin : node_data ∉ (buckets.map RoutingBucket.nodes).flatten)
    (hsize : (getBucket buckets (bucket_index nd0.id buckets.length node_data.id)).nodes.length
      < REPLICATION_PARAM) :
    Inv ⟨buckets.set (bucket_index nd0.id buckets.length node_data.id)
      ((getBucket buckets (bucket_index nd0.id buckets.length node_data.id)).update_node
        now node_data), nd0⟩ := by
  obtain ⟨h1, h2, h3, h4, h5⟩ := hinv
  simp only at h1 h2 h3 h4 h5
  set target := bucket_index nd0.id buckets.length node_data.id with htarget
  have htlt : target < buckets.length := bucket_index_lt _ _ _ h1
  have hnotb : node_data ∉ (getBucket buckets target).nodes := by
    intro hb
    exact hnotin (mem_flatten_iff_getBucket.mpr ⟨target, htlt, hb⟩)
  have hbucket : (getBucket buckets target).update_node now node_data =
      ⟨(getBucket buckets target).nodes ++ [node_data], now⟩ := by
    unfold RoutingBucket.update_node
    rw [List.erase_of_not_mem hnotb]
    have hlen2 : ¬ (REPLICATION_PARAM <
        ((getBucket buckets target).nodes ++ [node_data]).length) := by
      simp only [List.length_append, List.length_singleton]
      omega
    simp only [hlen2, if_false]
  rw [hbucket]
  refine ⟨?_, ?_, ?_, ?_, ?_⟩
  · simp only [List.length_set]; exact h1
  · simp only [List.length_set]; exact h2
  · intro b hb
    rcases List.mem_or_eq_of_mem_set hb with h0 | h0
    · exact h3 b h0
    · subst h0
      simp only [List.length_append, List.length_singleton]
      omega
  · simp only [allNodes]
    rw [flatten_map_set _ _ _ htlt]
    unfold allNodes at h4
    simp only at h4
    rw [flatten_map_decompose buckets target htlt] at h4 hnotin
    simp only [List.mem_append] at hnotin
    push_neg at hnotin
    rw [List.nodup_append] at h4 ⊢
    obtain ⟨hpre, hrest, hdisj⟩ := h4
    rw [List.nodup_append] at hrest
    obtain ⟨hmid, hsuf, hds⟩ := hrest
    refine ⟨hpre, ?_, ?_⟩
    · rw [List.nodup_append]
      refine ⟨?_, hsuf, ?_⟩
      · rw [List.nodup_append]
        refine ⟨hmid, List.nodup_singleton _, fun x hx hx2 => ?_⟩
        rw [List.mem_singleton] at hx2
        subst hx2
        exact hnotin.2.1 hx
      · intro x hx hx2
        rcases List.mem_append.mp hx with h0 | h0
        · exact hds h0 hx2
        · rw [List.mem_singleton] at h0
          subst h0
          exact hnotin.2.2 hx2
    · intro x hx hx2
      rcases List.mem_append.mp hx2 with h0 | h0
      · rcases List.mem_append.mp h0 with hm | hm
        · exact hdisj hx (List.mem_append.mpr (Or.inl hm))
        · rw [List.mem_singleton] at hm
          subst hm
          exact hnotin.1 hx
      · exact hdisj hx (List.mem_append.mpr (Or.inr h0))
  · intro i hi nd hd
    simp only [List.length_set] at hi ⊢
    by_cases hit : i = target
    · subst hit
      rw [getBucket_set_self _ _ _ htlt] at hd
      simp only [List.mem_append, List.mem_singleton] at hd
      rcases hd with h0 | h0
      · exact h5 target hi nd h0
      · subst h0
        exact htarget.symm
    · rw [getBucket_set_ne _ _ _ _ (by omega)] at hd
      exact h5 i hi nd hd

theorem lz_xor_comm (a b : Key) :
    leading_zeros (xorKey a b) = leading_zeros (xorKey b a) := by
  rw [xorKey_comm]

/-- Splitting the last bucket preserves the invariants and permutes the stored
peers. -/
theorem inv_split_step (nd0 : NodeData) (buckets : List RoutingBucket)
    (hinv : Inv ⟨buckets, nd0⟩) (hlt : buckets.length < ROUTING_TABLE_SIZE) :
    Inv ⟨buckets.set (buckets.length - 1)
        ((getBucket buckets (buckets.length - 1)).split nd0.id (buckets.length - 1)).1 ++
        [((getBucket buckets (buckets.length - 1)).split nd0.id (buckets.length - 1)).2],
        nd0⟩ ∧
    ((buckets.set (buckets.length - 1)
        ((getBucket buckets (buckets.length - 1)).split nd0.id (buckets.length - 1)).1 ++
        [((getBucket buckets (buckets.length - 1)).split nd0.id (buckets.length - 1)).2]).map
        RoutingBucket.nodes).flatten.Perm ((buckets.map RoutingBucket.nodes).flatten) := by
  obtain ⟨h1, h2, h3, h4, h5⟩ := hinv
  simp only at h1 h2 h3 h5
  unfold allNodes at h4
  simp only at h4
  set n := buckets.length with hn
  set t := n - 1 with ht
  set b := getBucket buckets t with hb
  set pred : NodeData → Bool :=
    (fun node => leading_zeros (xorKey node.id nd0.id) == t) with hpred
  have htlt : t < n := by omega
  have hsplit1 : (b.split nd0.id t).1.nodes = b.nodes.filter pred := by
    unfold RoutingBucket.split
    rw [List.partition_eq_filter_filter]
  have hsplit2 : (b.split nd0.id t).2.nodes = b.nodes.filter (fun x => !(pred x)) := by
    unfold RoutingBucket.split
    rw [List.partition_eq_filter_filter]
    rfl
  have hdrop0 : buckets.drop (t + 1) = [] := by
    have ht1 : t + 1 = n := by omega
    rw [ht1, hn]
    exact List.drop_length buckets
  -- the flattened node lists
  have hflat : ((buckets.set t (b.split nd0.id t).1 ++ [(b.split nd0.id t).2]).map
      RoutingBucket.nodes).flatten =
      ((buckets.take t).map RoutingBucket.nodes).flatten ++
        (b.nodes.filter pred ++ b.nodes.filter (fun x => !(pred x))) := by
    rw [List.map_append, List.flatten_append, flatten_map_set _ _ _ htlt, hdrop0]
    simp only [List.map_cons, List.map_nil, List.flatten_cons, List.flatten_nil,
      List.append_nil]
    rw [hsplit1, hsplit2]
    simp [List.append_assoc]
  have hold : (buckets.map RoutingBucket.nodes).flatten =
      ((buckets.take t).map RoutingBucket.nodes).flatten ++ b.nodes := by
    rw [flatten_map_decompose buckets t htlt, hdrop0, ← hb]
    simp
  have hperm : ((buckets.set t (b.split nd0.id t).1 ++ [(b.split nd0.id t).2]).map
      RoutingBucket.nodes).flatten.Perm ((buckets.map RoutingBucket.nodes).flatten) := by
    rw [hflat, hold]
    exact List.Perm.append_left _ (List.filter_append_perm pred b.nodes)
  refine ⟨⟨?_, ?_, ?_, ?_, ?_⟩, hperm⟩
  · simp only [List.length_append, List.length_set, List.length_singleton]
    omega
  · simp only [List.length_append, List.length_set, List.length_singleton]
    omega
  · intro b2 hb2
    rcases List.mem_append.mp hb2 with h0 | h0
    · rcases List.mem_or_eq_of_mem_set h0 with hm | hm
      · exact h3 b2 hm
      · subst hm
        rw [hsplit1]
        calc (b.nodes.filter pred).length ≤ b.nodes.length := List.length_filter_le _ _
          _ ≤ REPLICATION_PARAM := h3 b (mem_getBucket_of_lt htlt)
    · rw [List.mem_singleton] at h0
      subst h0
      rw [hsplit2]
      calc (b.nodes.filter _).length ≤ b.nodes.length := List.length_filter_le _ _
        _ ≤ REPLICATION_PARAM := h3 b (mem_getBucket_of_lt htlt)
  · simp only [allNodes]
    exact (List.Perm.nodup_iff hperm).mpr h4
  · intro i hi nd hd
    simp only [List.length_append, List.length_set, List.length_singleton] at hi ⊢
    have hlen_set : (buckets.set t (b.split nd0.id t).1).length = n := by
      simp [hn]
    by_cases hin : i < n
    · have hgb : getBucket (buckets.set t (b.split nd0.id t).1 ++
          [(b.split nd0.id t).2]) i = getBucket (buckets.set t (b.split nd0.id t).1) i :=
        getBucket_append_left _ _ i (by omega)
      rw [hgb] at hd
      by_cases hit : i = t
      · subst hit
        rw [getBucket_set_self _ _ _ (by omega)] at hd
        rw [hsplit1, List.mem_filter] at hd
        obtain ⟨hmem, hp⟩ := hd
        rw [hpred] at hp
        simp only [beq_iff_eq] at hp
        unfold bucket_index
        rw [lz_xor_comm, hp]
        omega
      · rw [getBucket_set_ne _ _ _ _ (by omega)] at hd
        have hplaced := h5 i (by omega) nd hd
        unfold bucket_index at hplaced ⊢
        have hmin := hplaced
        -- i < t = n - 1, so the old min forces the exact distance
        omega
    · have hi_eq : i = n := by omega
      subst hi_eq
      have hgb : getBucket (buckets.set t (b.split nd0.id t).1 ++
          [(b.split nd0.id t).2]) n = (b.split nd0.id t).2 := by
        have := getBucket_append_last (buckets.set t (b.split nd0.id t).1)
          ((b.split nd0.id t).2)
        rwa [hlen_set] at this
      rw [hgb, hsplit2, List.mem_filter] at hd
      obtain ⟨hmem, hp⟩ := hd
      rw [hpred] at hp
      simp only [Bool.not_eq_eq_eq_not, Bool.not_true, beq_eq_false_iff_ne,
        ne_eq] at hp
      have hplaced := h5 t htlt nd (by rw [← hb]; exact hmem)
      unfold bucket_index at hplaced ⊢
      have : leading_zeros (xorKey nd.id nd0.id) ≠ t := hp
      rw [lz_xor_comm] at this
      omega

/-- Moving an already-present node to the tail of its bucket preserves the
invariants. -/
theorem inv_move_tail (now : Int) (nd0 node_data : NodeData)
    (buckets : List RoutingBucket) (hinv : Inv ⟨buckets, nd0⟩)
    (hmem : node_data ∈ (getBucket buckets
      (bucket_index nd0.id buckets.length node_data.id)).nodes) :
    Inv ⟨buckets.set (bucket_index nd0.id buckets.length node_data.id)
      ((getBucket buckets (bucket_index nd0.id buckets.length node_data.id)).update_node
        now node_data), nd0⟩ := by
  obtain ⟨h1, h2, h3, h4, h5⟩ := hinv
  simp only at h1 h2 h3 h5
  unfold allNodes at h4
  simp only at h4
  set target := bucket_index nd0.id buckets.length node_data.id with htarget
  have htlt : target < buckets.length := bucket_index_lt _ _ _ h1
  set bkt := getBucket buckets target with hbkt
  have hlen_erase : (bkt.nodes.erase node_data).length = bkt.nodes.length - 1 :=
    List.length_erase_of_mem hmem
  have hlen_le : bkt.nodes.length ≤ REPLICATION_PARAM :=
    h3 bkt (mem_getBucket_of_lt htlt)
  have hpos : 1 ≤ bkt.nodes.length := List.length_pos_of_mem hmem
  have hbucket : bkt.update_node now node_data =
      ⟨bkt.nodes.erase node_data ++ [node_data], now⟩ := by
    unfold RoutingBucket.update_node
    have hle : ¬ (REPLICATION_PARAM <
        (bkt.nodes.erase node_data ++ [node_data]).length) := by
      simp only [List.length_append, List.length_singleton]
      omega
    simp only [hle, if_false]
  have hperm : (bkt.nodes.erase node_data ++ [node_data]).Perm bkt.nodes :=
    List.Perm.trans (List.perm_append_singleton _ _)
      (List.perm_cons_erase hmem).symm
  rw [hbucket]
  refine ⟨?_, ?_, ?_, ?_, ?_⟩
  · simp only [List.length_set]; exact h1
  · simp only [List.length_set]; exact h2
  · intro b hb
    rcases List.mem_or_eq_of_mem_set hb with h0 | h0
    · exact h3 b h0
    · subst h0
      simp only [List.length_append, List.length_singleton]
      omega
  · simp only [allNodes]
    rw [flatten_map_set _ _ _ htlt]
    have hperm2 : (((buckets.take target).map RoutingBucket.nodes).flatten ++
        ((bkt.nodes.erase node_data ++ [node_data]) ++
          ((buckets.drop (target + 1)).map RoutingBucket.nodes).flatten)).Perm
        ((buckets.map RoutingBucket.nodes).flatten) := by
      rw [flatten_map_decompose buckets target htlt, ← hbkt]
      exact List.Perm.append_left _ (List.Perm.append hperm (List.Perm.refl _))
    exact (List.Perm.nodup_iff hperm2).mpr h4
  · intro i hi nd hd
    simp only [List.length_set] at hi ⊢
    by_cases hit : i = target
    · subst hit
      rw [getBucket_set_self _ _ _ htlt] at hd
      simp only at hd
      have hd2 : nd ∈ bkt.nodes := (List.Perm.mem_iff hperm).mp hd
      exact h5 target htlt nd hd2
    · rw [getBucket_set_ne _ _ _ _ (by omega)] at hd
      exact h5 i hi nd hd

theorem loop_cond_true {a b n m : Nat} (h : a ≠ b ∨ n = m) :
    (!(a == b) || (n == m)) = true := by
  rcases h with h | h
  · simp [h]
  · simp [h]

theorem loop_cond_false {a b n m : Nat} (h1 : a = b) (h2 : n ≠ m) :
    (!(a == b) || (n == m)) = false := by
  simp [h1, h2]

theorem update_node_loop_succ_room (now : Int) (local_id : Key) (node_data : NodeData)
    (distance f : Nat) (buckets : List RoutingBucket)
    (h : (getBucket buckets (min distance (buckets.length - 1))).size < REPLICATION_PARAM) :
    update_node_loop now local_id node_data distance (f + 1) buckets =
    (true, buckets.set (min distance (buckets.length - 1))
      ((getBucket buckets (min distance (buckets.length - 1))).update_node now node_data)) := by
  unfold update_node_loop
  rw [if_pos h]

theorem update_node_loop_succ_stop (now : Int) (local_id : Key) (node_data : NodeData)
    (distance f : Nat) (buckets : List RoutingBucket)
    (h : ¬ (getBucket buckets (min distance (buckets.length - 1))).size < REPLICATION_PARAM)
    (h2 : min distance (buckets.length - 1) ≠ buckets.length - 1 ∨
      buckets.length = ROUTING_TABLE_SIZE) :
    update_node_loop now local_id node_data distance (f + 1) buckets = (false, buckets) := by
  unfold update_node_loop
  rw [if_neg h, if_pos (loop_cond_true h2)]

theorem update_node_loop_succ_split (now : Int) (local_id : Key) (node_data : NodeData)
    (distance f : Nat) (buckets : List RoutingBucket)
    (h : ¬ (getBucket buckets (min distance (buckets.length - 1))).size < REPLICATION_PARAM)
    (hlast : min distance (buckets.length - 1) = buckets.length - 1)
    (hnotfull : buckets.length ≠ ROUTING_TABLE_SIZE) :
    update_node_loop now local_id node_data distance (f + 1) buckets =
    update_node_loop now local_id node_data distance f
      (buckets.set (buckets.length - 1)
        ((getBucket buckets (buckets.length - 1)).split local_id (buckets.length - 1)).1 ++
        [((getBucket buckets (buckets.length - 1)).split local_id (buckets.length - 1)).2]) := by
  conv_lhs => unfold update_node_loop
  rw [if_neg h, if_neg (by rw [loop_cond_false hlast hnotfull]; simp)]
  rw [hlast]

theorem update_node_loop_spec (now : Int) (nd0 node_data : NodeData) :
    ∀ (fuel : Nat) (buckets : List RoutingBucket),
    Inv ⟨buckets, nd0⟩ →
    node_data ∉ (buckets.map RoutingBucket.nodes).flatten →
    ROUTING_TABLE_SIZE + 1 - buckets.length ≤ fuel →
    Inv ⟨(update_node_loop now nd0.id node_data
        (leading_zeros (xorKey nd0.id node_data.id)) fuel buckets).2, nd0⟩ ∧
    ((update_node_loop now nd0.id node_data
        (leading_zeros (xorKey nd0.id node_data.id)) fuel buckets).1 = true →
      ∃ i, ∃ hlt : i < (update_node_loop now nd0.id node_data
          (leading_zeros (xorKey nd0.id node_data.id)) fuel buckets).2.length,
        (getBucket (update_node_loop now nd0.id node_data
          (leading_zeros (xorKey nd0.id node_data.id)) fuel buckets).2 i).last_update_time
            = now ∧
        node_data ∈ (getBucket (update_node_loop now nd0.id node_data
          (leading_zeros (xorKey nd0.id node_data.id)) fuel buckets).2 i).nodes) ∧
    ((update_node_loop now nd0.id node_data
        (leading_zeros (xorKey nd0.id node_data.id)) fuel buckets).1 = false →
      (getBucket (update_node_loop now nd0.id node_data
          (leading_zeros (xorKey nd0.id node_data.id)) fuel buckets).2
        (bucket_index nd0.id (update_node_loop now nd0.id node_data
          (leading_zeros (xorKey nd0.id node_data.id)) fuel buckets).2.length
          node_data.id)).nodes.length = REPLICATION_PARAM) := by
  intro fuel
  induction fuel with
  | zero =>
    intro buckets hinv hnotin hfuel
    have h2 := hinv.2.1
    simp only at h2
    exfalso
    unfold ROUTING_TABLE_SIZE KEY_LENGTH at hfuel h2
    omega
  | succ f ih =>
    intro buckets hinv hnotin hfuel
    have h1 := hinv.1
    have h2 := hinv.2.1
    have h3 := hinv.2.2.1
    simp only at h1 h2 h3
    have htarget_eq : min (leading_zeros (xorKey nd0.id node_data.id))
        (buckets.length - 1) = bucket_index nd0.id buckets.length node_data.id := rfl
    have htlt : bucket_index nd0.id buckets.length node_data.id < buckets.length :=
      bucket_index_lt _ _ _ h1
    by_cases hroom : (getBucket buckets (min (leading_zeros (xorKey nd0.id node_data.id))
        (buckets.length - 1))).size < REPLICATION_PARAM
    · rw [update_node_loop_succ_room now nd0.id node_data _ f buckets hroom]
      rw [htarget_eq] at hroom ⊢
      unfold RoutingBucket.size at hroom
      have hnotb : node_data ∉ (getBucket buckets
          (bucket_index nd0.id buckets.length node_data.id)).nodes := by
        intro hm
        exact hnotin (mem_flatten_iff_getBucket.mpr ⟨_, htlt, hm⟩)
      refine ⟨inv_insert_step now nd0 node_data buckets hinv hnotin hroom, ?_, ?_⟩
      · intro _
        refine ⟨bucket_index nd0.id buckets.length node_data.id,
          by simp only [List.length_set]; exact htlt, ?_⟩
        rw [getBucket_set_self _ _ _ htlt]
        unfold RoutingBucket.update_node
        simp only
        rw [List.erase_of_not_mem hnotb]
        have hle : ¬ (REPLICATION_PARAM < ((getBucket buckets
            (bucket_index nd0.id buckets.length node_data.id)).nodes ++
            [node_data]).length) := by
          simp only [List.length_append, List.length_singleton]
          omega
        simp only [hle, if_false]
        constructor <;> simp
      · intro hfalse
        simp at hfalse
    · by_cases hsplit : min (leading_zeros (xorKey nd0.id node_data.id))
          (buckets.length - 1) = buckets.length - 1 ∧
          buckets.length ≠ ROUTING_TABLE_SIZE
      · rw [update_node_loop_succ_split now nd0.id node_data _ f buckets hroom
          hsplit.1 hsplit.2]
        have hlt256 : buckets.length < ROUTING_TABLE_SIZE := by
          have := hsplit.2
          omega
        obtain ⟨hinv2, hperm⟩ := inv_split_step nd0 buckets hinv hlt256
        have hnotin2 : node_data ∉ ((buckets.set (buckets.length - 1)
            ((getBucket buckets (buckets.length - 1)).split nd0.id
              (buckets.length - 1)).1 ++
            [((getBucket buckets (buckets.length - 1)).split nd0.id
              (buckets.length - 1)).2]).map RoutingBucket.nodes).flatten := by
          intro hm
          exact hnotin ((List.Perm.mem_iff hperm).mp hm)
        have hlen2 : (buckets.set (buckets.length - 1)
            ((getBucket buckets (buckets.length - 1)).split nd0.id
              (buckets.length - 1)).1 ++
            [((getBucket buckets (buckets.length - 1)).split nd0.id
              (buckets.length - 1)).2]).length = buckets.length + 1 := by
          simp
        exact ih _ hinv2 hnotin2 (by rw [hlen2]; omega)
      · have hstop : min (leading_zeros (xorKey nd0.id node_data.id))
            (buckets.length - 1) ≠ buckets.length - 1 ∨
            buckets.length = ROUTING_TABLE_SIZE := by
          by_cases ha : min (leading_zeros (xorKey nd0.id node_data.id))
              (buckets.length - 1) = buckets.length - 1
          · right
            by_contra hb
            exact hsplit ⟨ha, hb⟩
          · exact Or.inl ha
        rw [update_node_loop_succ_stop now nd0.id node_data _ f buckets hroom hstop]
        refine ⟨hinv, ?_, ?_⟩
        · intro hbad
          simp at hbad
        · intro _
          show (getBucket buckets (bucket_index nd0.id buckets.length
            node_data.id)).nodes.length = REPLICATION_PARAM
          rw [htarget_eq] at hroom
          unfold RoutingBucket.size at hroom
          have hcap : (getBucket buckets
              (bucket_index nd0.id buckets.length node_data.id)).nodes.length ≤
              REPLICATION_PARAM :=
            h3 _ (mem_getBucket_of_lt htlt)
          omega

/-- The retry loop is insensitive to the fuel bound once the fuel covers the
remaining split capacity. -/
theorem update_node_loop_fuel (now : Int) (local_id : Key) (node_data : NodeData)
    (distance : Nat) :
    ∀ (f1 : Nat), ∀ (f2 : Nat) (buckets : List RoutingBucket),
    buckets.length ≤ ROUTING_TABLE_SIZE →
    ROUTING_TABLE_SIZE + 1 - buckets.length ≤ f1 →
    ROUTING_TABLE_SIZE + 1 - buckets.length ≤ f2 →
    update_node_loop now local_id node_data distance f1 buckets =
    update_node_loop now local_id node_data distance f2 buckets := by
  intro f1
  induction f1 with
  | zero =>
    intro f2 buckets hle hf1 hf2
    exfalso
    unfold ROUTING_TABLE_SIZE KEY_LENGTH at hle hf1
    omega
  | succ g ih =>
    intro f2 buckets hle hf1 hf2
    cases f2 with
    | zero =>
      exfalso
      unfold ROUTING_TABLE_SIZE KEY_LENGTH at hle hf2
      omega
    | succ g2 =>
      by_cases hroom : (getBucket buckets (min distance (buckets.length - 1))).size
          < REPLICATION_PARAM
      · rw [update_node_loop_succ_room now local_id node_data distance g buckets hroom,
          update_node_loop_succ_room now local_id node_data distance g2 buckets hroom]
      · by_cases hsplit : min distance (buckets.length - 1) = buckets.length - 1 ∧
            buckets.length ≠ ROUTING_TABLE_SIZE
        · rw [update_node_loop_succ_split now local_id node_data distance g buckets
            hroom hsplit.1 hsplit.2,
            update_node_loop_succ_split now local_id node_data distance g2 buckets
            hroom hsplit.1 hsplit.2]
          have hlen2 : (buckets.set (buckets.length - 1)
              ((getBucket buckets (buckets.length - 1)).split local_id
                (buckets.length - 1)).1 ++
              [((getBucket buckets (buckets.length - 1)).split local_id
                (buckets.length - 1)).2]).length = buckets.length + 1 := by
            simp
          have hlt : buckets.length < ROUTING_TABLE_SIZE := by
            have := hsplit.2
            omega
          exact ih g2 _ (by rw [hlen2]; omega) (by rw [hlen2]; omega)
            (by rw [hlen2]; omega)
        · have hstop : min distance (buckets.length - 1) ≠ buckets.length - 1 ∨
              buckets.length = ROUTING_TABLE_SIZE := by
            by_cases ha : min distance (buckets.length - 1) = buckets.length - 1
            · right
              by_contra hb
              exact hsplit ⟨ha, hb⟩
            · exact Or.inl ha
          rw [update_node_loop_succ_stop now local_id node_data distance g buckets
            hroom hstop,
            update_node_loop_succ_stop now local_id node_data distance g2 buckets
            hroom hstop]

/-- If a node is absent from its would-be bucket, it is absent from the whole
table (by the placement invariant). -/
theorem not_mem_flatten_of_not_contains (nd0 node_data : NodeData)
    (buckets : List RoutingBucket)
    (h5 : ∀ i, i < buckets.length → ∀ nd ∈ (getBucket buckets i).nodes,
      bucket_index nd0.id buckets.length nd.id = i)
    (hnot : node_data ∉ (getBucket buckets
      (bucket_index nd0.id buckets.length node_data.id)).nodes) :
    node_data ∉ (buckets.map RoutingBucket.nodes).flatten := by
  intro hmem
  obtain ⟨i, hi, hbi⟩ := mem_flatten_iff_getBucket.mp hmem
  have := h5 i hi node_data hbi
  subst this
  exact hnot hbi

/-- `update_node` never changes the local node data. -/
theorem update_node_node_data (now : Int) (t : RoutingTable) (nd : NodeData) :
    (RoutingTable.update_node now t nd).2.node_data = t.node_data := by
  unfold RoutingTable.update_node
  by_cases h : (getBucket t.buckets (min (leading_zeros (xorKey t.node_data.id nd.id))
      (t.buckets.length - 1))).contains nd = true
  · rw [if_pos h]
  · rw [if_neg h]

/-- `RoutingTable::update_node` preserves the invariants. -/
theorem update_node_inv (now : Int) (t : RoutingTable) (nd : NodeData) (h : Inv t) :
    Inv (RoutingTable.update_node now t nd).2 := by
  obtain ⟨b, nd0⟩ := t
  have htarget_eq : min (leading_zeros (xorKey nd0.id nd.id)) (b.length - 1) =
      bucket_index nd0.id b.length nd.id := rfl
  unfold RoutingTable.update_node
  simp only
  by_cases hc : (getBucket b (min (leading_zeros (xorKey nd0.id nd.id))
      (b.length - 1))).contains nd = true
  · rw [if_pos hc]
    rw [htarget_eq] at hc ⊢
    unfold RoutingBucket.contains at hc
    rw [List.elem_iff] at hc
    exact inv_move_tail now nd0 nd b h hc
  · rw [if_neg hc]
    rw [htarget_eq] at hc
    unfold RoutingBucket.contains at hc
    rw [List.elem_iff] at hc
    have hnotin : nd ∉ (b.map RoutingBucket.nodes).flatten :=
      not_mem_flatten_of_not_contains nd0 nd b (by
        have h5 := h.2.2.2.2
        simp only at h5
        exact h5) hc
    have h2 := h.2.1
    simp only at h2
    exact (update_node_loop_spec now nd0 nd (ROUTING_TABLE_SIZE + 1) b h hnotin
      (by omega)).1

/-- Replacing a bucket by one holding a sublist of its nodes preserves the
invariants. -/
theorem inv_set_shrink (nd0 : NodeData) (buckets : List RoutingBucket) (i : Nat)
    (b2 : RoutingBucket) (hinv : Inv ⟨buckets, nd0⟩) (hi : i < buckets.length)
    (hsub : b2.nodes.Sublist (getBucket buckets i).nodes) :
    Inv ⟨buckets.set i b2, nd0⟩ := by
  obtain ⟨h1, h2, h3, h4, h5⟩ := hinv
  simp only at h1 h2 h3 h5
  unfold allNodes at h4
  simp only at h4
  refine ⟨?_, ?_, ?_, ?_, ?_⟩
  · simp only [List.length_set]; exact h1
  · simp only [List.length_set]; exact h2
  · intro b hb
    rcases List.mem_or_eq_of_mem_set hb with h0 | h0
    · exact h3 b h0
    · subst h0
      have ha := hsub.length_le
      have hb2 := h3 _ (mem_getBucket_of_lt hi)
      omega
  · simp only [allNodes]
    rw [flatten_map_set _ _ _ hi]
    apply List.Nodup.sublist _ (by rw [flatten_map_decompose buckets i hi] at h4; exact h4)
    exact List.Sublist.append_left (List.Sublist.append_right hsub _) _
  · intro j hj nd hd
    simp only [List.length_set] at hj ⊢
    by_cases hij : j = i
    · subst hij
      rw [getBucket_set_self _ _ _ hi] at hd
      exact h5 j hj nd (hsub.mem hd)
    · rw [getBucket_set_ne _ _ _ _ (by omega)] at hd
      exact h5 j hj nd hd

theorem remove_lrs_sublist (bk : RoutingBucket) :
    bk.remove_lrs.2.nodes.Sublist bk.nodes := by
  obtain ⟨nodes, time⟩ := bk
  cases nodes with
  | nil => exact List.Sublist.refl _
  | cons x xs => exact List.sublist_cons_self x xs

theorem remove_node_sublist (bk : RoutingBucket) (nd : NodeData) :
    (bk.remove_node nd).2.nodes.Sublist bk.nodes := by
  unfold RoutingBucket.remove_node
  by_cases hm : nd ∈ bk.nodes
  · rw [if_pos hm]
    exact List.erase_sublist _ _
  · rw [if_neg hm]

theorem remove_lrs_inv (t : RoutingTable) (key : Key) (h : Inv t) :
    Inv (t.remove_lrs key).2 := by
  obtain ⟨b, nd0⟩ := t
  have h1 := h.1
  simp only at h1
  unfold RoutingTable.remove_lrs
  simp only
  have hi : min (leading_zeros (xorKey nd0.id key)) (b.length - 1) < b.length := by
    omega
  apply inv_set_shrink nd0 b _ _ h hi
  exact remove_lrs_sublist _

theorem remove_node_inv (t : RoutingTable) (nd : NodeData) (h : Inv t) :
    Inv (t.remove_node nd) := by
  obtain ⟨b, nd0⟩ := t
  have h1 := h.1
  simp only at h1
  unfold RoutingTable.remove_node
  simp only
  have hi : min (leading_zeros (xorKey nd0.id nd.id)) (b.length - 1) < b.length := by
    omega
  apply inv_set_shrink nd0 b _ _ h hi
  exact remove_node_sublist _ _

theorem new_inv (nd : NodeData) (now : Int) : Inv (RoutingTable.new nd now) := by
  refine ⟨?_, ?_, ?_, ?_, ?_⟩
  · simp [RoutingTable.new]
  · simp only [RoutingTable.new, List.length_singleton]
    unfold ROUTING_TABLE_SIZE KEY_LENGTH
    omega
  · intro b hb
    simp only [RoutingTable.new, List.mem_singleton] at hb
    subst hb
    simp [REPLICATION_PARAM]
  · simp [RoutingTable.new, allNodes]
  · intro i hi nd2 hd
    simp only [RoutingTable.new, List.length_singleton] at hi
    interval_cases i
    simp only [RoutingTable.new, getBucket, List.getD] at hd
    simp at hd

/-- C5: every routing table reachable from the initial single-empty-bucket
state by `update_node`, `remove_lrs` and `remove_node` (bucket splitting
happens inside `update_node`) satisfies the invariants: at least one bucket,
at most `ROUTING_TABLE_SIZE` buckets, no bucket above `REPLICATION_PARAM`
entries, no duplicate peer anywhere, and every stored peer in the bucket
owning its id. -/
theorem reachable_inv (t : RoutingTable) (h : Reachable t) : Inv t := by
  induction h with
  | new nd now => exact new_inv nd now
  | update_node t now nd _ ih => exact update_node_inv now t nd ih
  | remove_lrs t key _ ih => exact remove_lrs_inv t key ih
  | remove_node t nd _ ih => exact remove_node_inv t nd ih

/-- Witness for C5 on a concrete reachable table. -/
theorem reachable_inv_witness :
    Inv (RoutingTable.update_node 1
      (RoutingTable.new ⟨"a", List.replicate 32 0⟩ 0)
      ⟨"b", List.replicate 31 0 ++ [1]⟩).2 :=
  reachable_inv _ (Reachable.update_node _ 1 _ (Reachable.new _ 0))

/-- C4: `RoutingTable::update_node` has upsert semantics. Writing `target` for
the bucket owning the peer id: a peer already present is moved to the tail of
its bucket (returning true); an absent peer is appended when the target bucket
has room (returning true); a full target bucket splits only when it is the
last bucket and the table is below `ROUTING_TABLE_SIZE` buckets, and the
insertion is retried on the split table; otherwise false is returned with the
table unchanged; and every successful update stamps the touched bucket's
`last_update_time` with the current instant. -/
theorem update_node_upsert (now : Int) (t : RoutingTable) (nd : NodeData)
    (hinv : Inv t) :
    (nd ∈ (getBucket t.buckets
        (bucket_index t.node_data.id t.buckets.length nd.id)).nodes →
      RoutingTable.update_node now t nd =
        (true, ⟨t.buckets.set (bucket_index t.node_data.id t.buckets.length nd.id)
          ⟨(getBucket t.buckets
              (bucket_index t.node_data.id t.buckets.length nd.id)).nodes.erase nd
            ++ [nd], now⟩, t.node_data⟩)) ∧
    (nd ∉ (getBucket t.buckets
        (bucket_index t.node_data.id t.buckets.length nd.id)).nodes →
      (getBucket t.buckets
        (bucket_index t.node_data.id t.buckets.length nd.id)).nodes.length
        < REPLICATION_PARAM →
      RoutingTable.update_node now t nd =
        (true, ⟨t.buckets.set (bucket_index t.node_data.id t.buckets.length nd.id)
          ⟨(getBucket t.buckets
              (bucket_index t.node_data.id t.buckets.length nd.id)).nodes
            ++ [nd], now⟩, t.node_data⟩)) ∧
    (nd ∉ (getBucket t.buckets
        (bucket_index t.node_data.id t.buckets.length nd.id)).nodes →
      ¬ (getBucket t.buckets
        (bucket_index t.node_data.id t.buckets.length nd.id)).nodes.length
        < REPLICATION_PARAM →
      (bucket_index t.node_data.id t.buckets.length nd.id ≠ t.buckets.length - 1 ∨
        t.buckets.length = ROUTING_TABLE_SIZE) →
      RoutingTable.update_node now t nd = (false, t)) ∧
    (nd ∉ (getBucket t.buckets
        (bucket_index t.node_data.id t.buckets.length nd.id)).nodes →
      ¬ (getBucket t.buckets
        (bucket_index t.node_data.id t.buckets.length nd.id)).nodes.length
        < REPLICATION_PARAM →
      bucket_index t.node_data.id t.buckets.length nd.id = t.buckets.length - 1 →
      t.buckets.length ≠ ROUTING_TABLE_SIZE →
      RoutingTable.update_node now t nd =
        RoutingTable.update_node now
          ⟨t.buckets.set (t.buckets.length - 1)
            ((getBucket t.buckets (t.buckets.length - 1)).split t.node_data.id
              (t.buckets.length - 1)).1 ++
            [((getBucket t.buckets (t.buckets.length - 1)).split t.node_data.id
              (t.buckets.length - 1)).2], t.node_data⟩ nd) ∧
    ((RoutingTable.update_node now t nd).1 = true →
      ∃ i, ∃ hlt : i < (RoutingTable.update_node now t nd).2.buckets.length,
        (getBucket (RoutingTable.update_node now t nd).2.buckets i).last_update_time
          = now ∧
        nd ∈ (getBucket (RoutingTable.update_node now t nd).2.buckets i).nodes) := by
  obtain ⟨b, nd0⟩ := t
  simp only
  have h1 := hinv.1
  have h2 := hinv.2.1
  have h3 := hinv.2.2.1
  have h5 := hinv.2.2.2.2
  simp only at h1 h2 h3 h5
  have htarget_eq : min (leading_zeros (xorKey nd0.id nd.id)) (b.length - 1) =
      bucket_index nd0.id b.length nd.id := rfl
  have htlt : bucket_index nd0.id b.length nd.id < b.length :=
    bucket_index_lt _ _ _ h1
  set target := bucket_index nd0.id b.length nd.id with htgt
  have hcap : (getBucket b target).nodes.length ≤ REPLICATION_PARAM :=
    h3 _ (mem_getBucket_of_lt htlt)
  refine ⟨?_, ?_, ?_, ?_, ?_⟩
  · -- (a) already present: move to tail
    intro hmem
    have hc : (getBucket b (min (leading_zeros (xorKey nd0.id nd.id))
        (b.length - 1))).contains nd = true := by
      rw [htarget_eq]
      unfold RoutingBucket.contains
      rw [List.elem_iff]
      exact hmem
    unfold RoutingTable.update_node
    rw [if_pos hc, htarget_eq]
    have hbucket : (getBucket b target).update_node now nd =
        ⟨(getBucket b target).nodes.erase nd ++ [nd], now⟩ := by
      unfold RoutingBucket.update_node
      have hle : ¬ (REPLICATION_PARAM <
          ((getBucket b target).nodes.erase nd ++ [nd]).length) := by
        simp only [List.length_append, List.length_singleton]
        have := List.length_erase_of_mem hmem
        have := List.length_pos_of_mem hmem
        omega
      simp only [hle, if_false]
    rw [hbucket]
  · -- (b) absent with room: append at the tail
    intro hmem hroom
    have hc : ¬ (getBucket b (min (leading_zeros (xorKey nd0.id nd.id))
        (b.length - 1))).contains nd = true := by
      rw [htarget_eq]
      unfold RoutingBucket.contains
      rw [List.elem_iff]
      exact hmem
    unfold RoutingTable.update_node
    rw [if_neg hc]
    rw [update_node_loop_succ_room now nd0.id nd _ ROUTING_TABLE_SIZE b
      (by rw [htarget_eq]; unfold RoutingBucket.size; exact hroom)]
    rw [htarget_eq]
    have hbucket : (getBucket b target).update_node now nd =
        ⟨(getBucket b target).nodes ++ [nd], now⟩ := by
      unfold RoutingBucket.update_node
      rw [List.erase_of_not_mem hmem]
      have hle : ¬ (REPLICATION_PARAM <
          ((getBucket b target).nodes ++ [nd]).length) := by
        simp only [List.length_append, List.length_singleton]
        omega
      simp only [hle, if_false]
    rw [hbucket]
  · -- (c) full and unsplittable: false
    intro hmem hfull hstop
    have hc : ¬ (getBucket b (min (leading_zeros (xorKey nd0.id nd.id))
        (b.length - 1))).contains nd = true := by
      rw [htarget_eq]
      unfold RoutingBucket.contains
      rw [List.elem_iff]
      exact hmem
    unfold RoutingTable.update_node
    rw [if_neg hc]
    rw [update_node_loop_succ_stop now nd0.id nd _ ROUTING_TABLE_SIZE b
      (by rw [htarget_eq]; unfold RoutingBucket.size; exact hfull)
      (by rw [htarget_eq]; exact hstop)]
  · -- (d) full last bucket below capacity: split and retry
    intro hmem hfull hlast hnotfull
    have hc : ¬ (getBucket b (min (leading_zeros (xorKey nd0.id nd.id))
        (b.length - 1))).contains nd = true := by
      rw [htarget_eq]
      unfold RoutingBucket.contains
      rw [List.elem_iff]
      exact hmem
    have hnotin : nd ∉ (b.map RoutingBucket.nodes).flatten :=
      not_mem_flatten_of_not_contains nd0 nd b h5 hmem
    have hlt256 : b.length < ROUTING_TABLE_SIZE := by omega
    obtain ⟨_, hperm⟩ := inv_split_step nd0 b hinv hlt256
    have hnotin2 : nd ∉ ((b.set (b.length - 1)
        ((getBucket b (b.length - 1)).split nd0.id (b.length - 1)).1 ++
        [((getBucket b (b.length - 1)).split nd0.id (b.length - 1)).2]).map
        RoutingBucket.nodes).flatten := by
      intro hm
      exact hnotin ((List.Perm.mem_iff hperm).mp hm)
    have hc2 : ¬ (getBucket (b.set (b.length - 1)
        ((getBucket b (b.length - 1)).split nd0.id (b.length - 1)).1 ++
        [((getBucket b (b.length - 1)).split nd0.id (b.length - 1)).2])
        (min (leading_zeros (xorKey nd0.id nd.id))
          ((b.set (b.length - 1)
            ((getBucket b (b.length - 1)).split nd0.id (b.length - 1)).1 ++
            [((getBucket b (b.length - 1)).split nd0.id (b.length - 1)).2]).length - 1))).contains
        nd = true := by
      unfold RoutingBucket.contains
      rw [List.elem_iff]
      intro hm
      apply hnotin2
      apply mem_flatten_iff_getBucket.mpr
      refine ⟨_, ?_, hm⟩
      have hlen2 : (b.set (b.length - 1)
          ((getBucket b (b.length - 1)).split nd0.id (b.length - 1)).1 ++
          [((getBucket b (b.length - 1)).split nd0.id (b.length - 1)).2]).length =
          b.length + 1 := by simp
      rw [hlen2]
      omega
    conv_lhs => unfold RoutingTable.update_node
    rw [if_neg hc]
    conv_rhs => unfold RoutingTable.update_node
    rw [if_neg hc2]
    simp only
    have hsplit_step := update_node_loop_succ_split now nd0.id nd
      (leading_zeros (xorKey nd0.id nd.id)) ROUTING_TABLE_SIZE b
      (by rw [htarget_eq]; unfold RoutingBucket.size; exact hfull)
      (by rw [htarget_eq]; exact hlast) hnotfull
    rw [hsplit_step]
    have hlen2 : (b.set (b.length - 1)
        ((getBucket b (b.length - 1)).split nd0.id (b.length - 1)).1 ++
        [((getBucket b (b.length - 1)).split nd0.id (b.length - 1)).2]).length =
        b.length + 1 := by simp
    rw [update_node_loop_fuel now nd0.id nd (leading_zeros (xorKey nd0.id nd.id))
      ROUTING_TABLE_SIZE (ROUTING_TABLE_SIZE + 1) _ (by rw [hlen2]; omega)
      (by rw [hlen2]; omega) (by rw [hlen2]; omega)]
  · -- (e) refreshed bucket on success
    intro htrue
    by_cases hc : (getBucket b (min (leading_zeros (xorKey nd0.id nd.id))
        (b.length - 1))).contains nd = true
    · have hmem : nd ∈ (getBucket b target).nodes := by
        rw [htarget_eq] at hc
        unfold RoutingBucket.contains at hc
        rw [List.elem_iff] at hc
        exact hc
      have hres : RoutingTable.update_node now ⟨b, nd0⟩ nd =
          (true, ⟨b.set target ((getBucket b target).update_node now nd), nd0⟩) := by
        unfold RoutingTable.update_node
        rw [if_pos hc, htarget_eq]
      rw [hres]
      refine ⟨target, by simp only [List.length_set]; exact htlt, ?_, ?_⟩
      · rw [getBucket_set_self _ _ _ htlt]
        unfold RoutingBucket.update_node
        rfl
      · rw [getBucket_set_self _ _ _ htlt]
        have hmemb : nd ∈ ((getBucket b target).nodes.erase nd ++ [nd]) := by
          simp
        unfold RoutingBucket.update_node
        simp only
        by_cases htrim : REPLICATION_PARAM <
            ((getBucket b target).nodes.erase nd ++ [nd]).length
        · exfalso
          have := List.length_erase_of_mem hmem
          have := List.length_pos_of_mem hmem
          simp only [List.length_append, List.length_singleton] at htrim
          omega
        · simp only [htrim, if_false]
          exact hmemb
    · have hmem : nd ∉ (b.map RoutingBucket.nodes).flatten := by
        apply not_mem_flatten_of_not_contains nd0 nd b h5
        rw [htarget_eq] at hc
        unfold RoutingBucket.contains at hc
        rw [List.elem_iff] at hc
        exact hc
      have hres : RoutingTable.update_node now ⟨b, nd0⟩ nd =
          ((update_node_loop now nd0.id nd (leading_zeros (xorKey nd0.id nd.id))
            (ROUTING_TABLE_SIZE + 1) b).1,
           ⟨(update_node_loop now nd0.id nd (leading_zeros (xorKey nd0.id nd.id))
            (ROUTING_TABLE_SIZE + 1) b).2, nd0⟩) := by
        unfold RoutingTable.update_node
        rw [if_neg hc]
      rw [hres] at htrue ⊢
      simp only at htrue ⊢
      obtain ⟨_, hspec2, _⟩ := update_node_loop_spec now nd0 nd
        (ROUTING_TABLE_SIZE + 1) b hinv hmem (by omega)
      exact hspec2 htrue

theorem remove_lrs_isSome (bk : RoutingBucket) (h : bk.nodes ≠ []) :
    bk.remove_lrs.1.isSome = true := by
  obtain ⟨nodes, time⟩ := bk
  cases nodes with
  | nil => simp at h
  | cons x xs => rfl

/-- C10: if `update_node` returns false, the bucket owning the peer id in the
resulting table holds exactly `REPLICATION_PARAM` nodes, so the immediately
following `remove_lrs` on the peer id returns a node (never `none`) — the
precondition of the LRS-eviction ping path in `Node::update_routing_table`. -/
theorem update_node_false_remove_lrs (now : Int) (t : RoutingTable) (nd : NodeData)
    (hinv : Inv t) (hne : nd.id ≠ t.node_data.id)
    (hfalse : (RoutingTable.update_node now t nd).1 = false) :
    (getBucket (RoutingTable.update_node now t nd).2.buckets
      (bucket_index (RoutingTable.update_node now t nd).2.node_data.id
        (RoutingTable.update_node now t nd).2.buckets.length nd.id)).nodes.length
      = REPLICATION_PARAM ∧
    ((RoutingTable.update_node now t nd).2.remove_lrs nd.id).1.isSome = true := by
  obtain ⟨b, nd0⟩ := t
  have h5 := hinv.2.2.2.2
  simp only at h5
  by_cases hc : (getBucket b (min (leading_zeros (xorKey nd0.id nd.id))
      (b.length - 1))).contains nd = true
  · exfalso
    have : (RoutingTable.update_node now ⟨b, nd0⟩ nd).1 = true := by
      unfold RoutingTable.update_node
      rw [if_pos hc]
    rw [this] at hfalse
    simp at hfalse
  · have hmem : nd ∉ (getBucket b (bucket_index nd0.id b.length nd.id)).nodes := by
      unfold RoutingBucket.contains at hc
      rw [List.elem_iff] at hc
      exact hc
    have hnotin : nd ∉ (b.map RoutingBucket.nodes).flatten :=
      not_mem_flatten_of_not_contains nd0 nd b h5 hmem
    have hres : RoutingTable.update_node now ⟨b, nd0⟩ nd =
        ((update_node_loop now nd0.id nd (leading_zeros (xorKey nd0.id nd.id))
          (ROUTING_TABLE_SIZE + 1) b).1,
         ⟨(update_node_loop now nd0.id nd (leading_zeros (xorKey nd0.id nd.id))
          (ROUTING_TABLE_SIZE + 1) b).2, nd0⟩) := by
      unfold RoutingTable.update_node
      rw [if_neg hc]
    rw [hres] at hfalse ⊢
    simp only at hfalse ⊢
    obtain ⟨hinv2, _, hspec3⟩ := update_node_loop_spec now nd0 nd
      (ROUTING_TABLE_SIZE + 1) b hinv hnotin (by omega)
    have hfull := hspec3 hfalse
    refine ⟨hfull, ?_⟩
    have h1b := hinv2.1
    simp only at h1b
    unfold RoutingTable.remove_lrs
    simp only
    apply remove_lrs_isSome
    intro hnil
    have hidx_eq : min (leading_zeros (xorKey nd0.id nd.id))
        ((update_node_loop now nd0.id nd (leading_zeros (xorKey nd0.id nd.id))
          (ROUTING_TABLE_SIZE + 1) b).2.length - 1) =
        bucket_index nd0.id (update_node_loop now nd0.id nd
          (leading_zeros (xorKey nd0.id nd.id))
          (ROUTING_TABLE_SIZE + 1) b).2.length nd.id := rfl
    rw [hidx_eq] at hnil
    rw [hnil] at hfull
    simp only [List.length_nil] at hfull
    unfold REPLICATION_PARAM at hfull
    omega

/-- Witness for C10: a table whose single bucket is full of peers at distance
index 0, updated with a 21st such peer. The update splits once, then fails,
and `remove_lrs` yields a node. -/
theorem update_node_false_remove_lrs_witness :
    Inv (⟨[⟨(List.range 20).map
        (fun i => ⟨toString i, (128 + i) :: List.replicate 31 0⟩), 0⟩],
      ⟨"L", List.replicate 32 0⟩⟩ : RoutingTable) ∧
    (⟨"x", 200 :: List.replicate 31 0⟩ : NodeData).id ≠
      (⟨[⟨(List.range 20).map
          (fun i => ⟨toString i, (128 + i) :: List.replicate 31 0⟩), 0⟩],
        ⟨"L", List.replicate 32 0⟩⟩ : RoutingTable).node_data.id ∧
    (RoutingTable.update_node 1 ⟨[⟨(List.range 20).map
        (fun i => ⟨toString i, (128 + i) :: List.replicate 31 0⟩), 0⟩],
      ⟨"L", List.replicate 32 0⟩⟩ ⟨"x", 200 :: List.replicate 31 0⟩).1 = false ∧
    ((RoutingTable.update_node 1 ⟨[⟨(List.range 20).map
        (fun i => ⟨toString i, (128 + i) :: List.replicate 31 0⟩), 0⟩],
      ⟨"L", List.replicate 32 0⟩⟩ ⟨"x", 200 :: List.replicate 31 0⟩).2.remove_lrs
      (⟨"x", 200 :: List.replicate 31 0⟩ : NodeData).id).1.isSome = true :=
  ⟨by decide, by decide, by decide,
   (update_node_false_remove_lrs 1 _ _ (by decide) (by decide) (by decide)).2⟩

/-- Witness for C4: inserting a fresh peer into the fresh table appends it and
returns true. -/
theorem update_node_upsert_witness :
    Inv (RoutingTable.new ⟨"L", List.replicate 32 0⟩ 0) ∧
    (RoutingTable.update_node 5 (RoutingTable.new ⟨"L", List.replicate 32 0⟩ 0)
      ⟨"b", List.replicate 31 0 ++ [1]⟩).1 = true :=
  ⟨by decide, by
    have h := (update_node_upsert 5 (RoutingTable.new ⟨"L", List.replicate 32 0⟩ 0)
      ⟨"b", List.replicate 31 0 ++ [1]⟩ (by decide)).2.1
    rw [h (by decide) (by decide)]⟩

/-! ### `Node::send_request` (claim C8) -/

theorem gen_token_not_mem : ∀ (draws pending : List Key) (token : Key),
    gen_token draws pending = some token → token ∉ pending := by
  intro draws
  induction draws with
  | nil =>
    intro pending token h
    simp [gen_token] at h
  | cons d rest ih =>
    intro pending token h
    unfold gen_token at h
    by_cases hd : d ∈ pending
    · rw [if_pos hd] at h
      exact ih pending token h
    · rw [if_neg hd] at h
      simp only [Option.some_inj] at h
      subst h
      exact hd

theorem erase_append_singleton {l : List Key} {k : Key} (h : k ∉ l) :
    (l ++ [k]).erase k = l := by
  induction l with
  | nil => simp
  | cons x xs ih =>
    have hx : ¬ (x == k) = true := by
      simp only [beq_iff_eq]
      intro he
      exact h (he ▸ List.mem_cons_self x xs)
    rw [List.cons_append, List.erase_cons, if_neg hx,
      ih (fun hm => h (List.mem_cons_of_mem _ hm))]

/-- C8: a completed `send_request` call used a token that was absent from
`PendingRequests` when it registered it, and the token is gone again when the
call returns; on a delivered response the response is returned with the
routing table untouched, and on timeout the call returns absent after evicting
the destination from the routing table. -/
theorem send_request_spec (draws pending : List Key) (t : RoutingTable)
    (dest : NodeData) (outcome : Option Response) (token : Key)
    (res : Option Response) (pending2 : List Key) (t2 : RoutingTable)
    (h : Node.send_request draws pending t dest outcome =
      some (token, res, pending2, t2)) :
    token ∉ pending ∧ pending2 = pending ∧ token ∉ pending2 ∧
    (∀ r, outcome = some r → res = some r ∧ t2 = t) ∧
    (outcome = none → res = none ∧ t2 = t.remove_node dest) := by
  rcases hg : gen_token draws pending with _ | tok
  · unfold Node.send_request at h
    rw [hg] at h
    simp at h
  · have hnot : tok ∉ pending := gen_token_not_mem draws pending tok hg
    have herase : (pending ++ [tok]).erase tok = pending :=
      erase_append_singleton hnot
    rcases outcome with _ | r0
    · have hcomp : Node.send_request draws pending t dest none =
          some (tok, none, (pending ++ [tok]).erase tok, t.remove_node dest) := by
        unfold Node.send_request
        rw [hg]
      rw [hcomp] at h
      simp only [Option.some_inj, Prod.mk.injEq] at h
      obtain ⟨h1, h2, h3, h4⟩ := h
      subst h1
      subst h4
      rw [herase] at h3
      subst h3
      refine ⟨hnot, rfl, hnot, ?_, ?_⟩
      · intro r hr
        cases hr
      · intro _
        exact ⟨h2.symm, rfl⟩
    · have hcomp : Node.send_request draws pending t dest (some r0) =
          some (tok, some r0, (pending ++ [tok]).erase tok, t) := by
        unfold Node.send_request
        rw [hg]
      rw [hcomp] at h
      simp only [Option.some_inj, Prod.mk.injEq] at h
      obtain ⟨h1, h2, h3, h4⟩ := h
      subst h1
      subst h4
      rw [herase] at h3
      subst h3
      refine ⟨hnot, rfl, hnot, ?_, ?_⟩
      · intro r hr
        cases hr
        exact ⟨h2.symm, rfl⟩
      · intro hr
        cases hr

/-- Witness for C8 on concrete inputs (timeout outcome). -/
theorem send_request_spec_witness :
    Node.send_request [[1]] [] (RoutingTable.new ⟨"L", List.replicate 32 0⟩ 0)
      ⟨"d", List.replicate 32 7⟩ none =
      some ([1], none, [],
        (RoutingTable.new ⟨"L", List.replicate 32 0⟩ 0).remove_node
          ⟨"d", List.replicate 32 7⟩) ∧
    ([1] : Key) ∉ ([] : List Key) :=
  ⟨by decide,
   (send_request_spec [[1]] [] (RoutingTable.new ⟨"L", List.replicate 32 0⟩ 0)
     ⟨"d", List.replicate 32 7⟩ none [1] none []
     ((RoutingTable.new ⟨"L", List.replicate 32 0⟩ 0).remove_node
       ⟨"d", List.replicate 32 7⟩) (by decide)).1⟩
/-! ### C3: `insert` and `get` on a peerless routing table -/

theorem getBucket_nodes_eq_nil {bs : List RoutingBucket}
    (h : ∀ b ∈ bs, b.nodes = []) (i : Nat) : (getBucket bs i).nodes = [] := by
  unfold getBucket
  rcases Nat.lt_or_ge i bs.length with hi | hi
  · rw [List.getD_eq_getElem?_getD, List.getElem?_eq_getElem hi]
    exact h _ (List.getElem_mem hi)
  · rw [List.getD_eq_default _ _ hi]

theorem collect_down_empty {bs : List RoutingBucket}
    (h : ∀ b ∈ bs, b.nodes = []) (count : Nat) (i : Nat) :
    ∀ acc, collect_down bs count i acc = acc := by
  induction i with
  | zero => intro acc; rfl
  | succ i ih =>
    intro acc
    simp only [collect_down]
    rw [getBucket_nodes_eq_nil h i, List.append_nil, ih acc]
    split <;> rfl

theorem get_closest_nodes_empty {t : RoutingTable}
    (h : ∀ b ∈ t.buckets, b.nodes = []) (key : Key) (count : Nat) :
    t.get_closest_nodes key count = [] := by
  unfold RoutingTable.get_closest_nodes
  have hflat : ∀ n : Nat,
      ((t.buckets.drop n).map RoutingBucket.nodes).flatten = [] := by
    intro n
    rw [List.flatten_eq_nil_iff]
    intro x hx
    rw [List.mem_map] at hx
    obtain ⟨b, hb, hbe⟩ := hx
    exact hbe ▸ h b (List.mem_of_mem_drop hb)
  simp only [getBucket_nodes_eq_nil h, hflat, List.nil_append, List.append_nil,
    collect_down_empty h]
  split <;> (try split) <;> simp [List.mergeSort_nil]

theorem refillAux_empty_queue (key : Key) (st : LookupState) (h : st.queue = []) :
    ∀ fuel count, refillAux key fuel st count = (st, count) := by
  intro fuel count
  cases fuel with
  | zero => rfl
  | succ fuel =>
    simp only [refillAux]
    rw [h]
    split <;> rfl

theorem refill_empty_queue (key : Key) (st : LookupState) (count : Nat)
    (h : st.queue = []) : refill key st count = (st, count) := by
  unfold refill
  exact refillAux_empty_queue key st h _ count

theorem phase1_zero (key : Key) (oracle : List (Option Response)) (st : LookupState) :
    phase1 key oracle st 0 = phase2 key oracle st 0 := by
  rw [phase1]
  rfl

theorem phase2_zero (key : Key) (oracle : List (Option Response)) (st : LookupState)
    (hq : st.queue = []) (hlen : st.queried_nodes.length < REPLICATION_PARAM) :
    phase2 key oracle st 0 = some (lookupFinalize key st, oracle) := by
  rw [phase2, if_neg (Nat.not_le.mpr hlen), refill_empty_queue key st 0 hq]
  rfl

/-- A routing table with no peers yields an empty `closest_nodes` seed, so the
lookup's queue starts empty: no worker is spawned and the second loop returns
`queried_nodes = \x7blocal_node\x7d` at once. -/
theorem lookup_nodes_empty_table {t : RoutingTable} (local_node : NodeData)
    (key : Key) (oracle : List (Option Response))
    (h : ∀ b ∈ t.buckets, b.nodes = []) :
    Node.lookup_nodes t local_node key oracle =
      some (ResponsePayload.Nodes [local_node], oracle) := by
  unfold Node.lookup_nodes
  rw [get_closest_nodes_empty h]
  show phase1 key oracle
      (refill key ⟨List.replicate KEY_LENGTH 255, [local_node], [local_node], []⟩ 0).1
      (refill key ⟨List.replicate KEY_LENGTH 255, [local_node], [local_node], []⟩ 0).2 =
    some (ResponsePayload.Nodes [local_node], oracle)
  rw [refill_empty_queue key _ 0 rfl]
  show phase1 key oracle
      ⟨List.replicate KEY_LENGTH 255, [local_node], [local_node], []⟩ 0 = _
  rw [phase1_zero,
    phase2_zero key oracle _ rfl (by simp [REPLICATION_PARAM])]
  unfold lookupFinalize
  rw [List.mergeSort_singleton]
  rfl

/-- Counterexample to C3 as stated: on a peerless node, `insert` is not a
no-op — the node lookup returns the local node itself, so `insert` sends one
`Store` RPC (to the local node). -/
theorem insert_empty_table_counterexample :
    Node.insert_dests (RoutingTable.new ⟨"L", List.replicate 32 0⟩ 0)
      ⟨"L", List.replicate 32 0⟩ (List.replicate 32 1) [] =
      some [⟨"L", List.replicate 32 0⟩] ∧
    ([⟨"L", List.replicate 32 0⟩] : List NodeData) ≠ [] := by
  constructor
  · unfold Node.insert_dests
    rw [lookup_nodes_empty_table ⟨"L", List.replicate 32 0⟩ (List.replicate 32 1) []
      (by decide)]
  · simp

/-- C3 (amended): on a node whose routing table contains no peers, `insert`
sends `Store` RPCs exactly to the local node itself (so it is not a no-op but
stores only locally), and `get` returns absent. -/
theorem insert_get_on_empty_table (t : RoutingTable) (local_node : NodeData)
    (key : Key) (oracle : List (Option Response))
    (h : ∀ b ∈ t.buckets, b.nodes = []) :
    Node.insert_dests t local_node key oracle = some [local_node] ∧
    Node.get_result t local_node key oracle = some none := by
  have hl := lookup_nodes_empty_table local_node key oracle h
  constructor
  · unfold Node.insert_dests
    rw [hl]
  · unfold Node.get_result
    rw [hl]

/-- Witness for the amended C3 on a concrete peerless table. -/
theorem insert_get_on_empty_table_witness :
    Node.insert_dests (RoutingTable.new ⟨"W", List.replicate 32 0⟩ 0)
      ⟨"W", List.replicate 32 0⟩ (List.replicate 32 2) [] =
      some [⟨"W", List.replicate 32 0⟩] ∧
    Node.get_result (RoutingTable.new ⟨"W", List.replicate 32 0⟩ 0)
      ⟨"W", List.replicate 32 0⟩ (List.replicate 32 2) [] = some none :=
  insert_get_on_empty_table (RoutingTable.new ⟨"W", List.replicate 32 0⟩ 0)
    ⟨"W", List.replicate 32 0⟩ (List.replicate 32 2) [] (by decide)
/-! ### C1: `get_closest_nodes` returns the closest peers, sorted -/

theorem leading_zeros_xor_of_gt (x y : Key) (hlen : x.length = y.length)
    (hx : ∀ b ∈ x, b < 256) (hy : ∀ b ∈ y, b < 256)
    (hlt : leading_zeros y < leading_zeros x) :
    leading_zeros (xorKey x y) = leading_zeros y := by
  rw [xorKey_comm]
  exact leading_zeros_xor_of_lt y x hlen.symm hy hx hlt

theorem lz_xor_ge_min (x y : Key) (hlen : x.length = y.length)
    (hx : ∀ b ∈ x, b < 256) (hy : ∀ b ∈ y, b < 256) :
    min (leading_zeros x) (leading_zeros y) ≤ leading_zeros (xorKey x y) := by
  rcases Nat.lt_trichotomy (leading_zeros x) (leading_zeros y) with h | h | h
  · rw [leading_zeros_xor_of_lt x y hlen hx hy h]
    omega
  · by_cases hfull : leading_zeros x < 8 * x.length
    · have := leading_zeros_xor_of_eq x y hlen hx hy h hfull
      omega
    · have hxf : leading_zeros x = 8 * x.length :=
        le_antisymm (leading_zeros_le x) (by omega)
      have hyf : leading_zeros y = 8 * y.length := by omega
      have hfull2 := leading_zeros_xor_of_full x y hxf hyf
      rw [hfull2, xorKey_length, ← hlen]
      simp only [Nat.min_self]
      omega
  · rw [leading_zeros_xor_of_gt x y hlen hx hy h]
    omega

theorem distLe_trans (key : Key) (a b c : NodeData) (hab : distLe key a b = true)
    (hbc : distLe key b c = true) : distLe key a c = true :=
  keyLeB_trans _ _ _ hab hbc

theorem distLe_total (key : Key) (a b : NodeData) :
    (distLe key a b || distLe key b a) = true :=
  keyLeB_total _ _

theorem getBucket_take (bs : List RoutingBucket) (n j : Nat) (hj : j < n) :
    getBucket (bs.take n) j = getBucket bs j := by
  unfold getBucket
  rw [List.getD_eq_getElem?_getD, List.getD_eq_getElem?_getD, List.getElem?_take,
    if_pos hj]

theorem getBucket_drop (bs : List RoutingBucket) (k j : Nat) :
    getBucket (bs.drop k) j = getBucket bs (k + j) := by
  unfold getBucket
  rw [List.getD_eq_getElem?_getD, List.getD_eq_getElem?_getD, List.getElem?_drop]

theorem range'_succ_right (n : Nat) : List.range' 0 (n + 1) = List.range' 0 n ++ [n] := by
  have h := List.range'_append 0 n 1 1
  simp only [Nat.one_mul, Nat.zero_add] at h
  rw [show n + 1 = 1 + n by omega, ← h]
  rfl

theorem take_map_nodes_eq_range (bs : List RoutingBucket) :
    ∀ n, n ≤ bs.length →
    (bs.take n).map RoutingBucket.nodes =
      (List.range' 0 n).map (fun j => (getBucket bs j).nodes) := by
  intro n
  induction n with
  | zero => intro _; simp
  | succ n ih =>
    intro hn
    have hn' : n < bs.length := by omega
    rw [List.take_succ, List.map_append, ih (by omega), range'_succ_right,
      List.map_append]
    congr 1
    rw [List.getElem?_eq_getElem hn']
    simp only [Option.toList_some, List.map_cons, List.map_nil]
    rw [getBucket_eq bs n hn']

/-- The walk `for i in (0..index).rev() \x7b ... if ret.len() >= count \x7b break \x7d \x7d`:
it extends `acc` with the buckets of a final segment `[m, i)` of the range, in
descending order, and stops early only once `count` nodes are collected. -/
theorem collect_down_spec (bs : List RoutingBucket) (count : Nat) :
    ∀ (i : Nat) (acc : List NodeData), ∃ m, m ≤ i ∧
      (↑(collect_down bs count i acc) : Multiset NodeData) =
        ↑acc + ↑(((List.range' m (i - m)).map (fun j => (getBucket bs j).nodes)).flatten) ∧
      (m = 0 ∨ count ≤ (collect_down bs count i acc).length) := by
  intro i
  induction i with
  | zero =>
    intro acc
    refine ⟨0, le_refl 0, by simp [collect_down], Or.inl rfl⟩
  | succ i ih =>
    intro acc
    by_cases hc : count ≤ (acc ++ (getBucket bs i).nodes).length
    · refine ⟨i, by omega, ?_, Or.inr ?_⟩
      · simp only [collect_down, if_pos hc]
        have hr : List.range' i (i + 1 - i) = [i] := by
          rw [show i + 1 - i = 1 by omega]
          rfl
        rw [hr]
        simp [← Multiset.coe_add]
      · simp only [collect_down, if_pos hc]
        exact hc
    · obtain ⟨m, hm, heq, hbreak⟩ := ih (acc ++ (getBucket bs i).nodes)
      refine ⟨m, by omega, ?_, ?_⟩
      · simp only [collect_down, if_neg hc]
        rw [heq]
        have hr : List.range' m (i + 1 - m) = List.range' m (i - m) ++ [i] := by
          have h := List.range'_append m (i - m) 1 1
          simp only [Nat.one_mul] at h
          rw [show m + (i - m) = i by omega] at h
          rw [show i + 1 - m = 1 + (i - m) by omega, ← h]
          rfl
        rw [hr, List.map_append, List.flatten_append]
        simp only [List.map_cons, List.map_nil, List.flatten_cons, List.flatten_nil,
          List.append_nil, ← Multiset.coe_add]
        abel
      · simp only [collect_down, if_neg hc]
        exact hbreak
/-- Placement rank, low side: a peer stored below the target bucket is at XOR
distance with exactly its bucket index many leading zeros. -/
theorem rank_low (t : RoutingTable) (key : Key) (hinv : Inv t) (hk : wfKey key)
    (hl : wfKey t.node_data.id)
    (hids : ∀ b ∈ t.buckets, ∀ nd ∈ b.nodes, wfKey nd.id)
    (j : Nat)
    (hj : j < min (leading_zeros (xorKey t.node_data.id key)) (t.buckets.length - 1))
    (q : NodeData) (hq : q ∈ (getBucket t.buckets j).nodes) :
    leading_zeros (xorKey q.id key) = j := by
  obtain ⟨h1, h2, h3, h4, h5⟩ := hinv
  have hjlt : j < t.buckets.length := by omega
  have hqwf : wfKey q.id := hids _ (mem_getBucket_of_lt hjlt) q hq
  have hplace := h5 j hjlt q hq
  unfold bucket_index at hplace
  have hxx := leading_zeros_xor_of_lt (xorKey t.node_data.id q.id)
    (xorKey t.node_data.id key)
    (by rw [(xorKey_wf _ _ hl hqwf).1, (xorKey_wf _ _ hl hk).1])
    (xorKey_bytes_lt _ _ hl.2 hqwf.2) (xorKey_bytes_lt _ _ hl.2 hk.2)
    (by omega)
  rw [xorKey_xorKey t.node_data.id q.id key (by rw [hl.1, hqwf.1]) (by rw [hl.1, hk.1])]
    at hxx
  omega

/-- Placement rank, high side: a peer stored above the target bucket is at XOR
distance with exactly `index` leading zeros. -/
theorem rank_high (t : RoutingTable) (key : Key) (hinv : Inv t) (hk : wfKey key)
    (hl : wfKey t.node_data.id)
    (hids : ∀ b ∈ t.buckets, ∀ nd ∈ b.nodes, wfKey nd.id)
    (i : Nat)
    (hgt : min (leading_zeros (xorKey t.node_data.id key)) (t.buckets.length - 1) < i)
    (hi : i < t.buckets.length)
    (q : NodeData) (hq : q ∈ (getBucket t.buckets i).nodes) :
    leading_zeros (xorKey q.id key) =
      min (leading_zeros (xorKey t.node_data.id key)) (t.buckets.length - 1) := by
  obtain ⟨h1, h2, h3, h4, h5⟩ := hinv
  have hqwf : wfKey q.id := hids _ (mem_getBucket_of_lt hi) q hq
  have hplace := h5 i hi q hq
  unfold bucket_index at hplace
  have hxx := leading_zeros_xor_of_gt (xorKey t.node_data.id q.id)
    (xorKey t.node_data.id key)
    (by rw [(xorKey_wf _ _ hl hqwf).1, (xorKey_wf _ _ hl hk).1])
    (xorKey_bytes_lt _ _ hl.2 hqwf.2) (xorKey_bytes_lt _ _ hl.2 hk.2)
    (by omega)
  rw [xorKey_xorKey t.node_data.id q.id key (by rw [hl.1, hqwf.1]) (by rw [hl.1, hk.1])]
    at hxx
  omega

/-- Placement rank, target bucket: a peer stored in the target bucket is at
XOR distance with at least `index` leading zeros, strictly more when the
target bucket is not the last one. -/
theorem rank_mid (t : RoutingTable) (key : Key) (hinv : Inv t) (hk : wfKey key)
    (hl : wfKey t.node_data.id)
    (hids : ∀ b ∈ t.buckets, ∀ nd ∈ b.nodes, wfKey nd.id)
    (q : NodeData)
    (hq : q ∈ (getBucket t.buckets
      (min (leading_zeros (xorKey t.node_data.id key)) (t.buckets.length - 1))).nodes) :
    min (leading_zeros (xorKey t.node_data.id key)) (t.buckets.length - 1) ≤
      leading_zeros (xorKey q.id key) ∧
    (min (leading_zeros (xorKey t.node_data.id key)) (t.buckets.length - 1) <
        t.buckets.length - 1 →
      min (leading_zeros (xorKey t.node_data.id key)) (t.buckets.length - 1) + 1 ≤
        leading_zeros (xorKey q.id key)) := by
  obtain ⟨h1, h2, h3, h4, h5⟩ := hinv
  have hRT : ROUTING_TABLE_SIZE = 256 := rfl
  have hKL : KEY_LENGTH = 32 := rfl
  have hilt : min (leading_zeros (xorKey t.node_data.id key)) (t.buckets.length - 1) <
      t.buckets.length := by omega
  have hqwf : wfKey q.id := hids _ (mem_getBucket_of_lt hilt) q hq
  have hplace := h5 _ hilt q hq
  unfold bucket_index at hplace
  have hlen1 : (xorKey t.node_data.id q.id).length =
      (xorKey t.node_data.id key).length := by
    rw [(xorKey_wf _ _ hl hqwf).1, (xorKey_wf _ _ hl hk).1]
  have hxeq := xorKey_xorKey t.node_data.id q.id key (by rw [hl.1, hqwf.1])
    (by rw [hl.1, hk.1])
  by_cases hcase : min (leading_zeros (xorKey t.node_data.id key))
      (t.buckets.length - 1) < t.buckets.length - 1
  · have hlt8 : leading_zeros (xorKey t.node_data.id q.id) <
        8 * (xorKey t.node_data.id q.id).length := by
      rw [(xorKey_wf _ _ hl hqwf).1]
      omega
    have hxx := leading_zeros_xor_of_eq (xorKey t.node_data.id q.id)
      (xorKey t.node_data.id key) hlen1
      (xorKey_bytes_lt _ _ hl.2 hqwf.2) (xorKey_bytes_lt _ _ hl.2 hk.2)
      (by omega) hlt8
    rw [hxeq] at hxx
    omega
  · have hxx := lz_xor_ge_min (xorKey t.node_data.id q.id) (xorKey t.node_data.id key)
      hlen1 (xorKey_bytes_lt _ _ hl.2 hqwf.2) (xorKey_bytes_lt _ _ hl.2 hk.2)
    rw [hxeq] at hxx
    omega

/-- Sorting a collected pool and truncating yields the closest peers overall,
provided the pool stopped growing only once `count` peers were in it and
everything outside the pool is at least as far as everything inside. -/
theorem closest_assemble (key : Key) (count : Nat) (all collected : List NodeData)
    (hk : wfKey key)
    (hwf_all : ∀ p ∈ all, wfKey p.id)
    (hsub : (↑collected : Multiset NodeData) ≤ ↑all)
    (hbreak : count ≤ collected.length ∨ (↑collected : Multiset NodeData) = ↑all)
    (hbound : ∀ p ∈ collected, ∀ q : NodeData,
      q ∈ ((↑all : Multiset NodeData) - ↑collected) →
      keyVal (xorKey p.id key) ≤ keyVal (xorKey q.id key)) :
    ((collected.mergeSort (distLe key)).take count).length = min count all.length ∧
    ((collected.mergeSort (distLe key)).take count).Pairwise
      (fun a b => keyVal (xorKey a.id key) ≤ keyVal (xorKey b.id key)) ∧
    ((↑((collected.mergeSort (distLe key)).take count) : Multiset NodeData) ≤ ↑all) ∧
    ∀ p ∈ (collected.mergeSort (distLe key)).take count, ∀ q : NodeData,
      q ∈ ((↑all : Multiset NodeData) -
        ↑((collected.mergeSort (distLe key)).take count)) →
      keyVal (xorKey p.id key) ≤ keyVal (xorKey q.id key) := by
  have hperm : (collected.mergeSort (distLe key)).Perm collected :=
    List.mergeSort_perm collected (distLe key)
  have hslen : (collected.mergeSort (distLe key)).length = collected.length :=
    List.length_mergeSort collected
  have hcoe_sc : (↑(collected.mergeSort (distLe key)) : Multiset NodeData) =
      ↑collected := Multiset.coe_eq_coe.mpr hperm
  have hcard : collected.length ≤ all.length := by
    have := Multiset.card_le_card hsub
    simpa using this
  have hwf_col : ∀ p ∈ collected, wfKey p.id := fun p hp =>
    hwf_all p (Multiset.mem_coe.mp (Multiset.mem_of_le hsub (Multiset.mem_coe.mpr hp)))
  have hwf_sorted : ∀ p ∈ collected.mergeSort (distLe key), wfKey p.id := fun p hp =>
    hwf_col p (hperm.mem_iff.mp hp)
  have hpw : (collected.mergeSort (distLe key)).Pairwise
      (fun a b => keyVal (xorKey a.id key) ≤ keyVal (xorKey b.id key)) := by
    have hs := List.sorted_mergeSort
      (fun a b c hab hbc => distLe_trans key a b c hab hbc)
      (fun a b => distLe_total key a b) collected
    refine List.Pairwise.imp_of_mem ?_ hs
    intro a b ha hb hab
    have hxa := xorKey_wf _ _ (hwf_sorted a ha) hk
    have hxb := xorKey_wf _ _ (hwf_sorted b hb) hk
    exact (keyLeB_iff _ _ (by rw [hxa.1, hxb.1]) hxa.2 hxb.2).mp hab
  have htake_le : (↑((collected.mergeSort (distLe key)).take count) :
      Multiset NodeData) ≤ ↑all := by
    calc (↑((collected.mergeSort (distLe key)).take count) : Multiset NodeData)
        ≤ ↑(collected.mergeSort (distLe key)) :=
          Multiset.coe_le.mpr (List.take_sublist _ _).subperm
      _ = ↑collected := hcoe_sc
      _ ≤ ↑all := hsub
  refine ⟨?_, List.Pairwise.sublist (List.take_sublist _ _) hpw, htake_le, ?_⟩
  · rw [List.length_take, hslen]
    rcases hbreak with hb | hb
    · simp only [min_def]
      split <;> split <;> omega
    · have hlen_eq : collected.length = all.length := by
        have := congrArg Multiset.card hb
        simpa using this
      omega
  · intro p hp q hq
    have hsplit : (↑all : Multiset NodeData) -
        ↑((collected.mergeSort (distLe key)).take count) =
        ((↑all : Multiset NodeData) - ↑collected) +
          ↑((collected.mergeSort (distLe key)).drop count) := by
      rw [tsub_eq_iff_eq_add_of_le htake_le]
      have h3 : (↑((collected.mergeSort (distLe key)).take count) : Multiset NodeData) +
          ↑((collected.mergeSort (distLe key)).drop count) = ↑collected := by
        rw [Multiset.coe_add, List.take_append_drop, hcoe_sc]
      calc (↑all : Multiset NodeData)
          = ((↑all : Multiset NodeData) - ↑collected) + ↑collected :=
            (tsub_add_cancel_of_le hsub).symm
        _ = ((↑all : Multiset NodeData) - ↑collected) +
              (↑((collected.mergeSort (distLe key)).take count) +
                ↑((collected.mergeSort (distLe key)).drop count)) := by rw [h3]
        _ = (((↑all : Multiset NodeData) - ↑collected) +
              ↑((collected.mergeSort (distLe key)).drop count)) +
              ↑((collected.mergeSort (distLe key)).take count) := by
            rw [add_comm (↑((collected.mergeSort (distLe key)).take count) :
                Multiset NodeData)
              (↑((collected.mergeSort (distLe key)).drop count) : Multiset NodeData),
              ← add_assoc]
    rw [hsplit] at hq
    rcases Multiset.mem_add.mp hq with hq2 | hq2
    · exact hbound p (hperm.mem_iff.mp (List.mem_of_mem_take hp)) q hq2
    · have hq3 : q ∈ (collected.mergeSort (distLe key)).drop count :=
        Multiset.mem_coe.mp hq2
      have hpwsplit := List.pairwise_append.mp
        (show ((collected.mergeSort (distLe key)).take count ++
            (collected.mergeSort (distLe key)).drop count).Pairwise
            (fun a b => keyVal (xorKey a.id key) ≤ keyVal (xorKey b.id key)) by
          rw [List.take_append_drop]
          exact hpw)
      exact hpwsplit.2.2 p hp q hq3
/-- C1: `get_closest_nodes(key, count)` returns, for any table satisfying the
routing invariants, exactly `min(count, total peers)` stored peers of minimal
XOR distance to `key`, sorted ascending by that distance: the result's length
is `min(count, total)`, it is sorted ascending by `keyVal (id XOR key)`, it is
a sub-multiset of the stored peers, and every returned peer is at most as far
from `key` as every non-returned stored peer. -/
theorem get_closest_nodes_spec (t : RoutingTable) (key : Key) (count : Nat)
    (hinv : Inv t) (hkey : wfKey key) (hlocal : wfKey t.node_data.id)
    (hids : ∀ b ∈ t.buckets, ∀ nd ∈ b.nodes, wfKey nd.id) :
    (t.get_closest_nodes key count).length = min count (allNodes t).length ∧
    (t.get_closest_nodes key count).Pairwise
      (fun a b => keyVal (xorKey a.id key) ≤ keyVal (xorKey b.id key)) ∧
    ((↑(t.get_closest_nodes key count) : Multiset NodeData) ≤ ↑(allNodes t)) ∧
    ∀ p ∈ t.get_closest_nodes key count, ∀ q : NodeData,
      q ∈ ((↑(allNodes t) : Multiset NodeData) - ↑(t.get_closest_nodes key count)) →
      keyVal (xorKey p.id key) ≤ keyVal (xorKey q.id key) := by
  have h1 : 1 ≤ t.buckets.length := hinv.1
  set idx := min (leading_zeros (xorKey t.node_data.id key)) (t.buckets.length - 1)
    with hidx
  have hidx_lt : idx < t.buckets.length := by omega
  have hwf_all : ∀ p ∈ allNodes t, wfKey p.id := by
    intro p hp
    unfold allNodes at hp
    obtain ⟨i, hi, hpi⟩ := mem_flatten_iff_getBucket.mp hp
    exact hids _ (mem_getBucket_of_lt hi) p hpi
  have hmem_all : ∀ j, j < t.buckets.length →
      ∀ p ∈ (getBucket t.buckets j).nodes, p ∈ allNodes t := by
    intro j hj p hp
    unfold allNodes
    exact mem_flatten_iff_getBucket.mpr ⟨j, hj, hp⟩
  have hcmp : ∀ p q : NodeData, p ∈ allNodes t → q ∈ allNodes t →
      leading_zeros (xorKey q.id key) < leading_zeros (xorKey p.id key) →
      keyVal (xorKey p.id key) ≤ keyVal (xorKey q.id key) := by
    intro p q hpa hqa hlt
    have hpw := xorKey_wf _ _ (hwf_all p hpa) hkey
    have hqw := xorKey_wf _ _ (hwf_all q hqa) hkey
    exact le_of_lt (keyVal_lt_keyVal_of_lz_lt (xorKey q.id key) (xorKey p.id key)
      hqw.2 hpw.2 (by rw [hqw.1, hpw.1]) hlt)
  have hall : allNodes t =
      ((t.buckets.take idx).map RoutingBucket.nodes).flatten ++
      ((getBucket t.buckets idx).nodes ++
        ((t.buckets.drop (idx + 1)).map RoutingBucket.nodes).flatten) := by
    unfold allNodes
    exact flatten_map_decompose t.buckets idx hidx_lt
  have hall_m : (↑(allNodes t) : Multiset NodeData) =
      ↑(((t.buckets.take idx).map RoutingBucket.nodes).flatten) +
      (↑((getBucket t.buckets idx).nodes) +
        ↑(((t.buckets.drop (idx + 1)).map RoutingBucket.nodes).flatten)) := by
    rw [hall, ← Multiset.coe_add, ← Multiset.coe_add]
  have hmemA : ∀ q ∈ ((t.buckets.take idx).map RoutingBucket.nodes).flatten,
      ∃ j, j < idx ∧ q ∈ (getBucket t.buckets j).nodes := by
    intro q hq
    obtain ⟨j, hj, hqj⟩ := mem_flatten_iff_getBucket.mp hq
    rw [List.length_take] at hj
    refine ⟨j, by omega, ?_⟩
    rw [← getBucket_take t.buckets idx j (by omega)]
    exact hqj
  have hmemC : ∀ q ∈ ((t.buckets.drop (idx + 1)).map RoutingBucket.nodes).flatten,
      ∃ j, idx < j ∧ j < t.buckets.length ∧ q ∈ (getBucket t.buckets j).nodes := by
    intro q hq
    obtain ⟨j, hj, hqj⟩ := mem_flatten_iff_getBucket.mp hq
    rw [List.length_drop] at hj
    refine ⟨idx + 1 + j, by omega, by omega, ?_⟩
    rw [← getBucket_drop t.buckets (idx + 1) j]
    exact hqj
  have hmemRange : ∀ (s n : Nat) (q : NodeData),
      q ∈ ((List.range' s n).map (fun j => (getBucket t.buckets j).nodes)).flatten →
      ∃ j, s ≤ j ∧ j < s + n ∧ q ∈ (getBucket t.buckets j).nodes := by
    intro s n q hq
    obtain ⟨l, hl, hql⟩ := List.mem_flatten.mp hq
    obtain ⟨j, hj, hje⟩ := List.mem_map.mp hl
    rw [List.mem_range'_1] at hj
    exact ⟨j, hj.1, hj.2, hje ▸ hql⟩
  by_cases hc0 : ((getBucket t.buckets idx).nodes).length < count
  · by_cases hc1 : ((getBucket t.buckets idx).nodes ++
        ((t.buckets.drop (idx + 1)).map RoutingBucket.nodes).flatten).length < count
    · -- the walk down is entered
      obtain ⟨m, hm, heq, hbrk⟩ := collect_down_spec t.buckets count idx
        ((getBucket t.buckets idx).nodes ++
          ((t.buckets.drop (idx + 1)).map RoutingBucket.nodes).flatten)
      have hgc : t.get_closest_nodes key count =
          ((collect_down t.buckets count idx
            ((getBucket t.buckets idx).nodes ++
              ((t.buckets.drop (idx + 1)).map RoutingBucket.nodes).flatten)).mergeSort
                (distLe key)).take count := by
        simp only [RoutingTable.get_closest_nodes]
        rw [← hidx, if_pos hc0, if_pos hc1]
      have hA2 : ((t.buckets.take idx).map RoutingBucket.nodes).flatten =
          ((List.range' 0 idx).map (fun j => (getBucket t.buckets j).nodes)).flatten := by
        rw [take_map_nodes_eq_range t.buckets idx (le_of_lt hidx_lt)]
      have hr0 : List.range' 0 idx = List.range' 0 m ++ List.range' m (idx - m) := by
        have h := List.range'_append 0 m (idx - m) 1
        simp only [Nat.one_mul, Nat.zero_add] at h
        rw [show idx - m + m = idx by omega] at h
        exact h.symm
      have hAsplit : (↑(((t.buckets.take idx).map RoutingBucket.nodes).flatten) :
          Multiset NodeData) =
          ↑(((List.range' 0 m).map (fun j => (getBucket t.buckets j).nodes)).flatten) +
          ↑(((List.range' m (idx - m)).map
            (fun j => (getBucket t.buckets j).nodes)).flatten) := by
        rw [hA2, hr0, List.map_append, List.flatten_append, ← Multiset.coe_add]
      have hall_m3 : (↑(allNodes t) : Multiset NodeData) =
          ↑(((List.range' 0 m).map (fun j => (getBucket t.buckets j).nodes)).flatten) +
          ↑(collect_down t.buckets count idx
            ((getBucket t.buckets idx).nodes ++
              ((t.buckets.drop (idx + 1)).map RoutingBucket.nodes).flatten)) := by
        rw [hall_m, hAsplit, heq]
        simp only [← Multiset.coe_add]
        abel
      have hsub : (↑(collect_down t.buckets count idx
          ((getBucket t.buckets idx).nodes ++
            ((t.buckets.drop (idx + 1)).map RoutingBucket.nodes).flatten)) :
          Multiset NodeData) ≤ ↑(allNodes t) := by
        rw [hall_m3]
        exact self_le_add_left _ _
      have hbreak : count ≤ (collect_down t.buckets count idx
          ((getBucket t.buckets idx).nodes ++
            ((t.buckets.drop (idx + 1)).map RoutingBucket.nodes).flatten)).length ∨
          (↑(collect_down t.buckets count idx
            ((getBucket t.buckets idx).nodes ++
              ((t.buckets.drop (idx + 1)).map RoutingBucket.nodes).flatten)) :
            Multiset NodeData) = ↑(allNodes t) := by
        rcases hbrk with hb0 | hble
        · right
          rw [hall_m3, hb0]
          simp
        · exact Or.inl hble
      have hmem_col : ∀ p, p ∈ collect_down t.buckets count idx
          ((getBucket t.buckets idx).nodes ++
            ((t.buckets.drop (idx + 1)).map RoutingBucket.nodes).flatten) →
          p ∈ allNodes t ∧ idx ≤ leading_zeros (xorKey p.id key) ∨
          (∃ j, m ≤ j ∧ j < idx ∧ p ∈ (getBucket t.buckets j).nodes) := by
        intro p hp
        have hp2 : p ∈ (↑(collect_down t.buckets count idx
            ((getBucket t.buckets idx).nodes ++
              ((t.buckets.drop (idx + 1)).map RoutingBucket.nodes).flatten)) :
            Multiset NodeData) := Multiset.mem_coe.mpr hp
        rw [heq] at hp2
        rcases Multiset.mem_add.mp hp2 with hpx | hpD
        · left
          rcases List.mem_append.mp (Multiset.mem_coe.mp hpx) with hpB | hpC
          · exact ⟨hmem_all idx hidx_lt p hpB,
              (rank_mid t key hinv hkey hlocal hids p hpB).1⟩
          · obtain ⟨j, hjgt, hjlt, hpj⟩ := hmemC p hpC
            have hr := rank_high t key hinv hkey hlocal hids j hjgt hjlt p hpj
            exact ⟨hmem_all j hjlt p hpj, by omega⟩
        · right
          obtain ⟨j, hjm, hjlt, hpj⟩ := hmemRange m (idx - m) p (Multiset.mem_coe.mp hpD)
          exact ⟨j, hjm, by omega, hpj⟩
      have hbound : ∀ p ∈ collect_down t.buckets count idx
          ((getBucket t.buckets idx).nodes ++
            ((t.buckets.drop (idx + 1)).map RoutingBucket.nodes).flatten),
          ∀ q : NodeData,
          q ∈ ((↑(allNodes t) : Multiset NodeData) -
            ↑(collect_down t.buckets count idx
              ((getBucket t.buckets idx).nodes ++
                ((t.buckets.drop (idx + 1)).map RoutingBucket.nodes).flatten))) →
          keyVal (xorKey p.id key) ≤ keyVal (xorKey q.id key) := by
        intro p hp q hq
        have hU : (↑(allNodes t) : Multiset NodeData) -
            ↑(collect_down t.buckets count idx
              ((getBucket t.buckets idx).nodes ++
                ((t.buckets.drop (idx + 1)).map RoutingBucket.nodes).flatten)) =
            ↑(((List.range' 0 m).map (fun j => (getBucket t.buckets j).nodes)).flatten)
            := by
          rw [hall_m3, add_tsub_cancel_right]
        rw [hU] at hq
        obtain ⟨j, _, hjm, hqj⟩ := hmemRange 0 m q (Multiset.mem_coe.mp hq)
        have hjidx : j < idx := by omega
        have hrq := rank_low t key hinv hkey hlocal hids j (by omega) q hqj
        have hqa : q ∈ allNodes t := hmem_all j (by omega) q hqj
        rcases hmem_col p hp with ⟨hpa, hrp⟩ | ⟨j2, hj2m, hj2idx, hpj2⟩
        · exact hcmp p q hpa hqa (by omega)
        · have hrp := rank_low t key hinv hkey hlocal hids j2 (by omega) p hpj2
          have hpa : p ∈ allNodes t := hmem_all j2 (by omega) p hpj2
          exact hcmp p q hpa hqa (by omega)
      have := closest_assemble key count (allNodes t)
        (collect_down t.buckets count idx
          ((getBucket t.buckets idx).nodes ++
            ((t.buckets.drop (idx + 1)).map RoutingBucket.nodes).flatten))
        hkey hwf_all hsub hbreak hbound
      rw [hgc]
      exact this
    · -- the target bucket and everything above it suffice
      have hgc : t.get_closest_nodes key count =
          (((getBucket t.buckets idx).nodes ++
            ((t.buckets.drop (idx + 1)).map RoutingBucket.nodes).flatten).mergeSort
              (distLe key)).take count := by
        simp only [RoutingTable.get_closest_nodes]
        rw [← hidx, if_pos hc0, if_neg hc1]
      have hall_m2 : (↑(allNodes t) : Multiset NodeData) =
          ↑(((t.buckets.take idx).map RoutingBucket.nodes).flatten) +
          ↑((getBucket t.buckets idx).nodes ++
            ((t.buckets.drop (idx + 1)).map RoutingBucket.nodes).flatten) := by
        rw [hall, ← Multiset.coe_add]
      have hsub : (↑((getBucket t.buckets idx).nodes ++
          ((t.buckets.drop (idx + 1)).map RoutingBucket.nodes).flatten) :
          Multiset NodeData) ≤ ↑(allNodes t) := by
        rw [hall_m2]
        exact self_le_add_left _ _
      have hbound : ∀ p ∈ (getBucket t.buckets idx).nodes ++
          ((t.buckets.drop (idx + 1)).map RoutingBucket.nodes).flatten,
          ∀ q : NodeData,
          q ∈ ((↑(allNodes t) : Multiset NodeData) -
            ↑((getBucket t.buckets idx).nodes ++
              ((t.buckets.drop (idx + 1)).map RoutingBucket.nodes).flatten)) →
          keyVal (xorKey p.id key) ≤ keyVal (xorKey q.id key) := by
        intro p hp q hq
        have hU : (↑(allNodes t) : Multiset NodeData) -
            ↑((getBucket t.buckets idx).nodes ++
              ((t.buckets.drop (idx + 1)).map RoutingBucket.nodes).flatten) =
            ↑(((t.buckets.take idx).map RoutingBucket.nodes).flatten) := by
          rw [hall_m2, add_tsub_cancel_right]
        rw [hU] at hq
        obtain ⟨j, hjidx, hqj⟩ := hmemA q (Multiset.mem_coe.mp hq)
        have hrq := rank_low t key hinv hkey hlocal hids j (by omega) q hqj
        have hqa : q ∈ allNodes t := hmem_all j (by omega) q hqj
        rcases List.mem_append.mp hp with hpB | hpC
        · have hrp := (rank_mid t key hinv hkey hlocal hids p hpB).1
          exact hcmp p q (hmem_all idx hidx_lt p hpB) hqa (by omega)
        · obtain ⟨j2, hj2gt, hj2lt, hpj2⟩ := hmemC p hpC
          have hrp := rank_high t key hinv hkey hlocal hids j2 hj2gt hj2lt p hpj2
          exact hcmp p q (hmem_all j2 hj2lt p hpj2) hqa (by omega)
      have := closest_assemble key count (allNodes t)
        ((getBucket t.buckets idx).nodes ++
          ((t.buckets.drop (idx + 1)).map RoutingBucket.nodes).flatten)
        hkey hwf_all hsub (Or.inl (Nat.not_lt.mp hc1)) hbound
      rw [hgc]
      exact this
  · -- the target bucket alone suffices
    have hgc : t.get_closest_nodes key count =
        (((getBucket t.buckets idx).nodes).mergeSort (distLe key)).take count := by
      simp only [RoutingTable.get_closest_nodes]
      rw [← hidx, if_neg hc0, if_neg hc0]
    have hsub : (↑((getBucket t.buckets idx).nodes) : Multiset NodeData) ≤
        ↑(allNodes t) := by
      rw [hall_m]
      calc (↑((getBucket t.buckets idx).nodes) : Multiset NodeData)
          ≤ ↑((getBucket t.buckets idx).nodes) +
            ↑(((t.buckets.drop (idx + 1)).map RoutingBucket.nodes).flatten) :=
            self_le_add_right _ _
        _ ≤ _ := self_le_add_left _ _
    have hbound : ∀ p ∈ (getBucket t.buckets idx).nodes, ∀ q : NodeData,
        q ∈ ((↑(allNodes t) : Multiset NodeData) -
          ↑((getBucket t.buckets idx).nodes)) →
        keyVal (xorKey p.id key) ≤ keyVal (xorKey q.id key) := by
      intro p hp q hq
      have hU : (↑(allNodes t) : Multiset NodeData) -
          ↑((getBucket t.buckets idx).nodes) =
          ↑(((t.buckets.take idx).map RoutingBucket.nodes).flatten) +
          ↑(((t.buckets.drop (idx + 1)).map RoutingBucket.nodes).flatten) := by
        rw [hall_m]
        have hcomm : (↑(((t.buckets.take idx).map RoutingBucket.nodes).flatten) :
            Multiset NodeData) +
            (↑((getBucket t.buckets idx).nodes) +
              ↑(((t.buckets.drop (idx + 1)).map RoutingBucket.nodes).flatten)) =
            (↑(((t.buckets.take idx).map RoutingBucket.nodes).flatten) +
              ↑(((t.buckets.drop (idx + 1)).map RoutingBucket.nodes).flatten)) +
            ↑((getBucket t.buckets idx).nodes) := by
          abel
        rw [hcomm, add_tsub_cancel_right]
      rw [hU] at hq
      have hpa : p ∈ allNodes t := hmem_all idx hidx_lt p hp
      rcases Multiset.mem_add.mp hq with hqA | hqC
      · obtain ⟨j, hjidx, hqj⟩ := hmemA q (Multiset.mem_coe.mp hqA)
        have hrq := rank_low t key hinv hkey hlocal hids j (by omega) q hqj
        have hrp := (rank_mid t key hinv hkey hlocal hids p hp).1
        exact hcmp p q hpa (hmem_all j (by omega) q hqj) (by omega)
      · obtain ⟨j, hjgt, hjlt, hqj⟩ := hmemC q (Multiset.mem_coe.mp hqC)
        have hrq := rank_high t key hinv hkey hlocal hids j hjgt hjlt q hqj
        have hrp := (rank_mid t key hinv hkey hlocal hids p hp).2 (by omega)
        exact hcmp p q hpa (hmem_all j hjlt q hqj) (by omega)
    have := closest_assemble key count (allNodes t)
      ((getBucket t.buckets idx).nodes)
      hkey hwf_all hsub (Or.inl (Nat.not_lt.mp hc0)) hbound
    rw [hgc]
    exact this
/-- Witness for C1 on a concrete two-peer table. -/
theorem get_closest_nodes_spec_witness :
    Inv (⟨[⟨[⟨"a", 128 :: List.replicate 31 0⟩, ⟨"b", 64 :: List.replicate 31 0⟩], 0⟩],
      ⟨"L", List.replicate 32 0⟩⟩ : RoutingTable) ∧
    ((⟨[⟨[⟨"a", 128 :: List.replicate 31 0⟩, ⟨"b", 64 :: List.replicate 31 0⟩], 0⟩],
      ⟨"L", List.replicate 32 0⟩⟩ : RoutingTable).get_closest_nodes
        (List.replicate 32 7) 1).length =
      min 1 (allNodes (⟨[⟨[⟨"a", 128 :: List.replicate 31 0⟩,
        ⟨"b", 64 :: List.replicate 31 0⟩], 0⟩],
        ⟨"L", List.replicate 32 0⟩⟩ : RoutingTable)).length :=
  ⟨by decide,
   (get_closest_nodes_spec
     (⟨[⟨[⟨"a", 128 :: List.replicate 31 0⟩, ⟨"b", 64 :: List.replicate 31 0⟩], 0⟩],
       ⟨"L", List.replicate 32 0⟩⟩ : RoutingTable)
     (List.replicate 32 7) 1 (by decide) (by decide) (by decide) (by decide)).1⟩
/-! ### C2: `lookup_nodes` returns the first `Value`, else the closest responders -/

theorem refillAux_queried (key : Key) : ∀ (fuel : Nat) (st : LookupState) (count : Nat),
    ((refillAux key fuel st count).1).queried_nodes = st.queried_nodes := by
  intro fuel
  induction fuel with
  | zero => intro st count; rfl
  | succ fuel ih =>
    intro st count
    simp only [refillAux]
    by_cases hc : count < CONCURRENCY_PARAM
    · rw [if_pos hc]
      cases hpm : popMin key st.queue with
      | none => rfl
      | some pr => exact ih _ _
    · rw [if_neg hc]

theorem refill_queried (key : Key) (st : LookupState) (count : Nat) :
    ((refill key st count).1).queried_nodes = st.queried_nodes :=
  refillAux_queried key _ st count

theorem pnp2_fold_queried (key : Key) : ∀ (nodes : List NodeData) (st : LookupState),
    ((nodes.foldl (fun st node_data =>
      if node_data ∈ st.found_nodes then st
      else { st with found_nodes := st.found_nodes ++ [node_data],
                     queue := st.queue ++ [node_data] }) st)).queried_nodes =
    st.queried_nodes := by
  intro nodes
  induction nodes with
  | nil => intro st; rfl
  | cons nd rest ih =>
    intro st
    rw [List.foldl_cons, ih]
    by_cases hmem : nd ∈ st.found_nodes <;> simp [hmem]

theorem processNodesPhase2_queried (key : Key) (st : LookupState)
    (nodes : List NodeData) :
    (processNodesPhase2 key st nodes).queried_nodes = st.queried_nodes :=
  pnp2_fold_queried key nodes st

theorem pnp1_fold_queried (key : Key) : ∀ (nodes : List NodeData)
    (p : LookupState × Bool),
    ((nodes.foldl (fun (p : LookupState × Bool) node_data =>
      if node_data ∈ p.1.found_nodes then p
      else
        let curr_distance := xorKey node_data.id key
        let closer := keyLtB curr_distance p.1.closest_distance
        ({ closest_distance := if closer then curr_distance else p.1.closest_distance,
           found_nodes := p.1.found_nodes ++ [node_data],
           queried_nodes := p.1.queried_nodes,
           queue := p.1.queue ++ [node_data] }, p.2 || closer)) p).1).queried_nodes =
    p.1.queried_nodes := by
  intro nodes
  induction nodes with
  | nil => intro p; rfl
  | cons nd rest ih =>
    intro p
    rw [List.foldl_cons, ih]
    by_cases hmem : nd ∈ p.1.found_nodes <;> simp [hmem]

theorem processNodesPhase1_queried (key : Key) (st : LookupState)
    (nodes : List NodeData) :
    ((processNodesPhase1 key st nodes).1).queried_nodes = st.queried_nodes :=
  pnp1_fold_queried key nodes (st, false)

theorem queriedFold_cons (acc : List NodeData) (r : Response)
    (rest : List (Option Response)) :
    queriedFold acc (some r :: rest) =
      match r.payload with
      | ResponsePayload.Nodes _ => queriedFold (insertSet acc r.receiver) rest
      | _ => queriedFold acc rest := rfl
/-- The fill-to-k loop of `lookup_nodes`: whatever it returns, it consumed a
prefix of the oracle; it returns the first delivered `Value` at once, and
otherwise `queried_nodes` (grown by the receivers of the consumed `Nodes`
responses) sorted by distance and truncated to `REPLICATION_PARAM`. -/
theorem phase2_spec (key : Key) : ∀ (oracle : List (Option Response))
    (st : LookupState) (count : Nat) (payload : ResponsePayload)
    (rest : List (Option Response)),
    phase2 key oracle st count = some (payload, rest) →
    ∃ consumed, oracle = consumed ++ rest ∧
      ((∃ pre r v, consumed = pre ++ [some r] ∧
          (∀ x ∈ pre, isValueResp x = false) ∧
          r.payload = ResponsePayload.Value v ∧
          payload = ResponsePayload.Value v) ∨
       ((∀ x ∈ consumed, isValueResp x = false) ∧
        payload = ResponsePayload.Nodes
          (((queriedFold st.queried_nodes consumed).mergeSort
            (distLe key)).take REPLICATION_PARAM))) := by
  intro oracle
  induction oracle with
  | nil =>
    intro st count payload rest h
    rw [phase2] at h
    by_cases hq : REPLICATION_PARAM ≤ st.queried_nodes.length
    · rw [if_pos hq] at h
      simp only [Option.some_inj, Prod.mk.injEq] at h
      refine ⟨[], by rw [← h.2]; rfl, Or.inr ⟨by simp, ?_⟩⟩
      rw [← h.1]
      rfl
    · rw [if_neg hq] at h
      rcases hrf : refill key st count with ⟨st1, c1⟩
      rw [hrf] at h
      have hstq : st1.queried_nodes = st.queried_nodes := by
        have hh := refill_queried key st count
        rw [hrf] at hh
        exact hh
      have h2 : (if c1 = 0 then
          some (lookupFinalize key st1, ([] : List (Option Response)))
        else none) = some (payload, rest) := h
      by_cases hc1 : c1 = 0
      · rw [if_pos hc1] at h2
        simp only [Option.some_inj, Prod.mk.injEq] at h2
        refine ⟨[], by rw [← h2.2]; rfl, Or.inr ⟨by simp, ?_⟩⟩
        rw [← h2.1]
        unfold lookupFinalize
        rw [hstq]
        rfl
      · rw [if_neg hc1] at h2
        simp at h2
  | cons o rest' ih =>
    intro st count payload rest h
    rw [phase2] at h
    by_cases hq : REPLICATION_PARAM ≤ st.queried_nodes.length
    · rw [if_pos hq] at h
      simp only [Option.some_inj, Prod.mk.injEq] at h
      refine ⟨[], by rw [← h.2]; rfl, Or.inr ⟨by simp, ?_⟩⟩
      rw [← h.1]
      rfl
    · rw [if_neg hq] at h
      rcases hrf : refill key st count with ⟨st1, c1⟩
      rw [hrf] at h
      have hstq : st1.queried_nodes = st.queried_nodes := by
        have hh := refill_queried key st count
        rw [hrf] at hh
        exact hh
      rcases o with _ | ⟨rq, rcv, rpl⟩
      · have h2 : (if c1 = 0 then
            some (lookupFinalize key st1, (none : Option Response) :: rest')
          else phase2 key rest' st1 (c1 - 1)) = some (payload, rest) := h
        by_cases hc1 : c1 = 0
        · rw [if_pos hc1] at h2
          simp only [Option.some_inj, Prod.mk.injEq] at h2
          refine ⟨[], by rw [← h2.2]; rfl, Or.inr ⟨by simp, ?_⟩⟩
          rw [← h2.1]
          unfold lookupFinalize
          rw [hstq]
          rfl
        · rw [if_neg hc1] at h2
          obtain ⟨consumed, hcons, hdisj⟩ := ih st1 (c1 - 1) payload rest h2
          refine ⟨none :: consumed, by rw [hcons]; rfl, ?_⟩
          rcases hdisj with ⟨pre, r, v, hpre, hval, hrv, hpay⟩ | ⟨hnoval, hpay⟩
          · refine Or.inl ⟨none :: pre, r, v, by rw [hpre]; rfl, ?_, hrv, hpay⟩
            intro x hx
            rcases List.mem_cons.mp hx with h0 | h0
            · rw [h0]; rfl
            · exact hval x h0
          · refine Or.inr ⟨?_, ?_⟩
            · intro x hx
              rcases List.mem_cons.mp hx with h0 | h0
              · rw [h0]; rfl
              · exact hnoval x h0
            · rw [hpay, hstq]
              rfl
      · rcases rpl with ns | v | _
        · have h2 : (if c1 = 0 then
              some (lookupFinalize key st1,
                some (⟨rq, rcv, ResponsePayload.Nodes ns⟩ : Response) :: rest')
            else phase2 key rest' (processNodesPhase2 key
              { st1 with queried_nodes := insertSet st1.queried_nodes rcv }
              ns) (c1 - 1)) = some (payload, rest) := h
          by_cases hc1 : c1 = 0
          · rw [if_pos hc1] at h2
            simp only [Option.some_inj, Prod.mk.injEq] at h2
            refine ⟨[], by rw [← h2.2]; rfl, Or.inr ⟨by simp, ?_⟩⟩
            rw [← h2.1]
            unfold lookupFinalize
            rw [hstq]
            rfl
          · rw [if_neg hc1] at h2
            obtain ⟨consumed, hcons, hdisj⟩ := ih _ (c1 - 1) payload rest h2
            have hq2 : (processNodesPhase2 key
                { st1 with queried_nodes := insertSet st1.queried_nodes rcv }
                ns).queried_nodes = insertSet st.queried_nodes rcv := by
              rw [processNodesPhase2_queried]
              show insertSet st1.queried_nodes rcv = _
              rw [hstq]
            refine ⟨some ⟨rq, rcv, ResponsePayload.Nodes ns⟩ :: consumed,
              by rw [hcons]; rfl, ?_⟩
            rcases hdisj with ⟨pre, r, v, hpre, hval, hrv, hpay⟩ | ⟨hnoval, hpay⟩
            · refine Or.inl ⟨some ⟨rq, rcv, ResponsePayload.Nodes ns⟩ :: pre, r, v,
                by rw [hpre]; rfl, ?_, hrv, hpay⟩
              intro x hx
              rcases List.mem_cons.mp hx with h0 | h0
              · rw [h0]; rfl
              · exact hval x h0
            · refine Or.inr ⟨?_, ?_⟩
              · intro x hx
                rcases List.mem_cons.mp hx with h0 | h0
                · rw [h0]; rfl
                · exact hnoval x h0
              · rw [hpay, hq2]
                rfl
        · have h2 : (if c1 = 0 then
              some (lookupFinalize key st1,
                some (⟨rq, rcv, ResponsePayload.Value v⟩ : Response) :: rest')
            else some (ResponsePayload.Value v, rest')) = some (payload, rest) := h
          by_cases hc1 : c1 = 0
          · rw [if_pos hc1] at h2
            simp only [Option.some_inj, Prod.mk.injEq] at h2
            refine ⟨[], by rw [← h2.2]; rfl, Or.inr ⟨by simp, ?_⟩⟩
            rw [← h2.1]
            unfold lookupFinalize
            rw [hstq]
            rfl
          · rw [if_neg hc1] at h2
            simp only [Option.some_inj, Prod.mk.injEq] at h2
            exact ⟨[some ⟨rq, rcv, ResponsePayload.Value v⟩], by rw [← h2.2]; rfl,
              Or.inl ⟨[], ⟨rq, rcv, ResponsePayload.Value v⟩, v, rfl, by simp, rfl,
                h2.1.symm⟩⟩
        · have h2 : (if c1 = 0 then
              some (lookupFinalize key st1,
                some (⟨rq, rcv, ResponsePayload.Pong⟩ : Response) :: rest')
            else phase2 key rest' st1 (c1 - 1)) = some (payload, rest) := h
          by_cases hc1 : c1 = 0
          · rw [if_pos hc1] at h2
            simp only [Option.some_inj, Prod.mk.injEq] at h2
            refine ⟨[], by rw [← h2.2]; rfl, Or.inr ⟨by simp, ?_⟩⟩
            rw [← h2.1]
            unfold lookupFinalize
            rw [hstq]
            rfl
          · rw [if_neg hc1] at h2
            obtain ⟨consumed, hcons, hdisj⟩ := ih st1 (c1 - 1) payload rest h2
            refine ⟨some ⟨rq, rcv, ResponsePayload.Pong⟩ :: consumed,
              by rw [hcons]; rfl, ?_⟩
            rcases hdisj with ⟨pre, r, v, hpre, hval, hrv, hpay⟩ | ⟨hnoval, hpay⟩
            · refine Or.inl ⟨some ⟨rq, rcv, ResponsePayload.Pong⟩ :: pre, r, v,
                by rw [hpre]; rfl, ?_, hrv, hpay⟩
              intro x hx
              rcases List.mem_cons.mp hx with h0 | h0
              · rw [h0]; rfl
              · exact hval x h0
            · refine Or.inr ⟨?_, ?_⟩
              · intro x hx
                rcases List.mem_cons.mp hx with h0 | h0
                · rw [h0]; rfl
                · exact hnoval x h0
              · rw [hpay, hstq]
                rfl
/-- The progress loop of `lookup_nodes`: same consumption contract as
`phase2_spec`, covering the hand-off to the fill-to-k loop. -/
theorem phase1_spec (key : Key) : ∀ (oracle : List (Option Response))
    (st : LookupState) (count : Nat) (payload : ResponsePayload)
    (rest : List (Option Response)),
    phase1 key oracle st count = some (payload, rest) →
    ∃ consumed, oracle = consumed ++ rest ∧
      ((∃ pre r v, consumed = pre ++ [some r] ∧
          (∀ x ∈ pre, isValueResp x = false) ∧
          r.payload = ResponsePayload.Value v ∧
          payload = ResponsePayload.Value v) ∨
       ((∀ x ∈ consumed, isValueResp x = false) ∧
        payload = ResponsePayload.Nodes
          (((queriedFold st.queried_nodes consumed).mergeSort
            (distLe key)).take REPLICATION_PARAM))) := by
  intro oracle
  induction oracle with
  | nil =>
    intro st count payload rest h
    rw [phase1] at h
    by_cases hc : count = 0
    · rw [if_pos hc] at h
      exact phase2_spec key [] st count payload rest h
    · rw [if_neg hc] at h
      have h2 : (none : Option (ResponsePayload × List (Option Response))) =
          some (payload, rest) := h
      simp at h2
  | cons o rest' ih =>
    intro st count payload rest h
    rw [phase1] at h
    by_cases hc : count = 0
    · rw [if_pos hc] at h
      exact phase2_spec key (o :: rest') st count payload rest h
    · rw [if_neg hc] at h
      rcases hrf : refill key st count with ⟨st1, c1⟩
      rw [hrf] at h
      have hstq : st1.queried_nodes = st.queried_nodes := by
        have hh := refill_queried key st count
        rw [hrf] at hh
        exact hh
      rcases o with _ | ⟨rq, rcv, rpl⟩
      · have h2 : phase1 key rest' st1 (c1 - 1) = some (payload, rest) := h
        obtain ⟨consumed, hcons, hdisj⟩ := ih st1 (c1 - 1) payload rest h2
        refine ⟨none :: consumed, by rw [hcons]; rfl, ?_⟩
        rcases hdisj with ⟨pre, r, v, hpre, hval, hrv, hpay⟩ | ⟨hnoval, hpay⟩
        · refine Or.inl ⟨none :: pre, r, v, by rw [hpre]; rfl, ?_, hrv, hpay⟩
          intro x hx
          rcases List.mem_cons.mp hx with h0 | h0
          · rw [h0]; rfl
          · exact hval x h0
        · refine Or.inr ⟨?_, ?_⟩
          · intro x hx
            rcases List.mem_cons.mp hx with h0 | h0
            · rw [h0]; rfl
            · exact hnoval x h0
          · rw [hpay, hstq]
            rfl
      · rcases rpl with ns | v | _
        · rcases hpr : processNodesPhase1 key
              { st1 with queried_nodes := insertSet st1.queried_nodes rcv } ns
            with ⟨st2, progress⟩
          have h2 : (if (processNodesPhase1 key
                { st1 with queried_nodes := insertSet st1.queried_nodes rcv } ns).2 = true
              then phase1 key rest'
                (processNodesPhase1 key
                  { st1 with queried_nodes := insertSet st1.queried_nodes rcv } ns).1
                (c1 - 1)
              else phase2 key rest'
                (processNodesPhase1 key
                  { st1 with queried_nodes := insertSet st1.queried_nodes rcv } ns).1
                (c1 - 1)) = some (payload, rest) := h
          rw [hpr] at h2
          have hq2 : st2.queried_nodes = insertSet st.queried_nodes rcv := by
            have hh := processNodesPhase1_queried key
              { st1 with queried_nodes := insertSet st1.queried_nodes rcv } ns
            rw [hpr] at hh
            show st2.queried_nodes = _
            rw [← hstq]
            exact hh
          have hstep : ∀ consumed,
              rest' = consumed ++ rest →
              ((∃ pre r v, consumed = pre ++ [some r] ∧
                  (∀ x ∈ pre, isValueResp x = false) ∧
                  r.payload = ResponsePayload.Value v ∧
                  payload = ResponsePayload.Value v) ∨
               ((∀ x ∈ consumed, isValueResp x = false) ∧
                payload = ResponsePayload.Nodes
                  (((queriedFold st2.queried_nodes consumed).mergeSort
                    (distLe key)).take REPLICATION_PARAM))) →
              ∃ consumed2,
                some (⟨rq, rcv, ResponsePayload.Nodes ns⟩ : Response) :: rest' =
                  consumed2 ++ rest ∧
                ((∃ pre r v, consumed2 = pre ++ [some r] ∧
                    (∀ x ∈ pre, isValueResp x = false) ∧
                    r.payload = ResponsePayload.Value v ∧
                    payload = ResponsePayload.Value v) ∨
                 ((∀ x ∈ consumed2, isValueResp x = false) ∧
                  payload = ResponsePayload.Nodes
                    (((queriedFold st.queried_nodes consumed2).mergeSort
                      (distLe key)).take REPLICATION_PARAM))) := by
            intro consumed hcons hdisj
            refine ⟨some ⟨rq, rcv, ResponsePayload.Nodes ns⟩ :: consumed,
              by rw [hcons]; rfl, ?_⟩
            rcases hdisj with ⟨pre, r, v, hpre, hval, hrv, hpay⟩ | ⟨hnoval, hpay⟩
            · refine Or.inl ⟨some ⟨rq, rcv, ResponsePayload.Nodes ns⟩ :: pre, r, v,
                by rw [hpre]; rfl, ?_, hrv, hpay⟩
              intro x hx
              rcases List.mem_cons.mp hx with h0 | h0
              · rw [h0]; rfl
              · exact hval x h0
            · refine Or.inr ⟨?_, ?_⟩
              · intro x hx
                rcases List.mem_cons.mp hx with h0 | h0
                · rw [h0]; rfl
                · exact hnoval x h0
              · rw [hpay, hq2]
                rfl
          cases progress with
          | true =>
            rw [if_pos rfl] at h2
            obtain ⟨consumed, hcons, hdisj⟩ := ih st2 (c1 - 1) payload rest h2
            exact hstep consumed hcons hdisj
          | false =>
            rw [if_neg (by simp)] at h2
            obtain ⟨consumed, hcons, hdisj⟩ :=
              phase2_spec key rest' st2 (c1 - 1) payload rest h2
            exact hstep consumed hcons hdisj
        · have h2 : some (ResponsePayload.Value v, rest') = some (payload, rest) := h
          simp only [Option.some_inj, Prod.mk.injEq] at h2
          exact ⟨[some ⟨rq, rcv, ResponsePayload.Value v⟩], by rw [← h2.2]; rfl,
            Or.inl ⟨[], ⟨rq, rcv, ResponsePayload.Value v⟩, v, rfl, by simp, rfl,
              h2.1.symm⟩⟩
        · have h2 : phase1 key rest' st1 (c1 - 1) = some (payload, rest) := h
          obtain ⟨consumed, hcons, hdisj⟩ := ih st1 (c1 - 1) payload rest h2
          refine ⟨some ⟨rq, rcv, ResponsePayload.Pong⟩ :: consumed,
            by rw [hcons]; rfl, ?_⟩
          rcases hdisj with ⟨pre, r, v, hpre, hval, hrv, hpay⟩ | ⟨hnoval, hpay⟩
          · refine Or.inl ⟨some ⟨rq, rcv, ResponsePayload.Pong⟩ :: pre, r, v,
              by rw [hpre]; rfl, ?_, hrv, hpay⟩
            intro x hx
            rcases List.mem_cons.mp hx with h0 | h0
            · rw [h0]; rfl
            · exact hval x h0
          · refine Or.inr ⟨?_, ?_⟩
            · intro x hx
              rcases List.mem_cons.mp hx with h0 | h0
              · rw [h0]; rfl
              · exact hnoval x h0
            · rw [hpay, hstq]
              rfl
/-- C2: a `lookup_nodes(target_key, find_node)` run that returns consumed a
prefix of its response stream; if a consumed response carried a `Value`
payload, the first such response's value is returned immediately (nothing is
consumed after it); otherwise the call returns `Nodes(ret)` where `ret` is
exactly `queried` — the receivers of the responses, seeded with the local
node's own `NodeData` — sorted ascending by XOR distance to the target and
truncated to `REPLICATION_PARAM = 20` entries. -/
theorem lookup_nodes_spec (t : RoutingTable) (local_node : NodeData) (key : Key)
    (oracle : List (Option Response)) (payload : ResponsePayload)
    (rest : List (Option Response))
    (h : Node.lookup_nodes t local_node key oracle = some (payload, rest)) :
    ∃ consumed, oracle = consumed ++ rest ∧
      ((∃ pre r v, consumed = pre ++ [some r] ∧
          (∀ x ∈ pre, isValueResp x = false) ∧
          r.payload = ResponsePayload.Value v ∧
          payload = ResponsePayload.Value v) ∨
       ((∀ x ∈ consumed, isValueResp x = false) ∧
        payload = ResponsePayload.Nodes
          (((queriedFold [local_node] consumed).mergeSort
            (distLe key)).take REPLICATION_PARAM))) := by
  unfold Node.lookup_nodes at h
  obtain ⟨consumed, hcons, hdisj⟩ := phase1_spec key oracle _ _ payload rest h
  refine ⟨consumed, hcons, ?_⟩
  rcases hdisj with hleft | ⟨hnoval, hpay⟩
  · exact Or.inl hleft
  · refine Or.inr ⟨hnoval, ?_⟩
    rw [hpay, refill_queried]
    rfl
/-- Witness for C2 on a concrete run (peerless table, empty oracle, so the
call returns `Nodes [local]` consuming nothing). -/
theorem lookup_nodes_spec_witness :
    Node.lookup_nodes (RoutingTable.new ⟨"V", List.replicate 32 0⟩ 0)
      ⟨"V", List.replicate 32 0⟩ (List.replicate 32 9) [] =
      some (ResponsePayload.Nodes [⟨"V", List.replicate 32 0⟩], []) ∧
    (∃ consumed, ([] : List (Option Response)) = consumed ++ [] ∧
      ((∃ pre r v, consumed = pre ++ [some r] ∧
          (∀ x ∈ pre, isValueResp x = false) ∧
          r.payload = ResponsePayload.Value v ∧
          ResponsePayload.Nodes [(⟨"V", List.replicate 32 0⟩ : NodeData)] =
            ResponsePayload.Value v) ∨
       ((∀ x ∈ consumed, isValueResp x = false) ∧
        ResponsePayload.Nodes [(⟨"V", List.replicate 32 0⟩ : NodeData)] =
          ResponsePayload.Nodes
            (((queriedFold [⟨"V", List.replicate 32 0⟩] consumed).mergeSort
              (distLe (List.replicate 32 9))).take REPLICATION_PARAM)))) :=
  ⟨lookup_nodes_empty_table ⟨"V", List.replicate 32 0⟩ (List.replicate 32 9) []
     (by decide),
   lookup_nodes_spec (RoutingTable.new ⟨"V", List.replicate 32 0⟩ 0)
     ⟨"V", List.replicate 32 0⟩ (List.replicate 32 9) []
     (ResponsePayload.Nodes [⟨"V", List.replicate 32 0⟩]) []
     (lookup_nodes_empty_table ⟨"V", List.replicate 32 0⟩ (List.replicate 32 9) []
       (by decide))⟩

end Kademlia
